import Mathlib

/-!
# Exact decimal addition on digit strings (`main.cpp`)

A shallow embedding of `src/main.cpp` and a verification of its specification.

Modelling conventions.
* `std::string` is `List Char`.  A position `pos` inside a string `s` is represented by the
  suffix of `s` that starts at `pos`; `pos == s.size()` is "the suffix is empty".
* The `int` values of the source (`scale`, `max_scale`, `sum_len`, the loop indices `i`, `j`)
  are integers.  A string length stored in an `int` is converted by `int_of`, which wraps
  modulo `2^32` into the range of a 32-bit `int`; a string of `2^31` characters or more therefore
  gets a negative or truncated index, scale or length, as in the source.
* A difference of two `int` values whose exact result leaves the range of `int` is undefined
  behaviour in the source (every such difference is the size of a `std::string` to build or a
  position passed to `substr`); the step then has no result (`none`).
* `substr` with a position beyond the end of the string throws in the source and ends the
  program; `format_result` then has no result (`none`).
* The backwards loops of `add_absolute` and `subtract_absolute` (`a[i--]` for `i` from
  `int i = a.length() - 1` down to `0`) are recursions over `index_down a`, the characters in the
  order the loop reads them; an exhausted index is an empty list.
* `c - '0'` is an `Int`; `x + '0'` pushed into the string is `Char.ofNat` of that code (the models
  agree with the source whenever the code is an ASCII character, which is all the digit loops
  ever produce on digit strings).
* Characters are compared by their code, which is the source's comparison of `char` on ASCII
  text.
-/

namespace DecimalAdd

/-! ## The program -/

/-- Structure holding the broken-down parts of a number (`struct NumberParts`). -/
structure NumberParts where
  sign : Char
  integer : List Char
  fractional : List Char
  scale : Int
deriving DecidableEq, Repr

/-- The value of a string length (a `size_t`, possibly less one) once stored in the source's
32-bit `int`: it wraps modulo `2^32` into `-2^31 .. 2^31 - 1`. -/
def int_of (x : Int) : Int := (x + 2147483648) % 4294967296 - 2147483648

/-- Whether the exact result of an `int` operation is in the range of a 32-bit `int`. -/
def fits_int (x : Int) : Bool := decide (-2147483648 ≤ x) && decide (x < 2147483648)

/-- The C library test `isdigit` on a character of the string. -/
def isdigit (c : Char) : Bool := decide ('0' ≤ c) && decide (c ≤ '9')

/-- Check if a string represents a valid double number (`is_valid_double`, lines 18-55).
`r0` is the suffix at `pos` after the optional sign, `r1` after the integer digits, `r3` after
the fractional digits. -/
def is_valid_double (s : List Char) : Bool :=
  match s with
  | [] => false
  | c :: rest =>
    let signed : Bool := decide (c = '+') || decide (c = '-')
    let r0 := if signed then rest else s
    if signed && r0.isEmpty then false
    else
      let digits_a := (r0.takeWhile isdigit).length
      let r1 := r0.dropWhile isdigit
      if digits_a = 0 then false
      else
        match r1 with
        | '.' :: r2 =>
          let digits_b := (r2.takeWhile isdigit).length
          let r3 := r2.dropWhile isdigit
          if digits_b = 0 then false else r3.isEmpty
        | _ => r1.isEmpty

/-- Break a number string into its components (`parse_number`, lines 58-94).  On the empty
string `s[0]` is the terminating null character, which is no sign. -/
def parse_number (s : List Char) : NumberParts :=
  let signed : Bool := decide (s.head? = some '+') || decide (s.head? = some '-')
  let sign : Char := if signed then s.headD '+' else '+'
  let r0 := if signed then s.tail else s
  let integer := r0.takeWhile (fun c => decide (c ≠ '.'))
  match r0.dropWhile (fun c => decide (c ≠ '.')) with
  | '.' :: r2 =>
    { sign := sign, integer := integer, fractional := r2, scale := int_of r2.length }
  | _ => { sign := sign, integer := integer, fractional := [], scale := 0 }

/-- The digit-by-digit loop of `compare_absolute` (lines 103-106) on two strings of the same
length. -/
def compare_loop : List Char → List Char → Int
  | x :: xs, y :: ys => if x > y then 1 else if x < y then -1 else compare_loop xs ys
  | _, _ => 0

/-- Compare two absolute value strings (`compare_absolute`, lines 97-109). -/
def compare_absolute (a b : List Char) : Int :=
  if a.length > b.length then 1
  else if a.length < b.length then -1
  else compare_loop a b

/-- The value `c - '0'` of a character. -/
def digit_of (c : Char) : Int := (c.toNat : Int) - 48

/-- The character `x + '0'`. -/
def char_of (x : Int) : Char := Char.ofNat (x + 48).toNat

/-- The idiom `find_first_not_of('0')` followed by `substr` / `erase`, with `"0"` for a string
of zeros only (lines 139-144, 186-191, 327-328, 337-338, 344-345, 352-353). -/
def strip_leading_zeros (s : List Char) : List Char :=
  match s.dropWhile (fun c => decide (c = '0')) with
  | [] => ['0']
  | r => r

/-- The characters `a[i], a[i-1], ..., a[0]` that a loop reads with `a[i--]` when it starts at
`int i = a.length() - 1` (lines 120-121, 161-162): none when the index is negative. -/
def index_down (a : List Char) : List Char :=
  (a.take (int_of ((a.length : Int) - 1) + 1).toNat).reverse

/-- The iterations of the loop of `add_absolute` that run once both indices are exhausted and
only `carry > 0` keeps it going; `fuel` bounds the number of iterations. -/
def carry_loop : Nat → Int → List Char
  | 0, _ => []
  | fuel + 1, carry =>
    if carry > 0 then char_of (Int.tmod carry 10) :: carry_loop fuel (Int.tdiv carry 10) else []

/-- The iterations of the loop of `add_absolute` that run once index `i` is exhausted: the
remaining characters of `b` (reversed), then the carry. -/
def add_loop_b : List Char → Int → List Char
  | [], carry => carry_loop carry.toNat carry
  | y :: ys, carry =>
    let sum := 0 + digit_of y + carry
    char_of (Int.tmod sum 10) :: add_loop_b ys (Int.tdiv sum 10)

/-- The loop of `add_absolute` (lines 124-133) over the characters that the indices `i` and `j`
read; the result is in `push_back` order. -/
def add_loop : List Char → List Char → Int → List Char
  | [], ys, carry => add_loop_b ys carry
  | x :: xs, [], carry =>
    let sum := digit_of x + 0 + carry
    char_of (Int.tmod sum 10) :: add_loop xs [] (Int.tdiv sum 10)
  | x :: xs, y :: ys, carry =>
    let sum := digit_of x + digit_of y + carry
    char_of (Int.tmod sum 10) :: add_loop xs ys (Int.tdiv sum 10)

/-- Add two absolute value strings (`add_absolute`, lines 112-147). -/
def add_absolute (a b : List Char) : List Char :=
  let a1 := if a.length < b.length then b else a
  let b1 := if a.length < b.length then a else b
  let result := add_loop (index_down a1) (index_down b1) 0
  strip_leading_zeros result.reverse

/-- One iteration of the loop body of `subtract_absolute` (lines 169-179): the pushed digit and
the new borrow. -/
def sub_step (digit_a digit_b borrow : Int) : Char × Int :=
  let d := digit_a - borrow
  if d < digit_b then (char_of (d + 10 - digit_b), 1) else (char_of (d - digit_b), 0)

/-- The iterations of the loop of `subtract_absolute` that run once index `i` is exhausted:
the remaining characters of `b` (reversed). -/
def sub_loop_b : List Char → Int → List Char
  | [], _ => []
  | y :: ys, borrow =>
    (sub_step 0 (digit_of y) borrow).1 :: sub_loop_b ys (sub_step 0 (digit_of y) borrow).2

/-- The loop of `subtract_absolute` (lines 164-180) over the characters that the indices `i`
and `j` read. -/
def sub_loop : List Char → List Char → Int → List Char
  | [], ys, borrow => sub_loop_b ys borrow
  | x :: xs, [], borrow =>
    (sub_step (digit_of x) 0 borrow).1 :: sub_loop xs [] (sub_step (digit_of x) 0 borrow).2
  | x :: xs, y :: ys, borrow =>
    (sub_step (digit_of x) (digit_of y) borrow).1 ::
      sub_loop xs ys (sub_step (digit_of x) (digit_of y) borrow).2

/-- Subtract absolute value strings (`subtract_absolute`, lines 150-199). -/
def subtract_absolute (a b : List Char) : List Char :=
  let negative : Bool := decide (compare_absolute a b < 0)
  let a1 := if negative then b else a
  let b1 := if negative then a else b
  let result := strip_leading_zeros (sub_loop (index_down a1) (index_down b1) 0).reverse
  if negative then '-' :: result else result

/-- Add two numbers with signs considered (`add_signed_numbers`, lines 202-237). -/
def add_signed_numbers (a b : List Char) : List Char :=
  let sign_a : Char := if a.head? = some '-' then '-' else '+'
  let abs_a := if a.head? = some '-' then a.tail else a
  let sign_b : Char := if b.head? = some '-' then '-' else '+'
  let abs_b := if b.head? = some '-' then b.tail else b
  if sign_a = '+' ∧ sign_b = '+' then add_absolute abs_a abs_b
  else if sign_a = '+' ∧ sign_b = '-' then subtract_absolute abs_a abs_b
  else if sign_a = '-' ∧ sign_b = '+' then subtract_absolute abs_b abs_a
  else '-' :: add_absolute abs_a abs_b

/-- Format the sum string with proper decimal placement (`format_result`, lines 240-280).
The result is `none` when the second `substr` of line 275 is given a position beyond the end
of the string, which throws, and when `max_scale - sum_len` (line 270) or `sum_len - max_scale`
(lines 274-275) overflows. -/
def format_result (sum_str : List Char) (max_scale : Int) : Option (List Char) :=
  let sign : List Char := if sum_str.head? = some '-' then ['-'] else []
  let absolute_sum_str := if sum_str.head? = some '-' then sum_str.tail else sum_str
  if absolute_sum_str = ['0'] then
    if max_scale > 0 then some (sign ++ ['0'] ++ ('.' :: List.replicate max_scale.toNat '0'))
    else some (sign ++ ['0'])
  else if max_scale = 0 then some (sign ++ absolute_sum_str)
  else
    let sum_len := int_of absolute_sum_str.length
    if sum_len ≤ max_scale then
      if fits_int (max_scale - sum_len) then
        some (sign ++ ['0', '.'] ++
          (List.replicate (max_scale - sum_len).toNat '0' ++ absolute_sum_str))
      else none
    else if fits_int (sum_len - max_scale) ∧
        (sum_len - max_scale).toNat ≤ absolute_sum_str.length then
      some (sign ++ absolute_sum_str.take (sum_len - max_scale).toNat ++ ['.'] ++
        absolute_sum_str.drop (sum_len - max_scale).toNat)
    else none

/-- The steps of `main` that turn the parts of one operand into a signed digit string at the
common scale (lines 324-340 for the candidate, 342-354 for the fixed number).  The result is
`none` when `max_scale - parts.scale` (lines 333, 349) overflows. -/
def normalize_parts (parts : NumberParts) (max_scale : Int) : Option (List Char) :=
  let stripped_integer := strip_leading_zeros parts.integer
  if max_scale > parts.scale ∧ ¬ fits_int (max_scale - parts.scale) then none
  else
    let padded_fractional :=
      if max_scale > parts.scale then
        parts.fractional ++ List.replicate (max_scale - parts.scale).toNat '0'
      else parts.fractional
    let combined_str := strip_leading_zeros (stripped_integer ++ padded_fractional)
    some (if parts.sign = '-' then '-' :: combined_str else combined_str)

/-- The body of the loop of `main` after parsing (lines 322-360), for the parts of the
candidate and the parts of the number added to it. -/
def add_parts (a_parts b_parts : NumberParts) : Option (List Char) :=
  let max_scale := max a_parts.scale b_parts.scale
  match normalize_parts a_parts max_scale, normalize_parts b_parts max_scale with
  | some signed_a_str, some signed_b_str =>
    format_result (add_signed_numbers signed_a_str signed_b_str) max_scale
  | _, _ => none

/-- The fixed number -123.456 prepared by `main` (lines 304-308). -/
def b_parts : NumberParts :=
  { sign := '-', integer := ['1', '2', '3'], fractional := ['4', '5', '6'], scale := 3 }

deriving instance DecidableEq for Except

/-- The per-candidate step of `main` (lines 311-364): the text printed for one candidate,
tagged as the "is invalid" notice or as the formatted result (`none` if the program ended
without one). -/
def process_candidate (candidate : List Char) : Except (List Char) (Option (List Char)) :=
  if !is_valid_double candidate then
    Except.error (candidate ++ " is invalid".toList)
  else
    Except.ok (add_parts (parse_number candidate) b_parts)

/-- The two-operand pipeline: `main`'s per-candidate pipeline with the parts of the second
operand taken from `parse_number b` instead of the fixed number. -/
def add (a b : List Char) : Option (List Char) :=
  add_parts (parse_number a) (parse_number b)


/-! ## Reading digit strings -/

/-- All characters of the string are decimal digits. -/
def all_digits (s : List Char) : Bool := s.all isdigit

/-- The number denoted by a string of decimal digits, most significant digit first. -/
def digits_value (s : List Char) : Int := s.foldl (fun acc c => 10 * acc + digit_of c) 0

/-- A digit string without leading zeros other than the single "0". -/
def canonical (s : List Char) : Bool :=
  all_digits s && !s.isEmpty && (decide (s.head? ≠ some '0') || decide (s = ['0']))

/-- A signed digit string: the magnitude `m`, with a leading '-' when `neg`. -/
def signed_str (neg : Bool) (m : List Char) : List Char := if neg then '-' :: m else m

/-- The value of a magnitude with its sign. -/
def signed_int (neg : Bool) (v : Int) : Int := if neg then -v else v

/-- A decimal literal laid out from its sign characters, integer digits and fractional digits;
the decimal point is present exactly when there are fractional digits. -/
def layout (sg ip fp : List Char) : List Char :=
  sg ++ ip ++ (if fp = [] then [] else '.' :: fp)

/-- The grammar `[+-]?[0-9]+(\.[0-9]+)?` of decimal literals, matched in full. -/
def matches_grammar (s : List Char) : Prop :=
  ∃ sg ip : List Char, (sg = [] ∨ sg = ['+'] ∨ sg = ['-']) ∧ ip ≠ [] ∧ all_digits ip = true ∧
    (s = sg ++ ip ∨
      ∃ fp : List Char, fp ≠ [] ∧ all_digits fp = true ∧ s = sg ++ ip ++ '.' :: fp)

/-- The literal without its optional leading sign character. -/
def literal_body (s : List Char) : List Char :=
  match s with
  | '+' :: r => r
  | '-' :: r => r
  | _ => s

/-- The characters of a literal before its decimal point (sign excluded). -/
def integer_digits (s : List Char) : List Char :=
  (literal_body s).takeWhile (fun c => decide (c ≠ '.'))

/-- The characters of a literal after its decimal point; empty when there is no point. -/
def fraction_digits (s : List Char) : List Char :=
  ((literal_body s).dropWhile (fun c => decide (c ≠ '.'))).tail

/-- The rational number a decimal literal denotes: its digits read as an integer, divided by
ten to the number of digits after the point, negated when the literal starts with '-'. -/
def decimal_value (s : List Char) : ℚ :=
  (if s.head? = some '-' then -1 else 1) *
    ((digits_value (integer_digits s ++ fraction_digits s) : Int) : ℚ) /
      (10 : ℚ) ^ (fraction_digits s).length

/-- The part of `is_valid_double` that follows the optional sign (lines 31-54), as a function
of the suffix `r0` that remains to be scanned. -/
def body_ok (r0 : List Char) : Bool :=
  if (r0.takeWhile isdigit).length = 0 then false
  else
    match r0.dropWhile isdigit with
    | '.' :: r2 =>
      if (r2.takeWhile isdigit).length = 0 then false else (r2.dropWhile isdigit).isEmpty
    | _ => (r0.dropWhile isdigit).isEmpty

/-- Well-formedness of the three pieces of a laid-out literal: an optional sign character, at
least one integer digit, and fractional digits. -/
def lit_ok (sg ip fp : List Char) : Prop :=
  (sg = [] ∨ sg = ['+'] ∨ sg = ['-']) ∧ ip ≠ [] ∧ all_digits ip = true ∧ all_digits fp = true

/-- The signed integer a laid-out literal denotes when it is expressed at scale `m`. -/
def scaled_int (sg ip fp : List Char) (m : Nat) : Int :=
  signed_int (decide (sg = ['-'])) (digits_value (ip ++ fp) * 10 ^ (m - fp.length))

/-- The text of zero at scale `m`: "0", or "0." followed by `m` zeros. -/
def zero_text (m : Nat) : List Char :=
  if m = 0 then ['0'] else '0' :: '.' :: List.replicate m '0'

/-- The canonical form of a literal: a '-' only when the literal denotes a negative number, the
integer digits without leading zeros (a single "0" if none remain), and the fractional digits
unchanged after a '.' when there are any. -/
def canonical_form (a : List Char) : List Char :=
  (if decimal_value a < 0 then ['-'] else []) ++ strip_leading_zeros (integer_digits a) ++
    (if fraction_digits a = [] then [] else '.' :: fraction_digits a)

/-- The literal with its sign flipped: a leading '-' is removed; otherwise a leading '+' is
replaced by '-', or a '-' is put in front. -/
def negate (a : List Char) : List Char :=
  match a with
  | '-' :: r => r
  | '+' :: r => '-' :: r
  | _ => '-' :: a

/-- The magnitude of a signed digit string: the string without its leading '-', if any. -/
def magnitude (s : List Char) : List Char := if s.head? = some '-' then s.tail else s

/-- The integer a signed digit string denotes. -/
def signed_value (s : List Char) : Int :=
  if s.head? = some '-' then -digits_value s.tail else digits_value s

/-- A canonical signed magnitude: a canonical digit string, optionally preceded by '-', other
than "-0". -/
def signed_magnitude (s : List Char) : Bool :=
  canonical (magnitude s) && !decide (s = ['-', '0'])

/-- The integer part `format_result` prints for a non-zero magnitude at scale `k > 0`: "0" when
the magnitude has at most `k` digits, otherwise its first `length - k` digits. -/
def integer_part_of (mg : List Char) (k : Nat) : List Char :=
  if mg.length ≤ k then ['0'] else mg.take (mg.length - k)

/-- The `k` fractional digits `format_result` prints for a non-zero magnitude at scale `k > 0`:
the magnitude padded with zeros on the left when it has at most `k` digits, otherwise its last
`k` digits. -/
def fraction_part_of (mg : List Char) (k : Nat) : List Char :=
  if mg.length ≤ k then List.replicate (k - mg.length) '0' ++ mg else mg.drop (mg.length - k)


/-! ## Characters and digits -/

theorem isdigit_iff (c : Char) : isdigit c = true ↔ 48 ≤ c.toNat ∧ c.toNat ≤ 57 := by
  simp only [isdigit, Bool.and_eq_true, decide_eq_true_eq]
  exact Iff.rfl

theorem isdigit_cases {c : Char} (h : isdigit c = true) :
    ∃ n : Nat, n < 10 ∧ c = Char.ofNat (n + 48) := by
  rw [isdigit_iff] at h
  refine ⟨c.toNat - 48, by omega, ?_⟩
  have : c.toNat - 48 + 48 = c.toNat := by omega
  rw [this, Char.ofNat_toNat]

theorem digit_of_range {c : Char} (h : isdigit c = true) : 0 ≤ digit_of c ∧ digit_of c ≤ 9 := by
  rw [isdigit_iff] at h
  unfold digit_of
  omega

theorem char_of_digit {x : Int} (h0 : 0 ≤ x) (h9 : x ≤ 9) :
    isdigit (char_of x) = true ∧ digit_of (char_of x) = x := by
  interval_cases x <;> decide

theorem char_of_eq_zero {x : Int} (h0 : 0 ≤ x) (h9 : x ≤ 9) : char_of x = '0' ↔ x = 0 := by
  interval_cases x <;> decide

theorem digit_of_inj {c d : Char} (h : digit_of c = digit_of d) : c = d := by
  unfold digit_of at h
  apply Char.ext
  apply UInt32.ext
  show c.toNat = d.toNat
  omega

theorem digit_lt_iff (c d : Char) : c < d ↔ digit_of c < digit_of d := by
  unfold digit_of
  have : c < d ↔ c.toNat < d.toNat := Iff.rfl
  rw [this]
  omega

theorem digit_of_zero : digit_of '0' = 0 := by decide

theorem isdigit_ne_dot {c : Char} (h : isdigit c = true) : c ≠ '.' := by
  rintro rfl; revert h; decide

theorem isdigit_ne_minus {c : Char} (h : isdigit c = true) : c ≠ '-' := by
  rintro rfl; revert h; decide

theorem isdigit_ne_plus {c : Char} (h : isdigit c = true) : c ≠ '+' := by
  rintro rfl; revert h; decide

/-! ## Digit strings and their values -/

theorem all_digits_nil : all_digits [] = true := rfl

theorem all_digits_cons (c : Char) (s : List Char) :
    all_digits (c :: s) = (isdigit c && all_digits s) := rfl

theorem all_digits_iff (s : List Char) : all_digits s = true ↔ ∀ c ∈ s, isdigit c = true := by
  simp [all_digits, List.all_eq_true]

theorem all_digits_append (s t : List Char) :
    all_digits (s ++ t) = (all_digits s && all_digits t) := by
  simp [all_digits, List.all_append]

theorem all_digits_reverse (s : List Char) : all_digits s.reverse = all_digits s := by
  simp [all_digits, List.all_reverse]

theorem all_digits_replicate (k : Nat) : all_digits (List.replicate k '0') = true := by
  rw [all_digits_iff]
  intro c hc
  rw [List.eq_of_mem_replicate hc]
  decide

theorem foldl_value_acc (s : List Char) (acc : Int) :
    s.foldl (fun acc c => 10 * acc + digit_of c) acc
      = acc * 10 ^ s.length + s.foldl (fun acc c => 10 * acc + digit_of c) 0 := by
  induction s generalizing acc with
  | nil => simp
  | cons c s ih =>
    simp only [List.foldl_cons, List.length_cons]
    rw [ih (10 * acc + digit_of c), ih (10 * 0 + digit_of c)]
    ring

theorem digits_value_nil : digits_value [] = 0 := rfl

theorem digits_value_cons (c : Char) (s : List Char) :
    digits_value (c :: s) = digit_of c * 10 ^ s.length + digits_value s := by
  unfold digits_value
  rw [List.foldl_cons, foldl_value_acc]
  ring_nf

theorem digits_value_append (s t : List Char) :
    digits_value (s ++ t) = digits_value s * 10 ^ t.length + digits_value t := by
  unfold digits_value
  rw [List.foldl_append, foldl_value_acc]

theorem digits_value_snoc (s : List Char) (c : Char) :
    digits_value (s ++ [c]) = 10 * digits_value s + digit_of c := by
  rw [digits_value_append, digits_value_cons]
  simp [digits_value_nil]
  ring

theorem digits_value_replicate_zero (k : Nat) : digits_value (List.replicate k '0') = 0 := by
  induction k with
  | zero => rfl
  | succ k ih =>
    rw [List.replicate_succ, digits_value_cons, ih, digit_of_zero]
    simp

theorem digits_value_nonneg {s : List Char} (h : all_digits s = true) : 0 ≤ digits_value s := by
  induction s with
  | nil => simp [digits_value_nil]
  | cons c s ih =>
    rw [all_digits_cons, Bool.and_eq_true] at h
    rw [digits_value_cons]
    have h1 := digit_of_range h.1
    have h2 := ih h.2
    have h3 : 0 ≤ digit_of c * 10 ^ s.length := mul_nonneg h1.1 (by positivity)
    omega

theorem digits_value_lt {s : List Char} (h : all_digits s = true) :
    digits_value s < 10 ^ s.length := by
  induction s with
  | nil => simp [digits_value_nil]
  | cons c s ih =>
    rw [all_digits_cons, Bool.and_eq_true] at h
    rw [digits_value_cons, List.length_cons, pow_succ]
    have h1 := digit_of_range h.1
    have h2 := ih h.2
    nlinarith [pow_pos (show (0:Int) < 10 by norm_num) s.length]

/-! ## Leading zeros and canonical digit strings -/

theorem digits_value_dropWhile_zero (s : List Char) :
    digits_value (s.dropWhile (fun c => decide (c = '0'))) = digits_value s := by
  induction s with
  | nil => rfl
  | cons c s ih =>
    by_cases hc : c = '0'
    · subst hc
      rw [List.dropWhile_cons_of_pos (by simp), ih, digits_value_cons, digit_of_zero]
      simp
    · rw [List.dropWhile_cons_of_neg (by simpa using hc)]

theorem all_digits_dropWhile {s : List Char} (p : Char → Bool) (h : all_digits s = true) :
    all_digits (s.dropWhile p) = true := by
  rw [all_digits_iff] at h ⊢
  intro c hc
  exact h c ((List.dropWhile_suffix p).subset hc)

theorem head_dropWhile_zero (s : List Char) :
    (s.dropWhile (fun c => decide (c = '0'))).head? ≠ some '0' := by
  intro h
  have := List.head?_dropWhile_not (fun c => decide (c = '0')) s
  rw [h] at this
  simp at this

theorem strip_leading_zeros_eq (s : List Char) :
    strip_leading_zeros s =
      if s.dropWhile (fun c => decide (c = '0')) = [] then ['0']
      else s.dropWhile (fun c => decide (c = '0')) := by
  unfold strip_leading_zeros
  split
  · next h => rw [h]; rfl
  · next h => rw [if_neg h]

theorem digits_value_strip (s : List Char) :
    digits_value (strip_leading_zeros s) = digits_value s := by
  rw [strip_leading_zeros_eq]
  split
  · next h =>
    rw [← digits_value_dropWhile_zero s, h]
    rfl
  · exact digits_value_dropWhile_zero s

theorem canonical_iff (s : List Char) :
    canonical s = true ↔
      all_digits s = true ∧ s ≠ [] ∧ (s.head? ≠ some '0' ∨ s = ['0']) := by
  unfold canonical
  cases s <;> simp

theorem canonical_strip {s : List Char} (h : all_digits s = true) :
    canonical (strip_leading_zeros s) = true := by
  rw [strip_leading_zeros_eq]
  split
  · decide
  · next hne =>
    rw [canonical_iff]
    exact ⟨all_digits_dropWhile _ h, hne, Or.inl (head_dropWhile_zero s)⟩

theorem strip_of_canonical {s : List Char} (h : canonical s = true) :
    strip_leading_zeros s = s := by
  rw [canonical_iff] at h
  obtain ⟨_, hne, h0⟩ := h
  rcases h0 with h0 | h0
  · cases s with
    | nil => exact absurd rfl hne
    | cons c t =>
      have hc : c ≠ '0' := by simpa using h0
      rw [strip_leading_zeros_eq, List.dropWhile_cons_of_neg (by simpa using hc)]
      simp
  · subst h0; rfl

theorem canonical_digits {s : List Char} (h : canonical s = true) : all_digits s = true :=
  ((canonical_iff s).1 h).1

theorem canonical_ne_nil {s : List Char} (h : canonical s = true) : s ≠ [] :=
  ((canonical_iff s).1 h).2.1

theorem canonical_head_ne_minus {s : List Char} (h : canonical s = true) :
    s.head? ≠ some '-' := by
  have hd := canonical_digits h
  cases s with
  | nil => simp
  | cons c t =>
    rw [all_digits_cons, Bool.and_eq_true] at hd
    simpa using isdigit_ne_minus hd.1

/-- A canonical string other than "0" starts with a non-zero digit, so its value is at least
`10 ^ (length - 1)`. -/
theorem canonical_value_ge {s : List Char} (h : canonical s = true) (h0 : s ≠ ['0']) :
    10 ^ (s.length - 1) ≤ digits_value s := by
  rw [canonical_iff] at h
  obtain ⟨hd, hne, hz⟩ := h
  cases s with
  | nil => exact absurd rfl hne
  | cons c t =>
    rw [all_digits_cons, Bool.and_eq_true] at hd
    have hc : c ≠ '0' := by
      rcases hz with hz | hz
      · simpa using hz
      · exact absurd hz h0
    have hr := digit_of_range hd.1
    have h1 : 1 ≤ digit_of c := by
      by_contra h
      · exfalso
        apply hc
        apply digit_of_inj
        rw [digit_of_zero]
        omega
    rw [digits_value_cons]
    simp only [List.length_cons, Nat.add_sub_cancel]
    have hp : (0 : Int) < 10 ^ t.length := by positivity
    have := digits_value_nonneg hd.2
    nlinarith

theorem canonical_value_zero {s : List Char} (h : canonical s = true)
    (hv : digits_value s = 0) : s = ['0'] := by
  by_contra h0
  have := canonical_value_ge h h0
  have hp : (0 : Int) < 10 ^ (s.length - 1) := by positivity
  omega

/-- Digit strings of the same length with the same value are the same string. -/
theorem digits_eq_of_value_eq : ∀ (s t : List Char), all_digits s = true → all_digits t = true →
    s.length = t.length → digits_value s = digits_value t → s = t
  | [], [], _, _, _, _ => rfl
  | [], _ :: _, _, _, hl, _ => by simp at hl
  | _ :: _, [], _, _, hl, _ => by simp at hl
  | c :: s, d :: t, hs, ht, hl, hv => by
    rw [all_digits_cons, Bool.and_eq_true] at hs ht
    rw [digits_value_cons, digits_value_cons] at hv
    have hl2 : s.length = t.length := by simpa using hl
    rw [hl2] at hv
    have hs1 := digits_value_nonneg hs.2
    have hs2 := digits_value_lt hs.2
    have ht1 := digits_value_nonneg ht.2
    have ht2 := digits_value_lt ht.2
    rw [hl2] at hs2
    have hp : (0 : Int) < 10 ^ t.length := by positivity
    have hcd : digit_of c = digit_of d := by
      rcases lt_trichotomy (digit_of c) (digit_of d) with h | h | h
      · exfalso; nlinarith
      · exact h
      · exfalso; nlinarith
    have hcd2 : c = d := digit_of_inj hcd
    rw [hcd] at hv
    have hv2 : digits_value s = digits_value t := by linarith
    rw [hcd2, digits_eq_of_value_eq s t hs.2 ht.2 hl2 hv2]

theorem canonical_length_le {s t : List Char} (hs : canonical s = true)
    (ht : canonical t = true) (hv : digits_value s ≤ digits_value t) :
    s.length ≤ t.length := by
  by_contra hlt
  push_neg at hlt
  have hs0 : s ≠ ['0'] := by
    rintro rfl
    have := canonical_ne_nil ht
    cases t with
    | nil => exact this rfl
    | cons _ _ => simp at hlt
  have h1 := canonical_value_ge hs hs0
  have h2 := digits_value_lt (canonical_digits ht)
  have h3 : (10 : Int) ^ t.length ≤ 10 ^ (s.length - 1) :=
    pow_le_pow_right₀ (by norm_num) (by omega)
  omega

/-- Canonical digit strings are determined by their value. -/
theorem canonical_unique {s t : List Char} (hs : canonical s = true) (ht : canonical t = true)
    (hv : digits_value s = digits_value t) : s = t :=
  digits_eq_of_value_eq s t (canonical_digits hs) (canonical_digits ht)
    (le_antisymm (canonical_length_le hs ht hv.le) (canonical_length_le ht hs hv.ge)) hv

/-! ## Lengths stored in an `int` -/

theorem int_of_eq {x : Int} (h1 : -2147483648 ≤ x) (h2 : x < 2147483648) : int_of x = x := by
  unfold int_of
  omega

theorem int_of_le {x : Int} (h : 0 ≤ x) : int_of x ≤ x := by
  unfold int_of
  omega

theorem int_of_length {s : List Char} (h : s.length < 2147483648) :
    int_of s.length = s.length :=
  int_of_eq (by omega) (by omega)

/-- An index that starts at `length - 1` reads the whole string when the string has at most
`2^31` characters. -/
theorem index_down_eq {a : List Char} (h : a.length ≤ 2147483648) :
    index_down a = a.reverse := by
  unfold index_down
  rw [int_of_eq (by omega) (by omega)]
  have : ((a.length : Int) - 1 + 1).toNat = a.length := by omega
  rw [this, List.take_length]

theorem all_digits_take {a : List Char} (n : Nat) (h : all_digits a = true) :
    all_digits (a.take n) = true := by
  rw [all_digits_iff] at h ⊢
  exact fun c hc => h c (List.mem_of_mem_take hc)

theorem all_digits_drop {a : List Char} (n : Nat) (h : all_digits a = true) :
    all_digits (a.drop n) = true := by
  rw [all_digits_iff] at h ⊢
  exact fun c hc => h c (List.mem_of_mem_drop hc)

theorem all_digits_index_down {a : List Char} (h : all_digits a = true) :
    all_digits (index_down a) = true := by
  unfold index_down
  rw [all_digits_reverse]
  exact all_digits_take _ h

/-! ## The addition loop -/

theorem digits_value_reverse_cons (x : Char) (xs : List Char) :
    digits_value (x :: xs).reverse = 10 * digits_value xs.reverse + digit_of x := by
  rw [List.reverse_cons, digits_value_snoc]

theorem all_digits_reverse_cons (x : Char) (xs : List Char) :
    all_digits (x :: xs).reverse = (isdigit x && all_digits xs.reverse) := by
  rw [all_digits_reverse, all_digits_cons, all_digits_reverse]

theorem tdiv_tmod_nonneg {s : Int} (h : 0 ≤ s) : Int.tdiv s 10 = s / 10 ∧ Int.tmod s 10 = s % 10 :=
  ⟨Int.tdiv_eq_ediv h (by norm_num), Int.tmod_eq_emod h (by norm_num)⟩

/-- The fuel given to `carry_loop` by `add_loop_b` is enough: any larger amount gives the same
digits, so the loop has stopped on `carry = 0` and not on the bound. -/
theorem carry_loop_fuel : ∀ (fuel fuel2 : Nat) (carry : Int), carry.toNat ≤ fuel →
    carry.toNat ≤ fuel2 → carry_loop fuel carry = carry_loop fuel2 carry
  | 0, 0, _, _, _ => rfl
  | 0, f2 + 1, carry, h, _ => by
    have : ¬ carry > 0 := by omega
    simp [carry_loop, this]
  | f + 1, 0, carry, _, h => by
    have : ¬ carry > 0 := by omega
    simp [carry_loop, this]
  | f + 1, f2 + 1, carry, h, h2 => by
    by_cases hc : carry > 0
    · have hd : Int.tdiv carry 10 = carry / 10 := Int.tdiv_eq_ediv (by omega) (by norm_num)
      have ih := carry_loop_fuel f f2 (Int.tdiv carry 10) (by rw [hd]; omega)
        (by rw [hd]; omega)
      simp only [carry_loop, hc, if_true, ih]
    · simp [carry_loop, hc]

theorem carry_loop_small {c : Int} (h0 : 0 ≤ c) (h1 : c ≤ 1) :
    all_digits (carry_loop c.toNat c) = true ∧
      digits_value (carry_loop c.toNat c).reverse = c := by
  interval_cases c <;> decide

/-- One column of the addition: the pushed digit and the next carry. -/
theorem add_column {s : Int} (h0 : 0 ≤ s) (h19 : s ≤ 19) :
    isdigit (char_of (Int.tmod s 10)) = true ∧
      10 * Int.tdiv s 10 + digit_of (char_of (Int.tmod s 10)) = s ∧
      0 ≤ Int.tdiv s 10 ∧ Int.tdiv s 10 ≤ 1 := by
  obtain ⟨hd, hm⟩ := tdiv_tmod_nonneg h0
  rw [hd, hm]
  have hc := char_of_digit (x := s % 10) (by omega) (by omega)
  refine ⟨hc.1, ?_, by omega, by omega⟩
  rw [hc.2]; omega

theorem add_loop_b_spec : ∀ (ys : List Char) (c : Int), all_digits ys = true → 0 ≤ c → c ≤ 1 →
    all_digits (add_loop_b ys c) = true ∧
      digits_value (add_loop_b ys c).reverse = digits_value ys.reverse + c
  | [], c, _, h0, h1 => by
    have := carry_loop_small h0 h1
    simpa [add_loop_b, digits_value_nil] using this
  | y :: ys, c, hy, h0, h1 => by
    rw [all_digits_cons, Bool.and_eq_true] at hy
    have hr := digit_of_range hy.1
    obtain ⟨k1, k2, k3, k4⟩ := add_column (s := 0 + digit_of y + c) (by omega) (by omega)
    obtain ⟨i1, i2⟩ := add_loop_b_spec ys _ hy.2 k3 k4
    simp only [add_loop_b]
    rw [all_digits_cons, digits_value_reverse_cons, digits_value_reverse_cons, i1, i2, k1]
    refine ⟨rfl, ?_⟩
    omega

theorem add_loop_spec : ∀ (xs ys : List Char) (c : Int), all_digits xs = true →
    all_digits ys = true → 0 ≤ c → c ≤ 1 →
    all_digits (add_loop xs ys c) = true ∧
      digits_value (add_loop xs ys c).reverse
        = digits_value xs.reverse + digits_value ys.reverse + c
  | [], ys, c, _, hy, h0, h1 => by
    have := add_loop_b_spec ys c hy h0 h1
    simpa [add_loop, digits_value_nil] using this
  | x :: xs, [], c, hx, _, h0, h1 => by
    rw [all_digits_cons, Bool.and_eq_true] at hx
    have hr := digit_of_range hx.1
    obtain ⟨k1, k2, k3, k4⟩ := add_column (s := digit_of x + 0 + c) (by omega) (by omega)
    obtain ⟨i1, i2⟩ := add_loop_spec xs [] _ hx.2 rfl k3 k4
    simp only [add_loop]
    rw [all_digits_cons, digits_value_reverse_cons, digits_value_reverse_cons, i1, i2, k1]
    refine ⟨rfl, ?_⟩
    simp only [List.reverse_nil, digits_value_nil]
    omega
  | x :: xs, y :: ys, c, hx, hy, h0, h1 => by
    rw [all_digits_cons, Bool.and_eq_true] at hx hy
    have hr := digit_of_range hx.1
    have hr2 := digit_of_range hy.1
    obtain ⟨k1, k2, k3, k4⟩ :=
      add_column (s := digit_of x + digit_of y + c) (by omega) (by omega)
    obtain ⟨i1, i2⟩ := add_loop_spec xs ys _ hx.2 hy.2 k3 k4
    simp only [add_loop]
    rw [all_digits_cons, digits_value_reverse_cons, digits_value_reverse_cons,
      digits_value_reverse_cons, i1, i2, k1]
    refine ⟨rfl, ?_⟩
    omega

/-- On digit strings `add_absolute` returns a canonical digit string, whatever the lengths. -/
theorem add_absolute_canonical {a b : List Char} (ha : all_digits a = true)
    (hb : all_digits b = true) : canonical (add_absolute a b) = true := by
  unfold add_absolute
  by_cases hl : a.length < b.length
  · simp only [hl, if_true]
    exact canonical_strip (by
      rw [all_digits_reverse]
      exact (add_loop_spec _ _ 0 (all_digits_index_down hb) (all_digits_index_down ha)
        le_rfl (by norm_num)).1)
  · simp only [hl, if_false]
    exact canonical_strip (by
      rw [all_digits_reverse]
      exact (add_loop_spec _ _ 0 (all_digits_index_down ha) (all_digits_index_down hb)
        le_rfl (by norm_num)).1)

/-- The result of `add_absolute` on digit strings of at most `2^31` characters is the canonical
string of the sum. -/
theorem add_absolute_spec {a b : List Char} (ha : all_digits a = true)
    (hb : all_digits b = true) (la : a.length ≤ 2147483648) (lb : b.length ≤ 2147483648) :
    canonical (add_absolute a b) = true ∧
      digits_value (add_absolute a b) = digits_value a + digits_value b := by
  refine ⟨add_absolute_canonical ha hb, ?_⟩
  unfold add_absolute
  by_cases hl : a.length < b.length
  · simp only [hl, if_true]
    rw [index_down_eq la, index_down_eq lb]
    obtain ⟨_, h2⟩ := add_loop_spec b.reverse a.reverse 0
      (by rwa [all_digits_reverse]) (by rwa [all_digits_reverse]) le_rfl (by norm_num)
    rw [digits_value_strip, h2]
    simp only [List.reverse_reverse]
    ring
  · simp only [hl, if_false]
    rw [index_down_eq la, index_down_eq lb]
    obtain ⟨_, h2⟩ := add_loop_spec a.reverse b.reverse 0
      (by rwa [all_digits_reverse]) (by rwa [all_digits_reverse]) le_rfl (by norm_num)
    rw [digits_value_strip, h2]
    simp only [List.reverse_reverse]
    ring

theorem add_loop_b_nil_left (ys : List Char) (c : Int) : add_loop [] ys c = add_loop_b ys c := by
  cases ys <;> rfl

theorem add_loop_nil_right : ∀ (xs : List Char) (c : Int), add_loop xs [] c = add_loop_b xs c
  | [], _ => rfl
  | x :: xs, c => by
    simp only [add_loop, add_loop_b]
    rw [add_loop_nil_right xs]
    have : digit_of x + 0 + c = 0 + digit_of x + c := by ring
    rw [this]

/-- The addition loop does not depend on the order of its operands. -/
theorem add_loop_comm : ∀ (xs ys : List Char) (c : Int), add_loop xs ys c = add_loop ys xs c
  | [], ys, c => by rw [add_loop_b_nil_left, add_loop_nil_right]
  | x :: xs, [], c => by rw [add_loop_nil_right, add_loop_b_nil_left]
  | x :: xs, y :: ys, c => by
    simp only [add_loop]
    have : digit_of x + digit_of y + c = digit_of y + digit_of x + c := by ring
    rw [this, add_loop_comm xs ys]

/-- `add_absolute` does not depend on the order of its operands, for all strings. -/
theorem add_absolute_comm (a b : List Char) : add_absolute a b = add_absolute b a := by
  unfold add_absolute
  rcases lt_trichotomy a.length b.length with h | h | h
  · rw [if_pos h, if_pos h, if_neg (by omega), if_neg (by omega)]
  · rw [if_neg (by omega), if_neg (by omega), if_neg (by omega), if_neg (by omega)]
    simp only []
    rw [add_loop_comm]
  · rw [if_neg (by omega), if_neg (by omega), if_pos h, if_pos h]

/-! ## Comparison -/

/-- On digit strings of the same length the loop of `compare_absolute` orders by value. -/
theorem compare_loop_spec : ∀ (a b : List Char), all_digits a = true → all_digits b = true →
    a.length = b.length →
    compare_loop a b =
      if digits_value a < digits_value b then -1
      else if digits_value a = digits_value b then 0 else 1
  | [], [], _, _, _ => by simp [compare_loop, digits_value_nil]
  | [], _ :: _, _, _, hl => by simp at hl
  | _ :: _, [], _, _, hl => by simp at hl
  | x :: xs, y :: ys, ha, hb, hl => by
    rw [all_digits_cons, Bool.and_eq_true] at ha hb
    have hl2 : xs.length = ys.length := by simpa using hl
    have ih := compare_loop_spec xs ys ha.2 hb.2 hl2
    have hx1 := digits_value_nonneg ha.2
    have hx2 := digits_value_lt ha.2
    have hy1 := digits_value_nonneg hb.2
    have hy2 := digits_value_lt hb.2
    rw [hl2] at hx2
    have hp : (0 : Int) < 10 ^ ys.length := by positivity
    rw [compare_loop, digits_value_cons, digits_value_cons, hl2]
    have hgt : x > y ↔ digit_of y < digit_of x := digit_lt_iff y x
    have hlt : x < y ↔ digit_of x < digit_of y := digit_lt_iff x y
    by_cases h1 : x > y
    · have h1v := hgt.1 h1
      rw [if_pos h1, if_neg (by nlinarith), if_neg (by intro h; nlinarith)]
    · rw [if_neg h1]
      by_cases h2 : x < y
      · have h2v := hlt.1 h2
        rw [if_pos h2, if_pos (by nlinarith)]
      · rw [if_neg h2, ih]
        have he : digit_of x = digit_of y := by
          have n1 : ¬ digit_of y < digit_of x := fun h => h1 (hgt.2 h)
          have n2 : ¬ digit_of x < digit_of y := fun h => h2 (hlt.2 h)
          omega
        rw [he]
        simp only [add_lt_add_iff_left, add_right_inj]

/-- On canonical digit strings `compare_absolute` orders by value. -/
theorem compare_absolute_spec {a b : List Char} (ha : canonical a = true)
    (hb : canonical b = true) :
    compare_absolute a b =
      if digits_value a < digits_value b then -1
      else if digits_value a = digits_value b then 0 else 1 := by
  unfold compare_absolute
  by_cases h1 : a.length > b.length
  · have hv : digits_value b < digits_value a := by
      by_contra hv
      have := canonical_length_le ha hb (not_lt.1 hv)
      omega
    rw [if_pos h1, if_neg (by omega), if_neg (by omega)]
  · rw [if_neg h1]
    by_cases h2 : a.length < b.length
    · have hv : digits_value a < digits_value b := by
        by_contra hv
        have := canonical_length_le hb ha (not_lt.1 hv)
        omega
      rw [if_pos h2, if_pos hv]
    · rw [if_neg h2]
      exact compare_loop_spec a b (canonical_digits ha) (canonical_digits hb) (by omega)

theorem compare_absolute_neg_iff {a b : List Char} (ha : canonical a = true)
    (hb : canonical b = true) :
    compare_absolute a b < 0 ↔ digits_value a < digits_value b := by
  rw [compare_absolute_spec ha hb]
  split
  · simp [*]
  · split <;> simp [*]

theorem compare_loop_antisymm : ∀ (a b : List Char), compare_loop a b = -compare_loop b a
  | [], [] => by simp [compare_loop]
  | [], _ :: _ => by simp [compare_loop]
  | _ :: _, [] => by simp [compare_loop]
  | x :: xs, y :: ys => by
    have ih := compare_loop_antisymm xs ys
    have h1 : x > y ↔ digit_of y < digit_of x := digit_lt_iff y x
    have h2 : x < y ↔ digit_of x < digit_of y := digit_lt_iff x y
    have h3 : y > x ↔ digit_of x < digit_of y := digit_lt_iff x y
    have h4 : y < x ↔ digit_of y < digit_of x := digit_lt_iff y x
    simp only [compare_loop, h1, h2, h3, h4]
    rcases lt_trichotomy (digit_of x) (digit_of y) with h | h | h
    · rw [if_neg (by omega), if_pos h, if_pos h]
    · rw [if_neg (by omega), if_neg (by omega), if_neg (by omega), if_neg (by omega), ih]
    · rw [if_pos h, if_neg (by omega), if_pos h]; rfl

theorem compare_loop_zero_iff : ∀ (a b : List Char), a.length = b.length →
    (compare_loop a b = 0 ↔ a = b)
  | [], [], _ => by simp [compare_loop]
  | [], _ :: _, hl => by simp at hl
  | _ :: _, [], hl => by simp at hl
  | x :: xs, y :: ys, hl => by
    have ih := compare_loop_zero_iff xs ys (by simpa using hl)
    have h1 : x > y ↔ digit_of y < digit_of x := digit_lt_iff y x
    have h2 : x < y ↔ digit_of x < digit_of y := digit_lt_iff x y
    simp only [compare_loop, h1, h2]
    rcases lt_trichotomy (digit_of x) (digit_of y) with h | h | h
    · rw [if_neg (by omega), if_pos h]
      have : x ≠ y := fun e => by rw [e] at h; omega
      simp [this]
    · rw [if_neg (by omega), if_neg (by omega), ih]
      have : x = y := digit_of_inj h
      simp [this]
    · rw [if_pos h]
      have : x ≠ y := fun e => by rw [e] at h; omega
      simp [this]

/-! ## The subtraction loop -/

theorem sub_step_spec {dx dy bw : Int} (hx0 : 0 ≤ dx) (hx9 : dx ≤ 9) (hy0 : 0 ≤ dy)
    (hy9 : dy ≤ 9) (hb0 : 0 ≤ bw) (hb1 : bw ≤ 1) :
    isdigit (sub_step dx dy bw).1 = true ∧
      0 ≤ (sub_step dx dy bw).2 ∧ (sub_step dx dy bw).2 ≤ 1 ∧
      digit_of (sub_step dx dy bw).1 = dx - bw - dy + 10 * (sub_step dx dy bw).2 := by
  unfold sub_step
  by_cases h : dx - bw < dy
  · simp only [h, if_true]
    have hc := char_of_digit (x := dx - bw + 10 - dy) (by omega) (by omega)
    refine ⟨hc.1, by norm_num, by norm_num, ?_⟩
    rw [hc.2]; ring
  · simp only [h, if_false]
    have hc := char_of_digit (x := dx - bw - dy) (by omega) (by omega)
    refine ⟨hc.1, le_rfl, by norm_num, ?_⟩
    rw [hc.2]; ring

/-- The subtraction loop on digit strings, the second no longer than the first: the digits
pushed denote the difference, up to a final borrow `fb` worth `10 ^ length`. -/
theorem sub_loop_spec : ∀ (xs ys : List Char) (bw : Int), all_digits xs = true →
    all_digits ys = true → ys.length ≤ xs.length → 0 ≤ bw → bw ≤ 1 →
    all_digits (sub_loop xs ys bw) = true ∧ (sub_loop xs ys bw).length = xs.length ∧
      ∃ fb : Int, 0 ≤ fb ∧ fb ≤ 1 ∧
        digits_value (sub_loop xs ys bw).reverse
          = digits_value xs.reverse - digits_value ys.reverse - bw + fb * 10 ^ xs.length
  | [], [], bw, _, _, _, h0, h1 => by
    refine ⟨rfl, rfl, bw, h0, h1, ?_⟩
    simp [sub_loop, sub_loop_b, digits_value_nil]
  | [], _ :: _, _, _, _, hl, _, _ => by simp at hl
  | x :: xs, [], bw, hx, _, _, h0, h1 => by
    rw [all_digits_cons, Bool.and_eq_true] at hx
    have hr := digit_of_range hx.1
    obtain ⟨k1, k2, k3, k4⟩ := sub_step_spec hr.1 hr.2 le_rfl (by norm_num) h0 h1
    obtain ⟨i1, i2, fb, f0, f1, i3⟩ := sub_loop_spec xs [] _ hx.2 rfl (by simp) k2 k3
    simp only [sub_loop]
    refine ⟨by rw [all_digits_cons, k1, i1]; rfl, by simp [i2], fb, f0, f1, ?_⟩
    rw [digits_value_reverse_cons, digits_value_reverse_cons, i3, k4]
    simp only [List.reverse_nil, digits_value_nil, List.length_cons]
    ring
  | x :: xs, y :: ys, bw, hx, hy, hl, h0, h1 => by
    rw [all_digits_cons, Bool.and_eq_true] at hx hy
    have hr := digit_of_range hx.1
    have hr2 := digit_of_range hy.1
    obtain ⟨k1, k2, k3, k4⟩ := sub_step_spec hr.1 hr.2 hr2.1 hr2.2 h0 h1
    obtain ⟨i1, i2, fb, f0, f1, i3⟩ :=
      sub_loop_spec xs ys _ hx.2 hy.2 (by simpa using hl) k2 k3
    simp only [sub_loop]
    refine ⟨by rw [all_digits_cons, k1, i1]; rfl, by simp [i2], fb, f0, f1, ?_⟩
    rw [digits_value_reverse_cons, digits_value_reverse_cons, digits_value_reverse_cons,
      i3, k4]
    simp only [List.length_cons]
    ring

/-- Subtracting a digit string from one that is at least as long and at least as large. -/
theorem sub_digits_spec {a b : List Char} (ha : all_digits a = true) (hb : all_digits b = true)
    (hl : b.length ≤ a.length) (hv : digits_value b ≤ digits_value a) :
    canonical (strip_leading_zeros (sub_loop a.reverse b.reverse 0).reverse) = true ∧
      digits_value (strip_leading_zeros (sub_loop a.reverse b.reverse 0).reverse)
        = digits_value a - digits_value b := by
  obtain ⟨h1, h2, fb, f0, f1, h3⟩ := sub_loop_spec a.reverse b.reverse 0
    (by rwa [all_digits_reverse]) (by rwa [all_digits_reverse]) (by simpa using hl)
    le_rfl (by norm_num)
  have hd : all_digits (sub_loop a.reverse b.reverse 0).reverse = true := by
    rwa [all_digits_reverse]
  refine ⟨canonical_strip hd, ?_⟩
  rw [digits_value_strip]
  have hlt := digits_value_lt hd
  rw [List.length_reverse, h2] at hlt
  simp only [List.reverse_reverse, List.length_reverse] at h3 hlt
  have hp : (0 : Int) < 10 ^ a.length := by positivity
  have hfb : fb = 0 := by
    by_contra hne
    have : fb = 1 := by omega
    subst this
    linarith
  rw [h3, hfb]
  ring

theorem sub_step_digit {dx dy bw : Int} (hx0 : 0 ≤ dx) (hx9 : dx ≤ 9) (hy0 : 0 ≤ dy)
    (hy9 : dy ≤ 9) (hb0 : 0 ≤ bw) (hb1 : bw ≤ 1) :
    isdigit (sub_step dx dy bw).1 = true ∧
      0 ≤ (sub_step dx dy bw).2 ∧ (sub_step dx dy bw).2 ≤ 1 :=
  ⟨(sub_step_spec hx0 hx9 hy0 hy9 hb0 hb1).1, (sub_step_spec hx0 hx9 hy0 hy9 hb0 hb1).2.1,
    (sub_step_spec hx0 hx9 hy0 hy9 hb0 hb1).2.2.1⟩

theorem sub_loop_b_digits : ∀ (ys : List Char) (bw : Int), all_digits ys = true → 0 ≤ bw →
    bw ≤ 1 → all_digits (sub_loop_b ys bw) = true
  | [], _, _, _, _ => rfl
  | y :: ys, bw, hy, h0, h1 => by
    rw [all_digits_cons, Bool.and_eq_true] at hy
    have hr := digit_of_range hy.1
    obtain ⟨k1, k2, k3⟩ := sub_step_digit le_rfl (by norm_num) hr.1 hr.2 h0 h1
    simp only [sub_loop_b]
    rw [all_digits_cons, k1, sub_loop_b_digits ys _ hy.2 k2 k3]
    rfl

/-- The subtraction loop pushes digits only, whatever the lengths of its operands. -/
theorem sub_loop_digits : ∀ (xs ys : List Char) (bw : Int), all_digits xs = true →
    all_digits ys = true → 0 ≤ bw → bw ≤ 1 → all_digits (sub_loop xs ys bw) = true
  | [], ys, bw, _, hy, h0, h1 => by
    have := sub_loop_b_digits ys bw hy h0 h1
    cases ys <;> simpa [sub_loop] using this
  | x :: xs, [], bw, hx, _, h0, h1 => by
    rw [all_digits_cons, Bool.and_eq_true] at hx
    have hr := digit_of_range hx.1
    obtain ⟨k1, k2, k3⟩ := sub_step_digit hr.1 hr.2 le_rfl (by norm_num) h0 h1
    simp only [sub_loop]
    rw [all_digits_cons, k1, sub_loop_digits xs [] _ hx.2 rfl k2 k3]
    rfl
  | x :: xs, y :: ys, bw, hx, hy, h0, h1 => by
    rw [all_digits_cons, Bool.and_eq_true] at hx hy
    have hr := digit_of_range hx.1
    have hr2 := digit_of_range hy.1
    obtain ⟨k1, k2, k3⟩ := sub_step_digit hr.1 hr.2 hr2.1 hr2.2 h0 h1
    simp only [sub_loop]
    rw [all_digits_cons, k1, sub_loop_digits xs ys _ hx.2 hy.2 k2 k3]
    rfl

/-- On digit strings `subtract_absolute` returns a canonical digit string, possibly preceded
by '-', whatever the lengths. -/
theorem subtract_absolute_shape {a b : List Char} (ha : all_digits a = true)
    (hb : all_digits b = true) :
    ∃ (n : Bool) (r : List Char), canonical r = true ∧
      subtract_absolute a b = (if n = true then '-' :: r else r) := by
  unfold subtract_absolute
  by_cases hn : compare_absolute a b < 0
  · refine ⟨true, strip_leading_zeros (sub_loop (index_down b) (index_down a) 0).reverse,
      canonical_strip ?_, by simp only [hn, decide_True, if_true]⟩
    rw [all_digits_reverse]
    exact sub_loop_digits _ _ 0 (all_digits_index_down hb) (all_digits_index_down ha)
      le_rfl (by norm_num)
  · refine ⟨false, strip_leading_zeros (sub_loop (index_down a) (index_down b) 0).reverse,
      canonical_strip ?_, by simp [hn]⟩
    rw [all_digits_reverse]
    exact sub_loop_digits _ _ 0 (all_digits_index_down ha) (all_digits_index_down hb)
      le_rfl (by norm_num)

/-- The result of `subtract_absolute` on canonical digit strings of at most `2^31`
characters. -/
theorem subtract_absolute_spec {a b : List Char} (ha : canonical a = true)
    (hb : canonical b = true) (la : a.length ≤ 2147483648) (lb : b.length ≤ 2147483648) :
    ∃ r, canonical r = true ∧
      subtract_absolute a b = (if digits_value a < digits_value b then '-' :: r else r) ∧
      digits_value r =
        (if digits_value a < digits_value b then digits_value b - digits_value a
         else digits_value a - digits_value b) := by
  unfold subtract_absolute
  by_cases h : digits_value a < digits_value b
  · have hn : compare_absolute a b < 0 := (compare_absolute_neg_iff ha hb).2 h
    obtain ⟨h1, h2⟩ := sub_digits_spec (canonical_digits hb) (canonical_digits ha)
      (canonical_length_le ha hb h.le) h.le
    refine ⟨_, h1, ?_, ?_⟩
    · simp only [hn, h, decide_True, if_true]
      rw [index_down_eq la, index_down_eq lb]
    · rw [if_pos h, h2]
  · have hn : ¬ compare_absolute a b < 0 := fun hn => h ((compare_absolute_neg_iff ha hb).1 hn)
    obtain ⟨h1, h2⟩ := sub_digits_spec (canonical_digits ha) (canonical_digits hb)
      (canonical_length_le hb ha (not_lt.1 h)) (not_lt.1 h)
    refine ⟨_, h1, ?_, ?_⟩
    · simp only [hn, h, decide_False, if_false, Bool.false_eq_true]
      rw [index_down_eq la, index_down_eq lb]
    · rw [if_neg h, h2]

/-! ## Signed digit strings -/

theorem signed_str_head {n : Bool} {r : List Char} (hr : canonical r = true) :
    (signed_str n r).head? = some '-' ↔ n = true := by
  cases n
  · simpa [signed_str] using canonical_head_ne_minus hr
  · simp [signed_str]

theorem signed_str_abs {n : Bool} {r : List Char} (hr : canonical r = true) :
    (if (signed_str n r).head? = some '-' then (signed_str n r).tail else signed_str n r) = r := by
  cases n
  · have := canonical_head_ne_minus hr
    simp [signed_str, this]
  · simp [signed_str]

theorem signed_int_false (v : Int) : signed_int false v = v := rfl

theorem signed_int_true (v : Int) : signed_int true v = -v := rfl

/-- The result of `add_signed_numbers` on two signed canonical magnitudes: the canonical
magnitude of the sum of the signed values, with a '-' when the sum is negative and also when
both operands carry a '-'; the magnitudes have at most `2^31` digits. -/
theorem add_signed_numbers_spec (nx ny : Bool) {mx my : List Char} (hx : canonical mx = true)
    (hy : canonical my = true) (lx : mx.length ≤ 2147483648) (ly : my.length ≤ 2147483648) :
    ∃ r, canonical r = true ∧
      digits_value r
        = |signed_int nx (digits_value mx) + signed_int ny (digits_value my)| ∧
      add_signed_numbers (signed_str nx mx) (signed_str ny my)
        = signed_str (decide (signed_int nx (digits_value mx)
            + signed_int ny (digits_value my) < 0) || (nx && ny)) r := by
  have vx := digits_value_nonneg (canonical_digits hx)
  have vy := digits_value_nonneg (canonical_digits hy)
  unfold add_signed_numbers
  simp only [signed_str_abs hx, signed_str_abs hy, signed_str_head hx, signed_str_head hy]
  cases nx <;> cases ny <;> simp only [signed_int_false, signed_int_true]
  · obtain ⟨h1, h2⟩ := add_absolute_spec (canonical_digits hx) (canonical_digits hy) lx ly
    refine ⟨_, h1, ?_, ?_⟩
    · rw [h2]; rw [abs_of_nonneg (by omega)]
    · have : ¬ (digits_value mx + digits_value my < 0) := by omega
      simp [signed_str, signed_int, this]
  · obtain ⟨r, h1, h2, h3⟩ := subtract_absolute_spec hx hy lx ly
    refine ⟨r, h1, ?_, ?_⟩
    · rw [h3]
      split
      · rw [abs_of_nonpos (by omega)]; omega
      · rw [abs_of_nonneg (by omega)]; omega
    · have e : (digits_value mx + -digits_value my < 0) ↔ digits_value mx < digits_value my := by
        omega
      simp [signed_str, signed_int, h2, e]
  · obtain ⟨r, h1, h2, h3⟩ := subtract_absolute_spec hy hx ly lx
    refine ⟨r, h1, ?_, ?_⟩
    · rw [h3]
      split
      · rw [abs_of_nonpos (by omega)]; omega
      · rw [abs_of_nonneg (by omega)]; omega
    · have e : (-digits_value mx + digits_value my < 0) ↔ digits_value my < digits_value mx := by
        omega
      simp [signed_str, signed_int, h2, e]
  · obtain ⟨h1, h2⟩ := add_absolute_spec (canonical_digits hx) (canonical_digits hy) lx ly
    refine ⟨_, h1, ?_, ?_⟩
    · rw [h2]; rw [abs_of_nonpos (by omega)]; omega
    · simp [signed_str, signed_int]

/-- `add_signed_numbers` does not depend on the order of its operands, for all strings. -/
theorem add_signed_numbers_comm (a b : List Char) :
    add_signed_numbers a b = add_signed_numbers b a := by
  unfold add_signed_numbers
  by_cases h1 : a.head? = some '-' <;> by_cases h2 : b.head? = some '-' <;>
    simp [h1, h2, add_absolute_comm]

/-! ## Scanning: `takeWhile` / `dropWhile` on a run followed by a stop character -/

theorem takeWhile_run (p : Char → Bool) : ∀ (l : List Char), (∀ x ∈ l, p x = true) →
    l.takeWhile p = l ∧ l.dropWhile p = []
  | [], _ => ⟨rfl, rfl⟩
  | x :: l, h => by
    have hx : p x = true := h x (List.mem_cons_self _ _)
    obtain ⟨i1, i2⟩ := takeWhile_run p l (fun y hy => h y (List.mem_cons_of_mem _ hy))
    rw [List.takeWhile_cons_of_pos hx, List.dropWhile_cons_of_pos hx, i1, i2]
    exact ⟨rfl, rfl⟩

theorem takeWhile_run_stop (p : Char → Bool) (a : Char) (t : List Char) (ha : p a = false) :
    ∀ (l : List Char), (∀ x ∈ l, p x = true) →
      (l ++ a :: t).takeWhile p = l ∧ (l ++ a :: t).dropWhile p = a :: t
  | [], _ => by
    have : ¬ (p a = true) := by simp [ha]
    exact ⟨List.takeWhile_cons_of_neg this, List.dropWhile_cons_of_neg this⟩
  | x :: l, h => by
    have hx : p x = true := h x (List.mem_cons_self _ _)
    obtain ⟨i1, i2⟩ :=
      takeWhile_run_stop p a t ha l (fun y hy => h y (List.mem_cons_of_mem _ hy))
    rw [List.cons_append, List.takeWhile_cons_of_pos hx, List.dropWhile_cons_of_pos hx, i1, i2]
    exact ⟨rfl, rfl⟩

theorem digits_not_dot {l : List Char} (h : all_digits l = true) :
    ∀ x ∈ l, (fun c => decide (c ≠ '.')) x = true := by
  intro x hx
  have := isdigit_ne_dot ((all_digits_iff l).1 h x hx)
  simpa using this

theorem digits_isdigit {l : List Char} (h : all_digits l = true) :
    ∀ x ∈ l, isdigit x = true := (all_digits_iff l).1 h

/-! ## Literals laid out from sign, integer digits and fractional digits -/

theorem layout_nil_frac (sg ip : List Char) : layout sg ip [] = sg ++ ip := by
  simp [layout]

theorem layout_frac (sg ip : List Char) {fp : List Char} (h : fp ≠ []) :
    layout sg ip fp = sg ++ ip ++ '.' :: fp := by
  simp [layout, h]

/-- The body of a laid-out literal, scanned up to the decimal point. -/
theorem scan_dot_layout {ip : List Char} (fp : List Char) (hi : all_digits ip = true) :
    (ip ++ (if fp = [] then [] else '.' :: fp)).takeWhile (fun c => decide (c ≠ '.')) = ip ∧
      (ip ++ (if fp = [] then [] else '.' :: fp)).dropWhile (fun c => decide (c ≠ '.'))
        = (if fp = [] then [] else '.' :: fp) := by
  by_cases hf : fp = []
  · simp only [hf, if_true, List.append_nil]
    exact takeWhile_run _ ip (digits_not_dot hi)
  · simp only [hf, if_false]
    exact takeWhile_run_stop _ '.' fp (by simp) ip (digits_not_dot hi)

/-- The body of a laid-out literal, scanned over its integer digits. -/
theorem scan_digits_layout {ip : List Char} (fp : List Char) (hi : all_digits ip = true) :
    (ip ++ (if fp = [] then [] else '.' :: fp)).takeWhile isdigit = ip ∧
      (ip ++ (if fp = [] then [] else '.' :: fp)).dropWhile isdigit
        = (if fp = [] then [] else '.' :: fp) := by
  by_cases hf : fp = []
  · simp only [hf, if_true, List.append_nil]
    exact takeWhile_run _ ip (digits_isdigit hi)
  · simp only [hf, if_false]
    exact takeWhile_run_stop _ '.' fp (by decide) ip (digits_isdigit hi)

theorem literal_body_layout {sg ip : List Char} (fp : List Char)
    (hs : sg = [] ∨ sg = ['+'] ∨ sg = ['-']) (hne : ip ≠ []) (hi : all_digits ip = true) :
    literal_body (layout sg ip fp) = ip ++ (if fp = [] then [] else '.' :: fp) := by
  rcases hs with rfl | rfl | rfl
  · cases ip with
    | nil => exact absurd rfl hne
    | cons c t =>
      rw [all_digits_cons, Bool.and_eq_true] at hi
      have h1 := isdigit_ne_plus hi.1
      have h2 := isdigit_ne_minus hi.1
      simp only [layout, List.nil_append, List.cons_append]
      unfold literal_body
      split
      · next heq => exact absurd (List.cons.inj heq).1 h1
      · next heq => exact absurd (List.cons.inj heq).1 h2
      · rfl
  · simp [layout, literal_body]
  · simp [layout, literal_body]

theorem integer_digits_layout {sg ip : List Char} (fp : List Char)
    (hs : sg = [] ∨ sg = ['+'] ∨ sg = ['-']) (hne : ip ≠ []) (hi : all_digits ip = true) :
    integer_digits (layout sg ip fp) = ip := by
  unfold integer_digits
  rw [literal_body_layout fp hs hne hi]
  exact (scan_dot_layout fp hi).1

theorem fraction_digits_layout {sg ip : List Char} (fp : List Char)
    (hs : sg = [] ∨ sg = ['+'] ∨ sg = ['-']) (hne : ip ≠ []) (hi : all_digits ip = true) :
    fraction_digits (layout sg ip fp) = fp := by
  unfold fraction_digits
  rw [literal_body_layout fp hs hne hi, (scan_dot_layout fp hi).2]
  by_cases hf : fp = []
  · simp [hf]
  · simp [hf]

theorem head_layout {sg ip : List Char} (fp : List Char)
    (hs : sg = [] ∨ sg = ['+'] ∨ sg = ['-']) (hne : ip ≠ []) (hi : all_digits ip = true) :
    ((layout sg ip fp).head? = some '-' ↔ sg = ['-']) ∧
      ((layout sg ip fp).head? = some '+' ↔ sg = ['+']) := by
  rcases hs with rfl | rfl | rfl
  · cases ip with
    | nil => exact absurd rfl hne
    | cons c t =>
      rw [all_digits_cons, Bool.and_eq_true] at hi
      have h1 := isdigit_ne_plus hi.1
      have h2 := isdigit_ne_minus hi.1
      simp [layout, h1, h2]
  · simp [layout]
  · simp [layout]

/-- The rational value of a laid-out literal. -/
theorem decimal_value_layout {sg ip : List Char} (fp : List Char)
    (hs : sg = [] ∨ sg = ['+'] ∨ sg = ['-']) (hne : ip ≠ []) (hi : all_digits ip = true) :
    decimal_value (layout sg ip fp) =
      ((signed_int (decide (sg = ['-'])) (digits_value (ip ++ fp)) : Int) : ℚ)
        / (10 : ℚ) ^ fp.length := by
  unfold decimal_value
  rw [integer_digits_layout fp hs hne hi, fraction_digits_layout fp hs hne hi]
  by_cases h : sg = ['-']
  · have hh : (layout sg ip fp).head? = some '-' := (head_layout fp hs hne hi).1.2 h
    rw [if_pos hh]
    simp [h, signed_int]
  · have hh : ¬ (layout sg ip fp).head? = some '-' :=
      fun k => h ((head_layout fp hs hne hi).1.1 k)
    rw [if_neg hh]
    simp [h, signed_int]

/-! ## Validation and the grammar -/

theorem is_valid_double_nil : is_valid_double [] = false := rfl

theorem is_valid_double_cons (c : Char) (rest : List Char) :
    is_valid_double (c :: rest) =
      if c = '+' ∨ c = '-' then body_ok rest else body_ok (c :: rest) := by
  by_cases h : c = '+' ∨ c = '-'
  · rw [if_pos h]
    have hs : (decide (c = '+') || decide (c = '-')) = true := by simpa using h
    cases rest with
    | nil => simp [is_valid_double, hs, body_ok]
    | cons d t => simp only [is_valid_double, hs, body_ok]; rfl
  · rw [if_neg h]
    have hs : (decide (c = '+') || decide (c = '-')) = false := by simpa using h
    simp only [is_valid_double, hs, body_ok]; rfl

theorem takeWhile_all_digits (l : List Char) : all_digits (l.takeWhile isdigit) = true := by
  rw [all_digits_iff]
  intro c hc
  exact List.mem_takeWhile_imp hc

theorem body_ok_layout {r0 : List Char} (h : body_ok r0 = true) :
    ∃ ip fp : List Char, ip ≠ [] ∧ all_digits ip = true ∧ all_digits fp = true ∧
      r0 = ip ++ (if fp = [] then [] else '.' :: fp) := by
  unfold body_ok at h
  have hsplit := List.takeWhile_append_dropWhile isdigit r0
  by_cases h0 : (r0.takeWhile isdigit).length = 0
  · simp [h0] at h
  · rw [if_neg h0] at h
    have hne : r0.takeWhile isdigit ≠ [] := fun e => h0 (by rw [e]; rfl)
    split at h
    · next r2 heq =>
      by_cases h1 : (r2.takeWhile isdigit).length = 0
      · simp [h1] at h
      · rw [if_neg h1] at h
        have hr2 : r2.dropWhile isdigit = [] := by simpa using h
        have hsplit2 := List.takeWhile_append_dropWhile isdigit r2
        rw [hr2, List.append_nil] at hsplit2
        have hne2 : r2 ≠ [] := by
          intro e; apply h1; rw [e]; rfl
        refine ⟨r0.takeWhile isdigit, r2, hne, takeWhile_all_digits r0, ?_, ?_⟩
        · rw [← hsplit2]; exact takeWhile_all_digits r2
        · rw [if_neg hne2, ← heq, hsplit]
    · next hno =>
      have hr : r0.dropWhile isdigit = [] := by simpa using h
      refine ⟨r0.takeWhile isdigit, [], hne, takeWhile_all_digits r0, rfl, ?_⟩
      rw [hr, List.append_nil] at hsplit
      simp [hsplit]

theorem layout_body_ok {ip : List Char} (fp : List Char) (hne : ip ≠ [])
    (hi : all_digits ip = true) (hf : all_digits fp = true) :
    body_ok (ip ++ (if fp = [] then [] else '.' :: fp)) = true := by
  unfold body_ok
  obtain ⟨h1, h2⟩ := scan_digits_layout fp hi
  rw [h1, h2]
  have hl : ip.length ≠ 0 := fun e => hne (List.length_eq_zero.1 e)
  rw [if_neg hl]
  by_cases hfe : fp = []
  · simp [hfe]
  · obtain ⟨k1, k2⟩ := takeWhile_run isdigit fp (digits_isdigit hf)
    have hl2 : fp.length ≠ 0 := fun e => hfe (List.length_eq_zero.1 e)
    simp [hfe, k1, k2]

/-- A string accepted by `is_valid_double` is a laid-out literal. -/
theorem valid_layout {s : List Char} (h : is_valid_double s = true) :
    ∃ sg ip fp : List Char, (sg = [] ∨ sg = ['+'] ∨ sg = ['-']) ∧ ip ≠ [] ∧
      all_digits ip = true ∧ all_digits fp = true ∧ s = layout sg ip fp := by
  cases s with
  | nil => simp [is_valid_double_nil] at h
  | cons c rest =>
    rw [is_valid_double_cons] at h
    by_cases hc : c = '+' ∨ c = '-'
    · rw [if_pos hc] at h
      obtain ⟨ip, fp, h1, h2, h3, h4⟩ := body_ok_layout h
      refine ⟨[c], ip, fp, ?_, h1, h2, h3, ?_⟩
      · rcases hc with rfl | rfl
        · exact Or.inr (Or.inl rfl)
        · exact Or.inr (Or.inr rfl)
      · simp [layout, h4]
    · rw [if_neg hc] at h
      obtain ⟨ip, fp, h1, h2, h3, h4⟩ := body_ok_layout h
      exact ⟨[], ip, fp, Or.inl rfl, h1, h2, h3, by simp [layout, h4]⟩

/-- A laid-out literal is accepted by `is_valid_double`. -/
theorem layout_valid {sg ip : List Char} (fp : List Char)
    (hs : sg = [] ∨ sg = ['+'] ∨ sg = ['-']) (hne : ip ≠ []) (hi : all_digits ip = true)
    (hf : all_digits fp = true) : is_valid_double (layout sg ip fp) = true := by
  have hb := layout_body_ok fp hne hi hf
  rcases hs with rfl | rfl | rfl
  · cases ip with
    | nil => exact absurd rfl hne
    | cons c t =>
      have hi2 := hi
      rw [all_digits_cons, Bool.and_eq_true] at hi2
      have h1 := isdigit_ne_plus hi2.1
      have h2 := isdigit_ne_minus hi2.1
      simp only [layout, List.nil_append, List.cons_append] at hb ⊢
      rw [is_valid_double_cons, if_neg (by simp [h1, h2])]
      exact hb
  · simp only [layout, List.cons_append, List.nil_append, List.append_assoc]
    rw [is_valid_double_cons, if_pos (Or.inl rfl)]
    exact hb
  · simp only [layout, List.cons_append, List.nil_append, List.append_assoc]
    rw [is_valid_double_cons, if_pos (Or.inr rfl)]
    exact hb

/-! ## Decomposition -/

theorem int_of_zero : int_of ((0 : Nat) : Int) = 0 := by decide

/-- The parts returned by `parse_number`, for every string: the sign is '-' exactly for a
leading '-', the integer part is what precedes the first '.', the fractional part what
follows it, and the scale is the length of the fractional part stored in an `int`. -/
theorem parse_number_eq (s : List Char) :
    parse_number s =
      { sign := if s.head? = some '-' then '-' else '+',
        integer := integer_digits s,
        fractional := fraction_digits s,
        scale := int_of (fraction_digits s).length } := by
  have key : ∀ (sign : Char) (r0 : List Char),
      (match r0.dropWhile (fun c => decide (c ≠ '.')) with
        | '.' :: r2 => ({ sign := sign, integer := r0.takeWhile (fun c => decide (c ≠ '.')),
                          fractional := r2, scale := int_of r2.length } : NumberParts)
        | _ => { sign := sign, integer := r0.takeWhile (fun c => decide (c ≠ '.')),
                 fractional := [], scale := 0 })
      = { sign := sign, integer := r0.takeWhile (fun c => decide (c ≠ '.')),
          fractional := (r0.dropWhile (fun c => decide (c ≠ '.'))).tail,
          scale := int_of (r0.dropWhile (fun c => decide (c ≠ '.'))).tail.length } := by
    intro sign r0
    have hh := List.head?_dropWhile_not (fun c => decide (c ≠ '.')) r0
    cases hd : r0.dropWhile (fun c => decide (c ≠ '.')) with
    | nil =>
      simp only [List.tail_nil, List.length_nil]
      rw [int_of_zero]
    | cons x t =>
      rw [hd] at hh
      have hx : x = '.' := by simpa using hh
      subst hx
      simp only [List.tail_cons]
  cases s with
  | nil =>
    unfold parse_number integer_digits fraction_digits literal_body
    simp only [List.head?_nil, List.takeWhile_nil, List.dropWhile_nil, List.tail_nil,
      List.length_nil]
    rw [int_of_zero]
    rfl
  | cons c t =>
    by_cases h1 : c = '+'
    · subst h1
      have := key '+' t
      unfold parse_number integer_digits fraction_digits literal_body
      simpa using this
    · by_cases h2 : c = '-'
      · subst h2
        have := key '-' t
        unfold parse_number integer_digits fraction_digits literal_body
        simpa using this
      · have hb : literal_body (c :: t) = c :: t := by
          unfold literal_body
          split
          · next heq => exact absurd (List.cons.inj heq).1 h1
          · next heq => exact absurd (List.cons.inj heq).1 h2
          · rfl
        have := key '+' (c :: t)
        unfold parse_number integer_digits fraction_digits
        rw [hb]
        simp only [List.head?_cons, Option.some.injEq, h1, h2, decide_False, Bool.or_self,
          if_false, Bool.false_eq_true]
        exact this

/-! ## Formatting -/

theorem format_result_signed (n : Bool) {r : List Char} (hr : canonical r = true) (m : Int) :
    format_result (signed_str n r) m =
      if r = ['0'] then
        if m > 0 then
          some ((if n = true then ['-'] else []) ++ ['0'] ++ ('.' :: List.replicate m.toNat '0'))
        else some ((if n = true then ['-'] else []) ++ ['0'])
      else if m = 0 then some ((if n = true then ['-'] else []) ++ r)
      else if int_of r.length ≤ m then
        if fits_int (m - int_of r.length) = true then
          some ((if n = true then ['-'] else []) ++ ['0', '.'] ++
            (List.replicate (m - int_of r.length).toNat '0' ++ r))
        else none
      else if fits_int (int_of r.length - m) = true ∧
          (int_of r.length - m).toNat ≤ r.length then
        some ((if n = true then ['-'] else []) ++ r.take (int_of r.length - m).toNat ++ ['.'] ++
          r.drop (int_of r.length - m).toNat)
      else none := by
  unfold format_result
  simp only [signed_str_abs hr]
  simp only [signed_str_head hr]

theorem fits_int_iff (x : Int) : fits_int x = true ↔ -2147483648 ≤ x ∧ x < 2147483648 := by
  unfold fits_int
  simp

theorem replicate_zero_ne_nil {m : Nat} (h : 0 < m) : List.replicate m '0' ≠ [] := by
  intro e
  have := congrArg List.length e
  simp at this
  omega

theorem canonical_take {r : List Char} (hr : canonical r = true) (h0 : r ≠ ['0']) {p : Nat}
    (hp : 0 < p) : canonical (r.take p) = true := by
  rw [canonical_iff]
  have hne := canonical_ne_nil hr
  refine ⟨all_digits_take p (canonical_digits hr), ?_, Or.inl ?_⟩
  · cases r with
    | nil => exact absurd rfl hne
    | cons c t =>
      cases p with
      | zero => omega
      | succ q => simp
  · have hh : r.head? ≠ some '0' := by
      rcases ((canonical_iff r).1 hr).2.2 with h | h
      · exact h
      · exact absurd h h0
    cases r with
    | nil => exact absurd rfl hne
    | cons c t =>
      cases p with
      | zero => omega
      | succ q =>
        rw [List.take_succ_cons]
        simpa using hh

/-- The string produced by `format_result` from a signed canonical magnitude of fewer than
`2^31` digits at a scale `0 ≤ m < 2^31`: the sign, a canonical integer part and exactly `m` fractional
digits, which together carry the digits of the magnitude. -/
theorem format_result_spec (n : Bool) {r : List Char} (hr : canonical r = true) (m : Nat)
    (hl : r.length < 2147483648) (hmi : m < 2147483648) :
    ∃ ip fp : List Char, canonical ip = true ∧ all_digits fp = true ∧ fp.length = m ∧
      digits_value (ip ++ fp) = digits_value r ∧
      format_result (signed_str n r) m
        = some (layout (if n = true then ['-'] else []) ip fp) := by
  rw [format_result_signed n hr m, int_of_length hl]
  by_cases h0 : r = ['0']
  · rw [if_pos h0]
    by_cases hm : (m : Int) > 0
    · rw [if_pos hm]
      have hm2 : 0 < m := by omega
      refine ⟨['0'], List.replicate m '0', by decide, all_digits_replicate m, by simp, ?_, ?_⟩
      · rw [h0, digits_value_append, digits_value_replicate_zero]
        have hz : digits_value ['0'] = 0 := by decide
        rw [hz]; simp
      · rw [layout_frac _ _ (replicate_zero_ne_nil hm2), Int.toNat_ofNat]
    · rw [if_neg hm]
      have hm0 : m = 0 := by omega
      refine ⟨['0'], [], by decide, rfl, by simp [hm0], by rw [h0]; rfl, ?_⟩
      rw [layout_nil_frac]
  · rw [if_neg h0]
    by_cases hm : (m : Int) = 0
    · rw [if_pos hm]
      have hm0 : m = 0 := by omega
      refine ⟨r, [], hr, rfl, by simp [hm0], by simp, ?_⟩
      rw [layout_nil_frac]
    · rw [if_neg hm]
      have hd := canonical_digits hr
      by_cases hl2 : (r.length : Int) ≤ m
      · rw [if_pos hl2, if_pos ((fits_int_iff _).2 (by omega))]
        have hrne := canonical_ne_nil hr
        have e : ((m : Int) - r.length).toNat = m - r.length := by omega
        rw [e]
        refine ⟨['0'], List.replicate (m - r.length) '0' ++ r, by decide, ?_, ?_, ?_, ?_⟩
        · rw [all_digits_append, all_digits_replicate, hd]; rfl
        · simp; omega
        · rw [List.singleton_append, digits_value_cons, digit_of_zero, digits_value_append,
            digits_value_replicate_zero]
          simp
        · rw [layout_frac _ _ (by simp [hrne])]
          simp
      · rw [if_neg hl2]
        have e : ((r.length : Int) - m).toNat = r.length - m := by omega
        rw [if_pos ⟨(fits_int_iff _).2 (by omega), by omega⟩, e]
        have hsplit : r.take (r.length - m) ++ r.drop (r.length - m) = r :=
          List.take_append_drop _ r
        have hlen : (r.drop (r.length - m)).length = m := by
          rw [List.length_drop]; omega
        have hdne : r.drop (r.length - m) ≠ [] := by
          intro e2; rw [e2] at hlen; simp at hlen; omega
        refine ⟨r.take (r.length - m), r.drop (r.length - m),
          canonical_take hr h0 (by omega), all_digits_drop _ hd, hlen, by rw [hsplit], ?_⟩
        rw [layout_frac _ _ hdne]
        simp

theorem parse_number_layout {sg ip fp : List Char} (h : lit_ok sg ip fp) :
    parse_number (layout sg ip fp) =
      { sign := if sg = ['-'] then '-' else '+', integer := ip, fractional := fp,
        scale := int_of fp.length } := by
  obtain ⟨hs, hne, hi, _⟩ := h
  rw [parse_number_eq, integer_digits_layout fp hs hne hi, fraction_digits_layout fp hs hne hi]
  have hh := (head_layout fp hs hne hi).1
  by_cases hm : sg = ['-']
  · rw [if_pos (hh.2 hm), if_pos hm]
  · rw [if_neg (fun k => hm (hh.1 k)), if_neg hm]

/-- A canonical digit string whose value is below `10 ^ n` has at most `n` digits. -/
theorem canonical_length_of_lt {c : List Char} (hc : canonical c = true) {n : Nat}
    (hn : 0 < n) (hv : digits_value c < 10 ^ n) : c.length ≤ n := by
  by_cases h0 : c = ['0']
  · rw [h0]; simpa using hn
  · have h1 := canonical_value_ge hc h0
    have h2 : (10 : Int) ^ (c.length - 1) < 10 ^ n := lt_of_le_of_lt h1 hv
    have h3 : c.length - 1 < n := (pow_lt_pow_iff_right₀ (by norm_num)).1 h2
    omega

/-- The normalisation step of `main` on parts with integer digits `ip`, fractional digits `fp`
and any stored scale `sc`, at any scale `m`: no result when `m - sc` is needed and overflows,
and otherwise the sign and the stripped digits of `ip ++ fp` padded with `m - sc` zeros. -/
theorem normalize_parts_eq (sg ip fp : List Char) (sc m : Int) :
    normalize_parts { sign := if sg = ['-'] then '-' else '+', integer := ip,
                      fractional := fp, scale := sc } m
      = if m > sc ∧ ¬ fits_int (m - sc) = true then none
        else some (signed_str (decide (sg = ['-']))
          (strip_leading_zeros
            (strip_leading_zeros ip ++ (fp ++ List.replicate (m - sc).toNat '0')))) := by
  have hpad : (if m > sc then fp ++ List.replicate (m - sc).toNat '0' else fp)
      = fp ++ List.replicate (m - sc).toNat '0' := by
    by_cases hlt : m > sc
    · rw [if_pos hlt]
    · rw [if_neg hlt]
      have : (m - sc).toNat = 0 := by omega
      rw [this]; simp
  unfold normalize_parts
  simp only [hpad]
  by_cases hsg : sg = ['-']
  · simp [hsg, signed_str]
  · have : ¬ ((if sg = ['-'] then '-' else '+') = '-') := by
      rw [if_neg hsg]; decide
    simp [hsg, signed_str]

theorem normalize_digits {sg ip fp : List Char} (h : lit_ok sg ip fp) (k : Nat) :
    canonical (strip_leading_zeros (strip_leading_zeros ip ++ (fp ++ List.replicate k '0')))
        = true ∧
      digits_value (strip_leading_zeros (strip_leading_zeros ip ++ (fp ++ List.replicate k '0')))
        = digits_value (ip ++ fp) * 10 ^ k := by
  obtain ⟨hs, hne, hi, hf⟩ := h
  have hdig : all_digits (strip_leading_zeros ip ++ (fp ++ List.replicate k '0')) = true := by
    rw [all_digits_append, all_digits_append, canonical_digits (canonical_strip hi), hf,
      all_digits_replicate]
    rfl
  refine ⟨canonical_strip hdig, ?_⟩
  rw [digits_value_strip, digits_value_append, digits_value_strip, digits_value_append,
    digits_value_append, digits_value_replicate_zero]
  simp only [List.length_append, List.length_replicate]
  ring

/-- The normalisation step of `main` on parts with integer digits `ip`, fractional digits `fp`
and any stored scale `sc`, at a scale `m ≥ sc` with `m - sc` in the range of `int`: the sign and
the canonical digits of the number denoted by `ip ++ fp` times `10 ^ (m - sc)`. -/
theorem normalize_parts_spec {sg ip fp : List Char} (h : lit_ok sg ip fp) (sc m : Int)
    (hm : sc ≤ m) (hov : m - sc < 2147483648) :
    ∃ c, canonical c = true ∧
      digits_value c = digits_value (ip ++ fp) * 10 ^ (m - sc).toNat ∧
      normalize_parts { sign := if sg = ['-'] then '-' else '+', integer := ip,
                        fractional := fp, scale := sc } m
        = some (signed_str (decide (sg = ['-'])) c) := by
  obtain ⟨h1, h2⟩ := normalize_digits h (m - sc).toNat
  refine ⟨_, h1, h2, ?_⟩
  rw [normalize_parts_eq, if_neg]
  rintro ⟨_, hn⟩
  exact hn ((fits_int_iff _).2 (by omega))

/-- The pipeline after both normalisation steps have returned. -/
theorem add_parts_some {pa pb : NumberParts} {m : Int} {sa sb : List Char}
    (hm : max pa.scale pb.scale = m)
    (ha : normalize_parts pa m = some sa) (hb : normalize_parts pb m = some sb) :
    add_parts pa pb = format_result (add_signed_numbers sa sb) m := by
  unfold add_parts
  subst hm
  simp only []
  rw [ha, hb]

theorem digits_value_layout_lt {sg ip fp : List Char} (h : lit_ok sg ip fp) :
    0 ≤ digits_value (ip ++ fp) ∧ digits_value (ip ++ fp) < 10 ^ (ip.length + fp.length) := by
  obtain ⟨_, _, hi, hf⟩ := h
  have hd : all_digits (ip ++ fp) = true := by rw [all_digits_append, hi, hf]; rfl
  have := digits_value_lt hd
  rw [List.length_append] at this
  exact ⟨digits_value_nonneg hd, this⟩

/-- The scaled integer of a literal at scale `m` is below `10 ^ (integer digits + m)` in
absolute value. -/
theorem scaled_int_abs_lt {sg ip fp : List Char} (h : lit_ok sg ip fp) {m : Nat}
    (hm : fp.length ≤ m) : |scaled_int sg ip fp m| < 10 ^ (ip.length + m) := by
  obtain ⟨h0, h1⟩ := digits_value_layout_lt h
  have hp : (0 : Int) < 10 ^ (m - fp.length) := by positivity
  have e : (10 : Int) ^ (ip.length + m) = 10 ^ (ip.length + fp.length) * 10 ^ (m - fp.length) := by
    rw [← pow_add]; congr 1; omega
  have hlt : digits_value (ip ++ fp) * 10 ^ (m - fp.length) < 10 ^ (ip.length + m) := by
    rw [e]; exact mul_lt_mul_of_pos_right h1 hp
  have hnn : 0 ≤ digits_value (ip ++ fp) * 10 ^ (m - fp.length) := mul_nonneg h0 hp.le
  unfold scaled_int
  cases decide (sg = ['-'])
  · rw [signed_int_false, abs_of_nonneg hnn]; exact hlt
  · rw [signed_int_true, abs_neg, abs_of_nonneg hnn]; exact hlt

/-- The output of the two-operand pipeline on two laid-out literals short enough for the
source's `int` (integer digits plus scale below `2^31 - 1`): a literal laid out from a sign, a
canonical integer part and exactly `max` of the two scales fractional digits, whose digits are
those of the absolute value of the sum at the common scale.  The sign is '-' when the sum is
negative, and also when both operands carry a '-'. -/
theorem add_layout_spec {sga ipa fpa sgb ipb fpb : List Char} (ha : lit_ok sga ipa fpa)
    (hb : lit_ok sgb ipb fpb)
    (hlen : max ipa.length ipb.length + max fpa.length fpb.length + 1 < 2147483648) :
    ∃ ip fp : List Char, canonical ip = true ∧ all_digits fp = true ∧
      fp.length = max fpa.length fpb.length ∧
      digits_value (ip ++ fp)
        = |scaled_int sga ipa fpa (max fpa.length fpb.length)
            + scaled_int sgb ipb fpb (max fpa.length fpb.length)| ∧
      add (layout sga ipa fpa) (layout sgb ipb fpb)
        = some (layout
            (if (decide (scaled_int sga ipa fpa (max fpa.length fpb.length)
                    + scaled_int sgb ipb fpb (max fpa.length fpb.length) < 0)
                  || (decide (sga = ['-']) && decide (sgb = ['-']))) = true
              then ['-'] else [])
            ip fp) := by
  have hla : fpa.length ≤ max fpa.length fpb.length := Nat.le_max_left _ _
  have hlb : fpb.length ≤ max fpa.length fpb.length := Nat.le_max_right _ _
  have hia : ipa.length ≤ max ipa.length ipb.length := Nat.le_max_left _ _
  have hib : ipb.length ≤ max ipa.length ipb.length := Nat.le_max_right _ _
  have ea : int_of fpa.length = fpa.length := int_of_length (by omega)
  have eb : int_of fpb.length = fpb.length := int_of_length (by omega)
  have emax : max (fpa.length : Int) (fpb.length : Int)
      = ((max fpa.length fpb.length : Nat) : Int) := by
    rw [Nat.cast_max]
  have ta : (((max fpa.length fpb.length : Nat) : Int) - fpa.length).toNat
      = max fpa.length fpb.length - fpa.length := by omega
  have tb : (((max fpa.length fpb.length : Nat) : Int) - fpb.length).toNat
      = max fpa.length fpb.length - fpb.length := by omega
  obtain ⟨ca, ha1, ha2, ha3⟩ := normalize_parts_spec ha
    (fpa.length : Int) ((max fpa.length fpb.length : Nat) : Int) (by omega) (by omega)
  obtain ⟨cb, hb1, hb2, hb3⟩ := normalize_parts_spec hb
    (fpb.length : Int) ((max fpa.length fpb.length : Nat) : Int) (by omega) (by omega)
  rw [ta] at ha2
  rw [tb] at hb2
  have za := scaled_int_abs_lt ha hla
  have zb := scaled_int_abs_lt hb hlb
  have hpa : (10 : Int) ^ (ipa.length + max fpa.length fpb.length)
      ≤ 10 ^ (max ipa.length ipb.length + max fpa.length fpb.length) :=
    pow_le_pow_right₀ (by norm_num) (by omega)
  have hpb : (10 : Int) ^ (ipb.length + max fpa.length fpb.length)
      ≤ 10 ^ (max ipa.length ipb.length + max fpa.length fpb.length) :=
    pow_le_pow_right₀ (by norm_num) (by omega)
  have hca0 := digits_value_nonneg (canonical_digits ha1)
  have hcb0 := digits_value_nonneg (canonical_digits hb1)
  have hsa : |scaled_int sga ipa fpa (max fpa.length fpb.length)| = digits_value ca := by
    unfold scaled_int
    rw [← ha2]
    cases decide (sga = ['-'])
    · rw [signed_int_false, abs_of_nonneg hca0]
    · rw [signed_int_true, abs_neg, abs_of_nonneg hca0]
  have hsb : |scaled_int sgb ipb fpb (max fpa.length fpb.length)| = digits_value cb := by
    unfold scaled_int
    rw [← hb2]
    cases decide (sgb = ['-'])
    · rw [signed_int_false, abs_of_nonneg hcb0]
    · rw [signed_int_true, abs_neg, abs_of_nonneg hcb0]
  have hnea : 0 < ipa.length := List.length_pos.2 ha.2.1
  have hneb : 0 < ipb.length := List.length_pos.2 hb.2.1
  have lca : ca.length ≤ ipa.length + max fpa.length fpb.length :=
    canonical_length_of_lt ha1 (by omega) (by rw [← hsa]; exact za)
  have lcb : cb.length ≤ ipb.length + max fpa.length fpb.length :=
    canonical_length_of_lt hb1 (by omega) (by rw [← hsb]; exact zb)
  obtain ⟨r, hr1, hr2, hr3⟩ :=
    add_signed_numbers_spec (decide (sga = ['-'])) (decide (sgb = ['-'])) ha1 hb1
      (by omega) (by omega)
  have hsum : signed_int (decide (sga = ['-'])) (digits_value ca)
      + signed_int (decide (sgb = ['-'])) (digits_value cb)
      = scaled_int sga ipa fpa (max fpa.length fpb.length)
        + scaled_int sgb ipb fpb (max fpa.length fpb.length) := by
    unfold scaled_int
    rw [ha2, hb2]
  rw [hsum] at hr2 hr3
  have hrl : r.length ≤ max ipa.length ipb.length + max fpa.length fpb.length + 1 := by
    apply canonical_length_of_lt hr1 (by omega)
    rw [hr2, pow_succ]
    have := abs_add (scaled_int sga ipa fpa (max fpa.length fpb.length))
      (scaled_int sgb ipb fpb (max fpa.length fpb.length))
    have hp : (0 : Int) < 10 ^ (max ipa.length ipb.length + max fpa.length fpb.length) := by
      positivity
    omega
  obtain ⟨ip, fp, h1, h2, h3, h4, h5⟩ :=
    format_result_spec
      (decide (scaled_int sga ipa fpa (max fpa.length fpb.length)
          + scaled_int sgb ipb fpb (max fpa.length fpb.length) < 0)
        || (decide (sga = ['-']) && decide (sgb = ['-'])))
      hr1 (max fpa.length fpb.length) (by omega) (by omega)
  refine ⟨ip, fp, h1, h2, h3, ?_, ?_⟩
  · rw [h4, hr2]
  · unfold add
    rw [parse_number_layout ha, parse_number_layout hb, ea, eb]
    rw [add_parts_some emax ha3 hb3, hr3, h5]

/-! ## Values of the pipeline's input and output -/

theorem signed_int_mul (n : Bool) (v k : Int) : signed_int n (v * k) = signed_int n v * k := by
  cases n
  · rfl
  · simp [signed_int]

/-- The value of a laid-out literal, read at any scale `m` that is at least its own. -/
theorem decimal_value_scaled {sg ip fp : List Char} (h : lit_ok sg ip fp) {m : Nat}
    (hm : fp.length ≤ m) :
    decimal_value (layout sg ip fp) = ((scaled_int sg ip fp m : Int) : ℚ) / (10 : ℚ) ^ m := by
  obtain ⟨hs, hne, hi, _⟩ := h
  rw [decimal_value_layout fp hs hne hi]
  unfold scaled_int
  rw [signed_int_mul]
  have hsplit : (10 : ℚ) ^ m = 10 ^ (m - fp.length) * 10 ^ fp.length := by
    rw [← pow_add]; congr 1; omega
  rw [hsplit]
  push_cast
  have h1 : (10 : ℚ) ^ (m - fp.length) ≠ 0 := by positivity
  have h2 : (10 : ℚ) ^ fp.length ≠ 0 := by positivity
  field_simp
  ring

theorem signed_int_abs_of_flag (z : Int) (both : Bool) (hb : both = true → z ≤ 0) :
    signed_int (decide (z < 0) || both) |z| = z := by
  by_cases hz : z < 0
  · simp [hz, signed_int, abs_of_neg hz]
  · cases both
    · simp [hz, signed_int, abs_of_nonneg (not_lt.1 hz)]
    · have : z = 0 := le_antisymm (hb rfl) (not_lt.1 hz)
      subst this
      simp [signed_int]

theorem scaled_int_nonpos {sg ip fp : List Char} (h : lit_ok sg ip fp) (m : Nat)
    (hn : sg = ['-']) : scaled_int sg ip fp m ≤ 0 := by
  obtain ⟨_, _, hi, hf⟩ := h
  have hv : 0 ≤ digits_value (ip ++ fp) :=
    digits_value_nonneg (by rw [all_digits_append, hi, hf]; rfl)
  have hp : (0 : Int) ≤ 10 ^ (m - fp.length) := by positivity
  have := mul_nonneg hv hp
  simp only [scaled_int, hn, decide_True, signed_int_true]
  omega

theorem scaled_int_nonneg {sg ip fp : List Char} (h : lit_ok sg ip fp) (m : Nat)
    (hn : sg ≠ ['-']) : 0 ≤ scaled_int sg ip fp m := by
  obtain ⟨_, _, hi, hf⟩ := h
  have hv : 0 ≤ digits_value (ip ++ fp) :=
    digits_value_nonneg (by rw [all_digits_append, hi, hf]; rfl)
  have hp : (0 : Int) ≤ 10 ^ (m - fp.length) := by positivity
  have := mul_nonneg hv hp
  simp only [scaled_int, hn, decide_False, signed_int_false]
  omega

theorem lit_ok_output (n : Bool) {ip fp : List Char} (hi : canonical ip = true)
    (hf : all_digits fp = true) : lit_ok (if n = true then ['-'] else []) ip fp := by
  refine ⟨?_, canonical_ne_nil hi, canonical_digits hi, hf⟩
  cases n
  · exact Or.inl rfl
  · exact Or.inr (Or.inr rfl)

theorem scaled_int_rescale (sg ip fp : List Char) {m M : Nat} (h1 : fp.length ≤ m)
    (h2 : m ≤ M) : scaled_int sg ip fp M = scaled_int sg ip fp m * 10 ^ (M - m) := by
  unfold scaled_int
  rw [← signed_int_mul, mul_assoc, ← pow_add]
  congr 3
  omega

theorem neg_iff_rescale (z : Int) (k : Nat) : z * 10 ^ k < 0 ↔ z < 0 := by
  have hp : (0 : Int) < 10 ^ k := by positivity
  constructor
  · intro h
    by_contra hz
    have := mul_nonneg (not_lt.1 hz) hp.le
    omega
  · intro h
    exact mul_neg_of_neg_of_pos h hp

theorem scaled_int_output (n : Bool) (ip fp : List Char) (M : Nat) :
    scaled_int (if n = true then ['-'] else []) ip fp M
      = signed_int n (digits_value (ip ++ fp)) * 10 ^ (M - fp.length) := by
  cases n <;> simp [scaled_int, signed_int]

theorem layout_length (sg ip fp : List Char) :
    ip.length + fp.length ≤ (layout sg ip fp).length := by
  unfold layout
  by_cases h : fp = []
  · simp [h]
  · simp [h]; omega

/-- The output of the pipeline on two laid-out literals short enough for the source's `int`,
as a laid-out literal that can be fed back in: its scaled integer at every scale `M` at least
`max` of the operands' scales is the sum of theirs, it carries a '-' exactly when that sum is
negative or both operands carry one, and its integer part has at most one digit more than the
longer integer part of the operands. -/
theorem add_layout_scaled {sga ipa fpa sgb ipb fpb : List Char} (la : lit_ok sga ipa fpa)
    (lb : lit_ok sgb ipb fpb)
    (hlen : max ipa.length ipb.length + max fpa.length fpb.length + 1 < 2147483648) :
    ∃ (n : Bool) (ip fp : List Char),
      lit_ok (if n = true then ['-'] else []) ip fp ∧ canonical ip = true ∧
      fp.length = max fpa.length fpb.length ∧
      ip.length ≤ max ipa.length ipb.length + 1 ∧
      add (layout sga ipa fpa) (layout sgb ipb fpb)
        = some (layout (if n = true then ['-'] else []) ip fp) ∧
      ∀ M, max fpa.length fpb.length ≤ M →
        scaled_int (if n = true then ['-'] else []) ip fp M
            = scaled_int sga ipa fpa M + scaled_int sgb ipb fpb M ∧
          (n = true ↔ (scaled_int sga ipa fpa M + scaled_int sgb ipb fpb M < 0
            ∨ (sga = ['-'] ∧ sgb = ['-']))) := by
  obtain ⟨ip, fp, h1, h2, h3, h4, h5⟩ := add_layout_spec la lb hlen
  have hipl : ip.length ≤ max ipa.length ipb.length + 1 := by
    apply canonical_length_of_lt h1 (by omega)
    have za := scaled_int_abs_lt la (Nat.le_max_left fpa.length fpb.length)
    have zb := scaled_int_abs_lt lb (Nat.le_max_right fpa.length fpb.length)
    have hpa : (10 : Int) ^ (ipa.length + max fpa.length fpb.length)
        ≤ 10 ^ (max ipa.length ipb.length + max fpa.length fpb.length) :=
      pow_le_pow_right₀ (by norm_num) (by have := Nat.le_max_left ipa.length ipb.length; omega)
    have hpb : (10 : Int) ^ (ipb.length + max fpa.length fpb.length)
        ≤ 10 ^ (max ipa.length ipb.length + max fpa.length fpb.length) :=
      pow_le_pow_right₀ (by norm_num) (by have := Nat.le_max_right ipa.length ipb.length; omega)
    have habs := abs_add (scaled_int sga ipa fpa (max fpa.length fpb.length))
      (scaled_int sgb ipb fpb (max fpa.length fpb.length))
    rw [digits_value_append, h3] at h4
    have hf0 := digits_value_nonneg h2
    have hq : (0 : Int) < 10 ^ (max fpa.length fpb.length) := by positivity
    have hlt : digits_value ip * 10 ^ (max fpa.length fpb.length)
        < 10 ^ (max ipa.length ipb.length + 1) * 10 ^ (max fpa.length fpb.length) := by
      have e : (10 : Int) ^ (max ipa.length ipb.length + 1) * 10 ^ (max fpa.length fpb.length)
          = 10 * 10 ^ (max ipa.length ipb.length + max fpa.length fpb.length) := by
        rw [pow_succ, pow_add]; ring
      rw [e]
      have hi0 : (0 : Int) < 10 ^ (max ipa.length ipb.length + max fpa.length fpb.length) := by
        positivity
      linarith
    exact lt_of_mul_lt_mul_right hlt hq.le
  refine ⟨_, ip, fp, lit_ok_output _ h1 h2, h1, h3, hipl, h5, fun M hM => ?_⟩
  have ra := scaled_int_rescale sga ipa fpa (Nat.le_max_left fpa.length fpb.length) hM
  have rb := scaled_int_rescale sgb ipb fpb (Nat.le_max_right fpa.length fpb.length) hM
  have hsum : scaled_int sga ipa fpa M + scaled_int sgb ipb fpb M
      = (scaled_int sga ipa fpa (max fpa.length fpb.length)
          + scaled_int sgb ipb fpb (max fpa.length fpb.length))
        * 10 ^ (M - max fpa.length fpb.length) := by
    rw [ra, rb]; ring
  have hboth : (decide (sga = ['-']) && decide (sgb = ['-'])) = true →
      scaled_int sga ipa fpa (max fpa.length fpb.length)
        + scaled_int sgb ipb fpb (max fpa.length fpb.length) ≤ 0 := by
    intro hb
    simp only [Bool.and_eq_true, decide_eq_true_eq] at hb
    have := scaled_int_nonpos la (max fpa.length fpb.length) hb.1
    have := scaled_int_nonpos lb (max fpa.length fpb.length) hb.2
    omega
  constructor
  · rw [scaled_int_output, h4, signed_int_abs_of_flag _ _ hboth, h3, hsum]
  · rw [hsum, neg_iff_rescale]
    simp only [Bool.or_eq_true, Bool.and_eq_true, decide_eq_true_eq]

/-- The value of what the pipeline returns for two laid-out literals short enough for the
source's `int` is the sum of the values of the operands. -/
theorem decimal_value_add_layout {sga ipa fpa sgb ipb fpb : List Char}
    (ha : lit_ok sga ipa fpa) (hb : lit_ok sgb ipb fpb)
    {n : Bool} {ip fp : List Char} (lo : lit_ok (if n = true then ['-'] else []) ip fp)
    (hf : fp.length = max fpa.length fpb.length)
    (hs : scaled_int (if n = true then ['-'] else []) ip fp (max fpa.length fpb.length)
      = scaled_int sga ipa fpa (max fpa.length fpb.length)
        + scaled_int sgb ipb fpb (max fpa.length fpb.length)) :
    decimal_value (layout (if n = true then ['-'] else []) ip fp)
      = decimal_value (layout sga ipa fpa) + decimal_value (layout sgb ipb fpb) := by
  rw [decimal_value_scaled ha (Nat.le_max_left fpa.length fpb.length),
    decimal_value_scaled hb (Nat.le_max_right fpa.length fpb.length),
    decimal_value_scaled lo (le_of_eq hf), hs]
  push_cast
  rw [add_div]

/-- A number below `P` added to a multiple of `P` determines both. -/
theorem split_unique {x y x2 y2 P : Int} (hy0 : 0 ≤ y) (hy : y < P) (hz0 : 0 ≤ y2)
    (hz : y2 < P) (h : x * P + y = x2 * P + y2) : x = x2 ∧ y = y2 := by
  have hx : x = x2 := by
    rcases lt_trichotomy x x2 with hlt | heq | hgt
    · exfalso; nlinarith
    · exact heq
    · exfalso; nlinarith
  subst hx
  exact ⟨rfl, by linarith⟩

/-- An integer part and fractional digits are determined by the value they carry together. -/
theorem layout_parts_unique {ip fp ip2 fp2 : List Char} (hi : canonical ip = true)
    (hf : all_digits fp = true) (hi2 : canonical ip2 = true) (hf2 : all_digits fp2 = true)
    (hl : fp.length = fp2.length) (hv : digits_value (ip ++ fp) = digits_value (ip2 ++ fp2)) :
    ip = ip2 ∧ fp = fp2 := by
  rw [digits_value_append, digits_value_append, hl] at hv
  have b1 := digits_value_lt hf
  rw [hl] at b1
  obtain ⟨e1, e2⟩ := split_unique (digits_value_nonneg hf) b1 (digits_value_nonneg hf2)
    (digits_value_lt hf2) hv
  exact ⟨canonical_unique hi hi2 e1, digits_eq_of_value_eq fp fp2 hf hf2 hl e2⟩

theorem mem_dot_layout {sg ip : List Char} (fp : List Char)
    (hs : sg = [] ∨ sg = ['+'] ∨ sg = ['-']) (hi : all_digits ip = true) :
    '.' ∈ layout sg ip fp ↔ fp ≠ [] := by
  have hip : '.' ∉ ip := fun hm => isdigit_ne_dot ((all_digits_iff ip).1 hi _ hm) rfl
  have hsg : '.' ∉ sg := by
    rcases hs with rfl | rfl | rfl <;> simp
  by_cases hf : fp = []
  · simp [layout, hf, hip, hsg]
  · simp [layout, hf]

/-! ## Strings too long for an `int` -/

theorem all_digits_replicate_digit {c : Char} (hc : isdigit c = true) (k : Nat) :
    all_digits (List.replicate k c) = true := by
  rw [all_digits_iff]
  intro x hx
  rw [List.eq_of_mem_replicate hx]
  exact hc

theorem canonical_replicate {c : Char} (hc : isdigit c = true) (h0 : c ≠ '0') {k : Nat}
    (hk : 0 < k) : canonical (List.replicate k c) = true := by
  rw [canonical_iff]
  refine ⟨all_digits_replicate_digit hc k, ?_, Or.inl ?_⟩
  · intro e
    have := congrArg List.length e
    simp at this
    omega
  · obtain ⟨j, rfl⟩ : ∃ j, k = j + 1 := ⟨k - 1, by omega⟩
    rw [List.replicate_succ]
    simpa using h0

theorem canonical_cons_replicate {c d : Char} (hc : isdigit c = true) (h0 : c ≠ '0')
    (hd : isdigit d = true) (k : Nat) : canonical (c :: List.replicate k d) = true := by
  rw [canonical_iff]
  refine ⟨?_, by simp, Or.inl (by simpa using h0)⟩
  rw [all_digits_cons, hc, all_digits_replicate_digit hd k]
  rfl

theorem canonical_value_pos {s : List Char} (h : canonical s = true) (h0 : s ≠ ['0']) :
    0 < digits_value s :=
  lt_of_lt_of_le (by positivity) (canonical_value_ge h h0)

theorem ne_of_length_ne {s t : List Char} (h : s.length ≠ t.length) : s ≠ t :=
  fun e => h (congrArg List.length e)

theorem digits_value_replicate_nine (k : Nat) :
    digits_value (List.replicate k '9') = 10 ^ k - 1 := by
  induction k with
  | zero => rfl
  | succ k ih =>
    have h9 : digit_of '9' = 9 := by decide
    rw [List.replicate_succ, digits_value_cons, ih, h9, List.length_replicate, pow_succ]
    ring

theorem digits_value_one_zeros (k : Nat) :
    digits_value ('1' :: List.replicate k '0') = 10 ^ k := by
  have h1 : digit_of '1' = 1 := by decide
  rw [digits_value_cons, digits_value_replicate_zero, h1, List.length_replicate]
  ring

/-- An index that starts at `length - 1` is negative for a string of more than `2^31` and at
most `2^32` characters, so the loop reads none of them. -/
theorem index_down_long {a : List Char} (h1 : 2147483648 < a.length)
    (h2 : a.length ≤ 4294967296) : index_down a = [] := by
  unfold index_down
  have : (int_of ((a.length : Int) - 1) + 1).toNat = 0 := by
    unfold int_of
    omega
  rw [this]
  rfl

/-- `add_absolute` of a string too long for the index and "0" is "0". -/
theorem add_absolute_long_zero {a : List Char} (h1 : 2147483648 < a.length)
    (h2 : a.length ≤ 4294967296) : add_absolute a ['0'] = ['0'] := by
  unfold add_absolute
  have hl : ¬ a.length < ['0'].length := by rw [List.length_singleton]; omega
  simp only [hl, if_false]
  rw [index_down_long h1 h2]
  decide

/-- `subtract_absolute` of a string too long for the index and a single digit `d` is the
digit `0 - d` with its borrow dropped. -/
theorem subtract_absolute_long_digit {a : List Char} (h1 : 2147483648 < a.length)
    (h2 : a.length ≤ 4294967296) (d : Char) :
    subtract_absolute a [d]
      = strip_leading_zeros (sub_loop [] (index_down [d]) 0).reverse := by
  unfold subtract_absolute
  have hc : ¬ compare_absolute a [d] < 0 := by
    unfold compare_absolute
    rw [if_pos (by rw [List.length_singleton]; omega)]
    norm_num
  simp only [hc, decide_False, if_false, Bool.false_eq_true]
  rw [index_down_long h1 h2]

/-- `subtract_absolute` of a string too long for the index and itself is "0". -/
theorem subtract_absolute_long_self {a : List Char} (h1 : 2147483648 < a.length)
    (h2 : a.length ≤ 4294967296) : subtract_absolute a a = ['0'] := by
  unfold subtract_absolute
  have hc : ¬ compare_absolute a a < 0 := by
    unfold compare_absolute
    rw [if_neg (by omega), if_neg (by omega)]
    have : compare_loop a a = -compare_loop a a := compare_loop_antisymm a a
    omega
  simp only [hc, decide_False, if_false, Bool.false_eq_true]
  rw [index_down_long h1 h2]
  decide

/-! ## The pipeline on integer literals and on long literals -/

/-- The decision table of `add_signed_numbers`, for all strings. -/
theorem add_signed_numbers_table (a b : List Char) :
    add_signed_numbers a b =
      if a.head? = some '-' then
        if b.head? = some '-' then '-' :: add_absolute (magnitude a) (magnitude b)
        else subtract_absolute (magnitude b) (magnitude a)
      else
        if b.head? = some '-' then subtract_absolute (magnitude a) (magnitude b)
        else add_absolute (magnitude a) (magnitude b) := by
  unfold add_signed_numbers magnitude
  by_cases h1 : a.head? = some '-' <;> by_cases h2 : b.head? = some '-' <;> simp [h1, h2]

theorem magnitude_of_canonical {x : List Char} (hx : canonical x = true) : magnitude x = x := by
  unfold magnitude
  rw [if_neg (canonical_head_ne_minus hx)]

theorem magnitude_minus (x : List Char) : magnitude ('-' :: x) = x := by
  simp [magnitude]

theorem normalize_parts_same_scale (sgn : Char) (ip fp : List Char) (sc : Int) :
    normalize_parts { sign := sgn, integer := ip, fractional := fp, scale := sc } sc
      = some (if sgn = '-' then '-' :: strip_leading_zeros (strip_leading_zeros ip ++ fp)
        else strip_leading_zeros (strip_leading_zeros ip ++ fp)) := by
  unfold normalize_parts
  simp

/-- At scale 0 `format_result` returns a signed canonical magnitude unchanged. -/
theorem format_result_scale_zero (n : Bool) {r : List Char} (hr : canonical r = true) :
    format_result (signed_str n r) 0 = some (signed_str n r) := by
  rw [format_result_signed n hr 0]
  by_cases h0 : r = ['0']
  · rw [if_pos h0, if_neg (by norm_num), h0]
    cases n <;> rfl
  · rw [if_neg h0, if_pos rfl]
    cases n <;> rfl

theorem parse_number_integer {sg x : List Char} (hs : sg = [] ∨ sg = ['+'] ∨ sg = ['-'])
    (hx : canonical x = true) :
    parse_number (sg ++ x) =
      { sign := if sg = ['-'] then '-' else '+', integer := x, fractional := [], scale := 0 } := by
  have l : lit_ok sg x [] := ⟨hs, canonical_ne_nil hx, canonical_digits hx, rfl⟩
  have := parse_number_layout l
  rw [layout_nil_frac, List.length_nil, int_of_zero] at this
  exact this

/-- The pipeline on two canonical integers without sign is `add_absolute`. -/
theorem add_integers {x y : List Char} (hx : canonical x = true) (hy : canonical y = true) :
    add x y = some (add_absolute x y) := by
  have px := parse_number_integer (Or.inl rfl) hx
  have py := parse_number_integer (Or.inl rfl) hy
  rw [List.nil_append] at px py
  unfold add
  rw [px, py]
  rw [add_parts_some (max_self (0 : Int)) (normalize_parts_same_scale _ _ _ _)
      (normalize_parts_same_scale _ _ _ _),
    if_neg (by decide), if_neg (by decide), List.append_nil, List.append_nil,
    strip_of_canonical hx, strip_of_canonical hx, strip_of_canonical hy, strip_of_canonical hy,
    add_signed_numbers_table, if_neg (canonical_head_ne_minus hx),
    if_neg (canonical_head_ne_minus hy), magnitude_of_canonical hx, magnitude_of_canonical hy]
  exact format_result_scale_zero false
    (add_absolute_canonical (canonical_digits hx) (canonical_digits hy))

/-- The pipeline on a canonical integer and the negative of one is `subtract_absolute`. -/
theorem add_integer_negative {x y : List Char} (hx : canonical x = true)
    (hy : canonical y = true) : add x ('-' :: y) = some (subtract_absolute x y) := by
  have px := parse_number_integer (Or.inl rfl) hx
  have py := parse_number_integer (Or.inr (Or.inr rfl)) hy
  rw [List.nil_append] at px
  rw [List.singleton_append] at py
  unfold add
  rw [px, py]
  rw [add_parts_some (max_self (0 : Int)) (normalize_parts_same_scale _ _ _ _)
      (normalize_parts_same_scale _ _ _ _),
    if_neg (by decide), if_pos (by decide), List.append_nil, List.append_nil,
    strip_of_canonical hx, strip_of_canonical hx, strip_of_canonical hy, strip_of_canonical hy,
    add_signed_numbers_table, if_neg (canonical_head_ne_minus hx),
    if_pos (by simp), magnitude_of_canonical hx, magnitude_minus]
  obtain ⟨n, r, h1, h2⟩ := subtract_absolute_shape (canonical_digits hx) (canonical_digits hy)
  rw [h2]
  exact format_result_scale_zero n h1

/-- The literal "1." followed by `k` ones, for `k` between `2^31 + 1` and `2^32 - 1`, added to
its negative: the stored scale is negative, the indices of `subtract_absolute` are negative,
and the pipeline returns "0". -/
theorem add_long_fraction_cancel {k : Nat} (h1 : 2147483648 < k) (h2 : k < 4294967296) :
    add (layout [] ['1'] (List.replicate k '1')) (layout ['-'] ['1'] (List.replicate k '1'))
      = some ['0'] := by
  have hfp : all_digits (List.replicate k '1') = true :=
    all_digits_replicate_digit (by decide) k
  have la : lit_ok [] ['1'] (List.replicate k '1') := ⟨Or.inl rfl, by simp, by decide, hfp⟩
  have lb : lit_ok ['-'] ['1'] (List.replicate k '1') :=
    ⟨Or.inr (Or.inr rfl), by simp, by decide, hfp⟩
  have hc : canonical ('1' :: List.replicate k '1') = true :=
    canonical_cons_replicate (by decide) (by decide) (by decide) k
  have hs1 : strip_leading_zeros ['1'] = ['1'] := by decide
  have hsc : int_of ((List.replicate k '1').length : Int) ≤ 0 := by
    rw [List.length_replicate]
    unfold int_of
    omega
  unfold add
  rw [parse_number_layout la, parse_number_layout lb]
  rw [add_parts_some (by exact max_self _) (normalize_parts_same_scale _ _ _ _)
      (normalize_parts_same_scale _ _ _ _),
    if_neg (by decide), if_pos (by decide), hs1, List.singleton_append, strip_of_canonical hc,
    add_signed_numbers_table, if_neg (canonical_head_ne_minus hc), if_pos (by simp),
    magnitude_of_canonical hc, magnitude_minus,
    subtract_absolute_long_self (by simp; omega) (by simp; omega)]
  have e0 : (['0'] : List Char) = signed_str false ['0'] := rfl
  rw [e0, format_result_signed false (by decide) _, if_pos rfl, if_neg (by omega)]
  rfl

/-- The normalisation step has no result when the padding length `m - sc` overflows. -/
theorem normalize_parts_overflow (sgn : Char) (ip fp : List Char) (sc m : Int)
    (h : 2147483648 ≤ m - sc) :
    normalize_parts { sign := sgn, integer := ip, fractional := fp, scale := sc } m = none := by
  unfold normalize_parts
  have hf : fits_int (m - sc) = false := by
    cases hc : fits_int (m - sc)
    · rfl
    · have := (fits_int_iff _).1 hc
      omega
  simp only []
  rw [if_pos ⟨by omega, by rw [hf]; decide⟩]

theorem add_parts_none_left {pa pb : NumberParts}
    (h : normalize_parts pa (max pa.scale pb.scale) = none) : add_parts pa pb = none := by
  unfold add_parts
  simp only []
  rw [h]

theorem parse_number_fixed : parse_number "-123.456".toList = b_parts := by decide

/-- The per-candidate step of `main` on "0." followed by `k` ones, for `k` from `2^31` to
`2^31 + 3`: the stored scale is at most `3 - 2^31`, the padding length `3 - scale` overflows and
no sum is printed. -/
theorem process_candidate_long {k : Nat} (h1 : 2147483648 ≤ k) (h2 : k ≤ 2147483651) :
    is_valid_double ('0' :: '.' :: List.replicate k '1') = true ∧
      process_candidate ('0' :: '.' :: List.replicate k '1') = Except.ok none := by
  have hfp : List.replicate k '1' ≠ [] :=
    canonical_ne_nil (canonical_replicate (by decide) (by decide) (by omega))
  have l : lit_ok [] ['0'] (List.replicate k '1') :=
    ⟨Or.inl rfl, by simp, by decide, all_digits_replicate_digit (by decide) _⟩
  have e : layout [] ['0'] (List.replicate k '1') = '0' :: '.' :: List.replicate k '1' := by
    rw [layout_frac _ _ hfp]; rfl
  have hv : is_valid_double ('0' :: '.' :: List.replicate k '1') = true := by
    rw [← e]
    exact layout_valid _ l.1 l.2.1 l.2.2.1 l.2.2.2
  refine ⟨hv, ?_⟩
  unfold process_candidate
  rw [hv]
  have hsc : int_of ((k : Nat) : Int) = (k : Int) - 4294967296 := by
    unfold int_of
    omega
  have hmax : max ((k : Int) - 4294967296) 3 = 3 := max_eq_right (by omega)
  have hn : normalize_parts
      { sign := if ([] : List Char) = ['-'] then '-' else '+', integer := ['0'],
        fractional := List.replicate k '1', scale := (k : Int) - 4294967296 }
      (max ((k : Int) - 4294967296) 3) = none :=
    normalize_parts_overflow _ _ _ _ _ (by rw [hmax]; omega)
  simp only [Bool.not_true, Bool.false_eq_true, if_false]
  rw [← e, parse_number_layout l, List.length_replicate, hsc]
  exact congrArg Except.ok (add_parts_none_left hn)

/-! ## The specification's claims -/

theorem matches_grammar_iff_layout (s : List Char) :
    matches_grammar s ↔ ∃ sg ip fp : List Char, lit_ok sg ip fp ∧ s = layout sg ip fp := by
  constructor
  · rintro ⟨sg, ip, hs, hne, hi, h⟩
    rcases h with h | ⟨fp, hfne, hf, h⟩
    · exact ⟨sg, ip, [], ⟨hs, hne, hi, rfl⟩, by rw [layout_nil_frac]; exact h⟩
    · exact ⟨sg, ip, fp, ⟨hs, hne, hi, hf⟩, by rw [layout_frac _ _ hfne]; exact h⟩
  · rintro ⟨sg, ip, fp, ⟨hs, hne, hi, hf⟩, h⟩
    refine ⟨sg, ip, hs, hne, hi, ?_⟩
    by_cases hfe : fp = []
    · left; rw [h, hfe, layout_nil_frac]
    · right; exact ⟨fp, hfe, hf, by rw [h, layout_frac _ _ hfe]⟩

/-- Two literals whose lengths add up to less than `2^31 - 1` are short enough for the
source's `int`. -/
theorem layout_bound {sga ipa fpa sgb ipb fpb : List Char}
    (h : (layout sga ipa fpa).length + (layout sgb ipb fpb).length < 2147483647) :
    max ipa.length ipb.length + max fpa.length fpb.length + 1 < 2147483648 := by
  have h1 := layout_length sga ipa fpa
  have h2 := layout_length sgb ipb fpb
  omega

theorem valid_long_ones (k : Nat) (hk : 0 < k) :
    is_valid_double (List.replicate k '1') = true := by
  have := @layout_valid [] (List.replicate k '1') []
    (Or.inl rfl) (canonical_ne_nil (canonical_replicate (by decide) (by decide) hk))
    (all_digits_replicate_digit (by decide) k) rfl
  rwa [layout_nil_frac, List.nil_append] at this

theorem decimal_value_canonical_int {x : List Char} (hx : canonical x = true) :
    decimal_value x = ((digits_value x : Int) : ℚ) := by
  have := @decimal_value_layout [] x []
    (Or.inl rfl) (canonical_ne_nil hx) (canonical_digits hx)
  rw [layout_nil_frac, List.nil_append, List.append_nil] at this
  rw [this]
  simp [signed_int]

theorem decimal_value_zero_literal : decimal_value "0".toList = 0 := by
  rw [decimal_value_canonical_int (by decide)]
  have : digits_value "0".toList = 0 := by decide
  rw [this]
  simp

/-- C1, the failing instance: for `a` = 2^31 + 1 ones and `b` = "0", both accepted, the index
`int i = a.length() - 1` of `add_absolute` is negative, the digits of `a` are never read and the
pipeline returns "0", which is not the value of `a` plus the value of `b`. -/
theorem add_exact_counterexample :
    is_valid_double (List.replicate 2147483649 '1') = true ∧
      is_valid_double "0".toList = true ∧
      add (List.replicate 2147483649 '1') "0".toList = some "0".toList ∧
      decimal_value "0".toList
        ≠ decimal_value (List.replicate 2147483649 '1') + decimal_value "0".toList := by
  have hc : canonical (List.replicate 2147483649 '1') = true :=
    canonical_replicate (by decide) (by decide) (by norm_num)
  have hne : List.replicate 2147483649 '1' ≠ ['0'] :=
    ne_of_length_ne (by rw [List.length_replicate]; simp)
  refine ⟨valid_long_ones _ (by norm_num), by decide, ?_, ?_⟩
  · have e : "0".toList = ['0'] := rfl
    rw [e, add_integers hc (by decide),
      add_absolute_long_zero (by rw [List.length_replicate]; norm_num)
        (by rw [List.length_replicate]; norm_num)]
  · rw [decimal_value_zero_literal, decimal_value_canonical_int hc, add_zero]
    have hpos := canonical_value_pos hc hne
    intro h
    have h2 : (digits_value (List.replicate 2147483649 '1') : ℚ) = 0 := h.symm
    have h3 : digits_value (List.replicate 2147483649 '1') = 0 := by exact_mod_cast h2
    omega

/-- C1, amended: for all strings `a`, `b` accepted by `is_valid_double` whose lengths add up to
less than `2^31 - 1`, the two-operand pipeline returns a string which, read as a decimal
number, is exactly the value of `a` plus the value of `b`; it has exactly
`max (scale a) (scale b)` digits after the decimal point, and a decimal point only when that
maximum is not 0. -/
theorem add_exact (a b : List Char) (ha : is_valid_double a = true)
    (hb : is_valid_double b = true) (hlen : a.length + b.length < 2147483647) :
    ∃ out : List Char, add a b = some out ∧
      decimal_value out = decimal_value a + decimal_value b ∧
      ((fraction_digits out).length : Int)
        = max (parse_number a).scale (parse_number b).scale ∧
      all_digits (fraction_digits out) = true ∧
      ('.' ∈ out ↔ 0 < max (parse_number a).scale (parse_number b).scale) := by
  obtain ⟨sga, ipa, fpa, hsa, hnea, hia, hfa, rfl⟩ := valid_layout ha
  obtain ⟨sgb, ipb, fpb, hsb, hneb, hib, hfb, rfl⟩ := valid_layout hb
  have la : lit_ok sga ipa fpa := ⟨hsa, hnea, hia, hfa⟩
  have lb : lit_ok sgb ipb fpb := ⟨hsb, hneb, hib, hfb⟩
  have hb2 := layout_bound hlen
  obtain ⟨n, ip, fp, lo, _, hf, _, he, hs⟩ := add_layout_scaled la lb hb2
  have hla : fpa.length ≤ max fpa.length fpb.length := Nat.le_max_left _ _
  have hlb : fpb.length ≤ max fpa.length fpb.length := Nat.le_max_right _ _
  have ea : int_of fpa.length = fpa.length := int_of_length (by omega)
  have eb : int_of fpb.length = fpb.length := int_of_length (by omega)
  refine ⟨_, he, decimal_value_add_layout la lb lo hf (hs _ le_rfl).1, ?_⟩
  rw [fraction_digits_layout fp lo.1 lo.2.1 lo.2.2.1, parse_number_layout la,
    parse_number_layout lb, mem_dot_layout fp lo.1 lo.2.2.1]
  simp only []
  rw [ea, eb, hf, ← Nat.cast_max]
  refine ⟨rfl, lo.2.2.2, ?_⟩
  rw [← hf]
  constructor
  · intro hne
    have := List.length_pos.2 hne
    omega
  · intro hpos
    exact List.length_pos.1 (by omega)

/-- Witness for the amended C1 at the literals "5" and "-123.456". -/
theorem add_exact_witness :
    is_valid_double "5".toList = true ∧ is_valid_double "-123.456".toList = true ∧
      "5".toList.length + "-123.456".toList.length < 2147483647 ∧
      ∃ out : List Char, add "5".toList "-123.456".toList = some out ∧
        decimal_value out = decimal_value "5".toList + decimal_value "-123.456".toList ∧
        ((fraction_digits out).length : Int)
          = max (parse_number "5".toList).scale (parse_number "-123.456".toList).scale ∧
        all_digits (fraction_digits out) = true ∧
        ('.' ∈ out ↔
          0 < max (parse_number "5".toList).scale (parse_number "-123.456".toList).scale) :=
  ⟨by decide, by decide, by decide, add_exact _ _ (by decide) (by decide) (by decide)⟩

/-- C2: `is_valid_double` accepts exactly the strings that match the grammar
`[+-]?[0-9]+(\.[0-9]+)?` in full; it rejects "", "+", "-", "3.", ".5", "1.2.3", "12a" and
accepts "0", "-0.5", "+123.456", "000123". -/
theorem is_valid_double_iff_grammar :
    (∀ s : List Char, is_valid_double s = true ↔ matches_grammar s) ∧
      is_valid_double "".toList = false ∧ is_valid_double "+".toList = false ∧
      is_valid_double "-".toList = false ∧ is_valid_double "3.".toList = false ∧
      is_valid_double ".5".toList = false ∧ is_valid_double "1.2.3".toList = false ∧
      is_valid_double "12a".toList = false ∧ is_valid_double "0".toList = true ∧
      is_valid_double "-0.5".toList = true ∧ is_valid_double "+123.456".toList = true ∧
      is_valid_double "000123".toList = true := by
  refine ⟨fun s => ?_, by decide, by decide, by decide, by decide, by decide, by decide,
    by decide, by decide, by decide, by decide, by decide⟩
  rw [matches_grammar_iff_layout]
  constructor
  · intro h
    obtain ⟨sg, ip, fp, hs, hne, hi, hf, e⟩ := valid_layout h
    exact ⟨sg, ip, fp, ⟨hs, hne, hi, hf⟩, e⟩
  · rintro ⟨sg, ip, fp, ⟨hs, hne, hi, hf⟩, rfl⟩
    exact layout_valid fp hs hne hi hf

/-- C3, the failing instance: the candidate "0." followed by 2^31 ones is accepted, its scale
stored in an `int` is -2^31, the padding length `3 - scale` overflows, and the per-candidate
step yields neither the notice nor a formatted sum. -/
theorem process_candidate_counterexample :
    is_valid_double ('0' :: '.' :: List.replicate 2147483648 '1') = true ∧
      process_candidate ('0' :: '.' :: List.replicate 2147483648 '1') = Except.ok none ∧
      ¬ ∃ text, process_candidate ('0' :: '.' :: List.replicate 2147483648 '1')
          = Except.ok (some text) := by
  have h := @process_candidate_long 2147483648 (Nat.le_refl _) (by norm_num)
  refine ⟨h.1, h.2, ?_⟩
  rw [h.2]
  rintro ⟨text, ht⟩
  exact absurd (Except.ok.inj ht) (by simp)

/-- C3, amended: the per-candidate step of `main` yields the "<candidate> is invalid" notice
exactly when `is_valid_double` rejects the candidate, and the outcome of the pipeline on the
parsed candidate and the fixed number exactly when it accepts it, so a rejected candidate has no
result and an accepted one no notice; for an accepted candidate of fewer than `2^31 - 7`
characters that outcome is a formatted sum; the candidate "abc" is rejected. -/
theorem process_candidate_rejection :
    (∀ c : List Char,
        process_candidate c = Except.error (c ++ " is invalid".toList)
          ↔ is_valid_double c = false) ∧
      (∀ c : List Char,
        process_candidate c = Except.ok (add_parts (parse_number c) b_parts)
          ↔ is_valid_double c = true) ∧
      (∀ c : List Char, (∃ r, process_candidate c = Except.ok r) ↔ is_valid_double c = true) ∧
      (∀ c : List Char, (∃ e, process_candidate c = Except.error e)
          ↔ is_valid_double c = false) ∧
      (∀ c : List Char, is_valid_double c = true → c.length < 2147483641 →
        ∃ text, process_candidate c = Except.ok (some text)) ∧
      process_candidate "abc".toList = Except.error "abc is invalid".toList := by
  refine ⟨fun c => ?_, fun c => ?_, fun c => ?_, fun c => ?_, fun c hc hl => ?_, by decide⟩
  · unfold process_candidate
    cases h : is_valid_double c <;> simp
  · unfold process_candidate
    cases h : is_valid_double c <;> simp
  · unfold process_candidate
    cases h : is_valid_double c <;> simp
  · unfold process_candidate
    cases h : is_valid_double c <;> simp
  · unfold process_candidate
    rw [hc]
    simp only [Bool.not_true, Bool.false_eq_true, if_false]
    obtain ⟨sg, ip, fp, hs, hne, hi, hf, rfl⟩ := valid_layout hc
    have l : lit_ok sg ip fp := ⟨hs, hne, hi, hf⟩
    have lb : lit_ok ['-'] "123".toList "456".toList :=
      ⟨Or.inr (Or.inr rfl), by decide, by decide, by decide⟩
    have hlen := layout_length sg ip fp
    have h3 : "123".toList.length = 3 := rfl
    have h4 : "456".toList.length = 3 := rfl
    obtain ⟨ipo, fpo, _, _, _, _, h5⟩ := add_layout_spec l lb (by rw [h3, h4]; omega)
    have eb : layout ['-'] "123".toList "456".toList = "-123.456".toList := by decide
    rw [eb] at h5
    unfold add at h5
    rw [parse_number_fixed] at h5
    exact ⟨_, congrArg Except.ok h5⟩

/-- Witness for the amended C3 at the candidate "5". -/
theorem process_candidate_rejection_witness :
    is_valid_double "5".toList = true ∧ "5".toList.length < 2147483641 ∧
      ∃ text, process_candidate "5".toList = Except.ok (some text) :=
  ⟨by decide, by decide, process_candidate_rejection.2.2.2.2.1 _ (by decide) (by decide)⟩

theorem add_parts_comm (pa pb : NumberParts) : add_parts pa pb = add_parts pb pa := by
  unfold add_parts
  simp only []
  rw [max_comm pb.scale pa.scale]
  cases normalize_parts pa (max pa.scale pb.scale) <;>
    cases normalize_parts pb (max pa.scale pb.scale) <;> simp only []
  rw [add_signed_numbers_comm]

/-- C4: for all strings `a`, `b` accepted by `is_valid_double`, the two-operand pipeline gives
the same result for `(a, b)` and `(b, a)`. -/
theorem add_comm_valid (a b : List Char) (ha : is_valid_double a = true)
    (hb : is_valid_double b = true) : add a b = add b a := by
  unfold add
  exact add_parts_comm _ _

/-- Witness for C4 at the literals "200" and "-123.456". -/
theorem add_comm_valid_witness :
    is_valid_double "200".toList = true ∧ is_valid_double "-123.456".toList = true ∧
      add "200".toList "-123.456".toList = add "-123.456".toList "200".toList :=
  ⟨by decide, by decide, add_comm_valid _ _ (by decide) (by decide)⟩

theorem layout_zero (n : Bool) (m : Nat) :
    layout (if n = true then ['-'] else []) ['0'] (List.replicate m '0')
      = if n = true then '-' :: zero_text m else zero_text m := by
  cases n <;> cases m <;> simp [layout, zero_text, List.replicate_succ]

/-- An output of the pipeline whose digits carry the value zero is the text of zero, with the
sign the pipeline gave it. -/
theorem layout_of_zero_value (n : Bool) {ip fp : List Char} (hi : canonical ip = true)
    (hf : all_digits fp = true) (hv : digits_value (ip ++ fp) = 0) :
    layout (if n = true then ['-'] else []) ip fp
      = if n = true then '-' :: zero_text fp.length else zero_text fp.length := by
  have hz : digits_value (['0'] ++ List.replicate fp.length '0') = 0 := by
    rw [digits_value_append, digits_value_replicate_zero]
    have : digits_value ['0'] = 0 := by decide
    rw [this]; simp
  obtain ⟨e1, e2⟩ := layout_parts_unique hi hf (by decide : canonical ['0'] = true)
    (all_digits_replicate fp.length) (by simp) (hv.trans hz.symm)
  rw [← layout_zero, ← e1, ← e2]

theorem scaled_sum_zero {sga ipa fpa sgb ipb fpb : List Char} (ha : lit_ok sga ipa fpa)
    (hb : lit_ok sgb ipb fpb)
    (hz : decimal_value (layout sga ipa fpa) + decimal_value (layout sgb ipb fpb) = 0) :
    scaled_int sga ipa fpa (max fpa.length fpb.length)
      + scaled_int sgb ipb fpb (max fpa.length fpb.length) = 0 := by
  rw [decimal_value_scaled ha (Nat.le_max_left fpa.length fpb.length),
    decimal_value_scaled hb (Nat.le_max_right fpa.length fpb.length), ← add_div] at hz
  have hp : (10 : ℚ) ^ (max fpa.length fpb.length) ≠ 0 := by positivity
  have h0 := (div_eq_zero_iff.1 hz).resolve_right hp
  exact_mod_cast h0

/-- The scale stored for two literals short enough for the source's `int` is the number of
fractional digits. -/
theorem max_scale_layout {sga ipa fpa sgb ipb fpb : List Char} (la : lit_ok sga ipa fpa)
    (lb : lit_ok sgb ipb fpb)
    (hlen : max ipa.length ipb.length + max fpa.length fpb.length + 1 < 2147483648) :
    max (parse_number (layout sga ipa fpa)).scale (parse_number (layout sgb ipb fpb)).scale
      = ((max fpa.length fpb.length : Nat) : Int) := by
  have hla : fpa.length ≤ max fpa.length fpb.length := Nat.le_max_left _ _
  have hlb : fpb.length ≤ max fpa.length fpb.length := Nat.le_max_right _ _
  rw [parse_number_layout la, parse_number_layout lb]
  simp only []
  rw [int_of_length (by omega), int_of_length (by omega), Nat.cast_max]

theorem long_fraction_literal (sg : List Char) (k : Nat) (hk : 0 < k) :
    layout sg ['1'] (List.replicate k '1') = sg ++ '1' :: '.' :: List.replicate k '1' := by
  rw [layout_frac _ _ (canonical_ne_nil (canonical_replicate (by decide) (by decide) hk))]
  simp

theorem lit_ok_long_fraction {sg : List Char} (hs : sg = [] ∨ sg = ['+'] ∨ sg = ['-'])
    (k : Nat) : lit_ok sg ['1'] (List.replicate k '1') :=
  ⟨hs, by simp, by decide, all_digits_replicate_digit (by decide) k⟩

theorem decimal_value_cancel {ip fp : List Char} (hne : ip ≠ []) (hi : all_digits ip = true) :
    decimal_value (layout [] ip fp) + decimal_value (layout ['-'] ip fp) = 0 := by
  rw [decimal_value_layout fp (Or.inl rfl) hne hi,
    decimal_value_layout fp (Or.inr (Or.inr rfl)) hne hi]
  generalize (10 : ℚ) ^ fp.length = p
  have e1 : decide (([] : List Char) = ['-']) = false := by decide
  have e2 : decide ((['-'] : List Char) = ['-']) = true := by decide
  rw [e1, e2, signed_int_false, signed_int_true, Int.cast_neg]
  ring

/-- C5, the failing instances.  The literals "-0" and "-0" are accepted and sum to zero, but
the pipeline's output is "-0", which carries a sign marker.  And for `a` = "1." followed by
2^31 + 1 ones and `b` = "-" followed by `a`, which sum to zero, the stored scale and the loop
indices are negative and the output is "0" without the fractional zeros. -/
theorem add_zero_sign_counterexample :
    (is_valid_double "-0".toList = true ∧
      decimal_value "-0".toList + decimal_value "-0".toList = 0 ∧
      add "-0".toList "-0".toList = some "-0".toList ∧
      some "-0".toList
        ≠ some (zero_text
            (max (parse_number "-0".toList).scale (parse_number "-0".toList).scale).toNat)) ∧
    (is_valid_double ('1' :: '.' :: List.replicate 2147483649 '1') = true ∧
      is_valid_double ('-' :: '1' :: '.' :: List.replicate 2147483649 '1') = true ∧
      decimal_value ('1' :: '.' :: List.replicate 2147483649 '1')
        + decimal_value ('-' :: '1' :: '.' :: List.replicate 2147483649 '1') = 0 ∧
      (fraction_digits ('1' :: '.' :: List.replicate 2147483649 '1')).length = 2147483649 ∧
      add ('1' :: '.' :: List.replicate 2147483649 '1')
          ('-' :: '1' :: '.' :: List.replicate 2147483649 '1') = some "0".toList) := by
  have la := lit_ok_long_fraction (Or.inl rfl) 2147483649
  have lb := lit_ok_long_fraction (Or.inr (Or.inr rfl)) 2147483649
  have ea := long_fraction_literal [] 2147483649 (by norm_num)
  have eb := long_fraction_literal ['-'] 2147483649 (by norm_num)
  rw [List.nil_append] at ea
  rw [List.singleton_append] at eb
  refine ⟨⟨by decide, ?_, by decide, by decide⟩, ?_, ?_, ?_, ?_, ?_⟩
  · have hv : decimal_value "-0".toList = 0 := by
      unfold decimal_value
      have : digits_value (integer_digits "-0".toList ++ fraction_digits "-0".toList) = 0 := by
        decide
      rw [this]; simp
    rw [hv]; simp
  · rw [← ea]; exact layout_valid _ la.1 la.2.1 la.2.2.1 la.2.2.2
  · rw [← eb]; exact layout_valid _ lb.1 lb.2.1 lb.2.2.1 lb.2.2.2
  · rw [← eb, ← ea]
    exact decimal_value_cancel la.2.1 la.2.2.1
  · rw [← ea, fraction_digits_layout _ la.1 la.2.1 la.2.2.1, List.length_replicate]
  · rw [← eb, ← ea]
    exact add_long_fraction_cancel (by norm_num) (by norm_num)

/-- C5, amended: for all strings `a`, `b` accepted by `is_valid_double` whose lengths add up to
less than `2^31 - 1` and whose values sum to zero, the pipeline's output is "0" (scale 0) or
"0." followed by `max (scale a) (scale b)` zeros, without a sign, unless both `a` and `b` start
with '-', in which case that same text is preceded by '-'. -/
theorem add_zero_sum (a b : List Char) (ha : is_valid_double a = true)
    (hb : is_valid_double b = true) (hlen : a.length + b.length < 2147483647)
    (hz : decimal_value a + decimal_value b = 0) :
    add a b =
      some (if a.head? = some '-' ∧ b.head? = some '-' then
        '-' :: zero_text (max (parse_number a).scale (parse_number b).scale).toNat
      else zero_text (max (parse_number a).scale (parse_number b).scale).toNat) := by
  obtain ⟨sga, ipa, fpa, hsa, hnea, hia, hfa, rfl⟩ := valid_layout ha
  obtain ⟨sgb, ipb, fpb, hsb, hneb, hib, hfb, rfl⟩ := valid_layout hb
  have la : lit_ok sga ipa fpa := ⟨hsa, hnea, hia, hfa⟩
  have lb : lit_ok sgb ipb fpb := ⟨hsb, hneb, hib, hfb⟩
  have hb2 := layout_bound hlen
  obtain ⟨ip, fp, h1, h2, h3, h4, h5⟩ := add_layout_spec la lb hb2
  have hsum := scaled_sum_zero la lb hz
  rw [hsum] at h4 h5
  rw [h5, layout_of_zero_value _ h1 h2 (by rw [h4]; simp), h3, max_scale_layout la lb hb2,
    Int.toNat_ofNat]
  have e1 := (head_layout fpa hsa hnea hia).1
  have e2 := (head_layout fpb hsb hneb hib).1
  simp only [lt_self_iff_false, decide_False, Bool.false_or, Bool.and_eq_true,
    decide_eq_true_eq, e1, e2]

/-- Witness for the amended C5 at the literals "-1.50" and "1.5". -/
theorem add_zero_sum_witness :
    is_valid_double "-1.50".toList = true ∧ is_valid_double "1.5".toList = true ∧
      "-1.50".toList.length + "1.5".toList.length < 2147483647 ∧
      add "-1.50".toList "1.5".toList =
        some (if "-1.50".toList.head? = some '-' ∧ "1.5".toList.head? = some '-' then
          '-' :: zero_text (max (parse_number "-1.50".toList).scale
            (parse_number "1.5".toList).scale).toNat
        else zero_text (max (parse_number "-1.50".toList).scale
          (parse_number "1.5".toList).scale).toNat) :=
  ⟨by decide, by decide, by decide,
    add_zero_sum _ _ (by decide) (by decide) (by decide) (by
    have h1 : decimal_value "-1.50".toList = -(150 : ℚ) / 10 ^ 2 := by
      unfold decimal_value
      have e : digits_value (integer_digits "-1.50".toList ++ fraction_digits "-1.50".toList)
          = 150 := by decide
      have l : (fraction_digits "-1.50".toList).length = 2 := by decide
      rw [e, l, if_pos (by decide)]; norm_num
    have h2 : decimal_value "1.5".toList = (15 : ℚ) / 10 ^ 1 := by
      unfold decimal_value
      have e : digits_value (integer_digits "1.5".toList ++ fraction_digits "1.5".toList)
          = 15 := by decide
      have l : (fraction_digits "1.5".toList).length = 1 := by decide
      rw [e, l, if_neg (by decide)]; norm_num
    rw [h1, h2]; norm_num)⟩

theorem lit_ok_zero : lit_ok [] ['0'] [] := ⟨Or.inl rfl, by simp, by decide, rfl⟩

theorem layout_zero_literal : "0".toList = layout [] ['0'] [] := by decide

theorem decimal_value_neg_iff {sg ip fp : List Char} (h : lit_ok sg ip fp) :
    decimal_value (layout sg ip fp) < 0 ↔ scaled_int sg ip fp fp.length < 0 := by
  rw [decimal_value_scaled h (le_refl fp.length)]
  have hp : (0 : ℚ) < 10 ^ fp.length := by positivity
  rw [div_lt_iff₀ hp, zero_mul]
  exact_mod_cast Iff.rfl

theorem abs_scaled_int_self {sg ip fp : List Char} (h : lit_ok sg ip fp) :
    |scaled_int sg ip fp fp.length| = digits_value (ip ++ fp) := by
  obtain ⟨_, _, hi, hf⟩ := h
  have hv : 0 ≤ digits_value (ip ++ fp) :=
    digits_value_nonneg (by rw [all_digits_append, hi, hf]; rfl)
  unfold scaled_int
  rw [Nat.sub_self, pow_zero, mul_one]
  cases decide (sg = ['-'])
  · rw [signed_int_false, abs_of_nonneg hv]
  · rw [signed_int_true, abs_neg, abs_of_nonneg hv]

theorem canonical_form_canonical_int {x : List Char} (hx : canonical x = true) :
    canonical_form x = x := by
  have hne := canonical_ne_nil hx
  have hd := canonical_digits hx
  have e : layout [] x [] = x := by rw [layout_nil_frac, List.nil_append]
  have h1 := @integer_digits_layout [] x [] (Or.inl rfl) hne hd
  have h2 := @fraction_digits_layout [] x [] (Or.inl rfl) hne hd
  rw [e] at h1 h2
  unfold canonical_form
  rw [h1, h2, strip_of_canonical hx, decimal_value_canonical_int hx]
  have hv := digits_value_nonneg hd
  have : ¬ ((digits_value x : Int) : ℚ) < 0 := by
    have : (0 : ℚ) ≤ ((digits_value x : Int) : ℚ) := by exact_mod_cast hv
    exact not_lt.2 this
  simp [this]

/-- C6, the failing instance: for `a` = 2^31 + 1 ones, which is accepted and is its own
canonical form, the pipeline's output for `a` and "0" is "0". -/
theorem add_zero_canonical_counterexample :
    is_valid_double (List.replicate 2147483649 '1') = true ∧
      canonical_form (List.replicate 2147483649 '1') = List.replicate 2147483649 '1' ∧
      add (List.replicate 2147483649 '1') "0".toList = some "0".toList ∧
      add (List.replicate 2147483649 '1') "0".toList
        ≠ some (canonical_form (List.replicate 2147483649 '1')) := by
  have hc : canonical (List.replicate 2147483649 '1') = true :=
    canonical_replicate (by decide) (by decide) (by norm_num)
  have hadd : add (List.replicate 2147483649 '1') "0".toList = some "0".toList := by
    have e : "0".toList = ['0'] := rfl
    rw [e, add_integers hc (by decide),
      add_absolute_long_zero (by rw [List.length_replicate]; norm_num)
        (by rw [List.length_replicate]; norm_num)]
  refine ⟨valid_long_ones _ (by norm_num), canonical_form_canonical_int hc, hadd, ?_⟩
  rw [hadd, canonical_form_canonical_int hc]
  intro h
  have := congrArg List.length (Option.some.inj h)
  rw [List.length_replicate] at this
  simp at this

/-- C6, amended: for every string `a` of fewer than `2^31 - 2` characters accepted by
`is_valid_double`, the pipeline's output for `a` and "0" is the canonical form of `a`: a '-'
only when `a` is negative and not zero, the integer digits of `a` without leading zeros (a
single "0" if none remain) and, when `a` has a fractional part, a '.' followed by the
fractional digits of `a` unchanged. -/
theorem add_zero_canonical (a : List Char) (ha : is_valid_double a = true)
    (hlen : a.length < 2147483646) :
    add a "0".toList = some (canonical_form a) := by
  obtain ⟨sga, ipa, fpa, hsa, hnea, hia, hfa, rfl⟩ := valid_layout ha
  have la : lit_ok sga ipa fpa := ⟨hsa, hnea, hia, hfa⟩
  rw [layout_zero_literal]
  have hb2 : max ipa.length ['0'].length + max fpa.length ([] : List Char).length + 1
      < 2147483648 := by
    have := layout_length sga ipa fpa
    have h1 : 0 < ipa.length := List.length_pos.2 hnea
    simp only [List.length_singleton, List.length_nil]
    omega
  obtain ⟨ip, fp, h1, h2, h3, h4, h5⟩ := add_layout_spec la lit_ok_zero hb2
  have hm : max fpa.length ([] : List Char).length = fpa.length := by simp
  rw [hm] at h3 h4 h5
  have hzb : scaled_int [] ['0'] [] fpa.length = 0 := by
    have hz : digits_value ['0'] = 0 := by decide
    simp [scaled_int, signed_int, hz]
  rw [hzb, add_zero] at h4 h5
  rw [abs_scaled_int_self la] at h4
  have hv : digits_value (ip ++ fp) = digits_value (strip_leading_zeros ipa ++ fpa) := by
    rw [h4, digits_value_append, digits_value_append, digits_value_strip]
  obtain ⟨e1, e2⟩ := layout_parts_unique h1 h2 (canonical_strip hia) hfa h3 hv
  rw [h5, e1, e2]
  unfold canonical_form
  rw [integer_digits_layout fpa hsa hnea hia, fraction_digits_layout fpa hsa hnea hia]
  have hflag : ((decide (scaled_int sga ipa fpa fpa.length < 0)
      || (decide (sga = ['-']) && decide (([] : List Char) = ['-']))) = true)
      ↔ decimal_value (layout sga ipa fpa) < 0 := by
    rw [decimal_value_neg_iff la]
    simp
  simp only [hflag]
  rfl

/-- Witness for the amended C6 at the literal "+007.50". -/
theorem add_zero_canonical_witness :
    is_valid_double "+007.50".toList = true ∧ "+007.50".toList.length < 2147483646 ∧
      add "+007.50".toList "0".toList = some (canonical_form "+007.50".toList) :=
  ⟨by decide, by decide, add_zero_canonical _ (by decide) (by decide)⟩

theorem negate_layout {sg ip : List Char} (fp : List Char)
    (hs : sg = [] ∨ sg = ['+'] ∨ sg = ['-']) (hne : ip ≠ []) (hi : all_digits ip = true) :
    negate (layout sg ip fp) = layout (if sg = ['-'] then [] else ['-']) ip fp := by
  rcases hs with rfl | rfl | rfl
  · cases ip with
    | nil => exact absurd rfl hne
    | cons c t =>
      rw [all_digits_cons, Bool.and_eq_true] at hi
      have h1 := isdigit_ne_plus hi.1
      have h2 := isdigit_ne_minus hi.1
      simp only [layout, List.nil_append, List.cons_append]
      unfold negate
      split
      · next heq => exact absurd (List.cons.inj heq).1 h2
      · next heq => exact absurd (List.cons.inj heq).1 h1
      · simp
  · simp [layout, negate]
  · simp [layout, negate]

theorem layout_length_le (sg ip fp : List Char) (hs : sg = [] ∨ sg = ['+'] ∨ sg = ['-']) :
    (layout sg ip fp).length ≤ ip.length + fp.length + 2 := by
  unfold layout
  rcases hs with rfl | rfl | rfl <;> by_cases h : fp = [] <;> simp [h] <;> omega

/-- C7, the failing instance: for `a` = "1." followed by 2^31 + 1 ones, which is accepted and
has a fractional part, the pipeline's output for `a` and `a` with its sign flipped is "0",
without a '.' and fractional zeros. -/
theorem add_negate_zero_counterexample :
    is_valid_double ('1' :: '.' :: List.replicate 2147483649 '1') = true ∧
      (parse_number ('1' :: '.' :: List.replicate 2147483649 '1')).fractional ≠ [] ∧
      negate ('1' :: '.' :: List.replicate 2147483649 '1')
        = '-' :: '1' :: '.' :: List.replicate 2147483649 '1' ∧
      add ('1' :: '.' :: List.replicate 2147483649 '1')
          (negate ('1' :: '.' :: List.replicate 2147483649 '1')) = some "0".toList := by
  have la := lit_ok_long_fraction (Or.inl rfl) 2147483649
  have ea := long_fraction_literal [] 2147483649 (by norm_num)
  have eb := long_fraction_literal ['-'] 2147483649 (by norm_num)
  rw [List.nil_append] at ea
  rw [List.singleton_append] at eb
  have hneg : negate ('1' :: '.' :: List.replicate 2147483649 '1')
      = '-' :: '1' :: '.' :: List.replicate 2147483649 '1' := rfl
  refine ⟨?_, ?_, hneg, ?_⟩
  · rw [← ea]; exact layout_valid _ la.1 la.2.1 la.2.2.1 la.2.2.2
  · rw [← ea, parse_number_layout la]
    exact canonical_ne_nil (canonical_replicate (by decide) (by decide) (by norm_num))
  · rw [hneg, ← eb, ← ea]
    exact add_long_fraction_cancel (by norm_num) (by norm_num)

/-- C7, amended: for every string `a` of fewer than `2^31 - 1` characters accepted by
`is_valid_double`, the pipeline's output for `a` and `a` with its sign flipped is "0" when `a`
has no fractional part and otherwise "0." followed by exactly `scale a` zeros, without a
sign. -/
theorem add_negate_zero (a : List Char) (ha : is_valid_double a = true)
    (hlen : a.length < 2147483647) :
    add a (negate a) =
        some (if (parse_number a).fractional = [] then "0".toList
          else "0.".toList ++ List.replicate (parse_number a).scale.toNat '0') ∧
      ∀ out, add a (negate a) = some out → out.head? ≠ some '-' := by
  obtain ⟨sga, ipa, fpa, hsa, hnea, hia, hfa, rfl⟩ := valid_layout ha
  have la : lit_ok sga ipa fpa := ⟨hsa, hnea, hia, hfa⟩
  have hs2 : (if sga = ['-'] then ([] : List Char) else ['-']) = [] ∨
      (if sga = ['-'] then ([] : List Char) else ['-']) = ['+'] ∨
      (if sga = ['-'] then ([] : List Char) else ['-']) = ['-'] := by
    by_cases h : sga = ['-']
    · rw [if_pos h]; exact Or.inl rfl
    · rw [if_neg h]; exact Or.inr (Or.inr rfl)
  have lb : lit_ok (if sga = ['-'] then [] else ['-']) ipa fpa := ⟨hs2, hnea, hia, hfa⟩
  have hl := layout_length sga ipa fpa
  have hb2 : max ipa.length ipa.length + max fpa.length fpa.length + 1 < 2147483648 := by
    rw [max_self, max_self]; omega
  have hadd : add (layout sga ipa fpa) (negate (layout sga ipa fpa))
      = some (zero_text fpa.length) := by
    rw [negate_layout fpa hsa hnea hia]
    obtain ⟨ip, fp, h1, h2, h3, h4, h5⟩ := add_layout_spec la lb hb2
    rw [max_self] at h3 h4 h5
    have hsum : scaled_int sga ipa fpa fpa.length
        + scaled_int (if sga = ['-'] then [] else ['-']) ipa fpa fpa.length = 0 := by
      unfold scaled_int
      by_cases h : sga = ['-']
      · simp [h, signed_int]
      · simp [h, signed_int]
    rw [hsum] at h4 h5
    rw [h5, layout_of_zero_value _ h1 h2 (by rw [h4]; simp), h3]
    by_cases h : sga = ['-']
    · simp [h]
    · simp [h]
  have hz : zero_text fpa.length =
      if fpa = [] then "0".toList else "0.".toList ++ List.replicate fpa.length '0' := by
    unfold zero_text
    by_cases hf : fpa = []
    · simp [hf]
    · have : fpa.length ≠ 0 := fun e => hf (List.length_eq_zero.1 e)
      simp [hf, this]
  rw [hadd, parse_number_layout la]
  simp only []
  rw [int_of_length (by omega), Int.toNat_ofNat]
  refine ⟨by rw [hz], fun out ho => ?_⟩
  rw [← Option.some.inj ho]
  unfold zero_text
  split <;> simp

/-- Witness for the amended C7 at the literal "-12.340". -/
theorem add_negate_zero_witness :
    is_valid_double "-12.340".toList = true ∧ "-12.340".toList.length < 2147483647 ∧
      add "-12.340".toList (negate "-12.340".toList) =
        some (if (parse_number "-12.340".toList).fractional = [] then "0".toList
          else "0.".toList ++ List.replicate (parse_number "-12.340".toList).scale.toNat '0') :=
  ⟨by decide, by decide, (add_negate_zero _ (by decide) (by decide)).1⟩

/-- C8: with the fixed number -123.456 (sign '-', integer "123", fractional "456", scale 3),
the per-candidate pipeline of `main` produces "-118.456" for the candidate "5", "76.544" for
"200" and "-246.912" for "-123.456". -/
theorem process_candidate_scenarios :
    b_parts = { sign := '-', integer := "123".toList, fractional := "456".toList, scale := 3 } ∧
      process_candidate "5".toList = Except.ok (some "-118.456".toList) ∧
      process_candidate "200".toList = Except.ok (some "76.544".toList) ∧
      process_candidate "-123.456".toList = Except.ok (some "-246.912".toList) := by
  refine ⟨by decide, by decide, by decide, by decide⟩

/-- C9: for every string `s` accepted by `is_valid_double`, the parts `p` of `parse_number s`
reassemble to `s` without its optional sign character (the integer part, then "." and the
fractional part when that is not empty); `p.sign` is the sign character of `s` when `s` starts
with '+' or '-' and '+' otherwise; and the reassembled literal with its sign has the same value
as `s`. -/
theorem parse_number_reassemble (s : List Char) (h : is_valid_double s = true) :
    (parse_number s).integer ++
        (if (parse_number s).fractional = [] then [] else '.' :: (parse_number s).fractional)
        = literal_body s ∧
      (s.head? = some '+' ∨ s.head? = some '-' → s.head? = some (parse_number s).sign) ∧
      (¬ (s.head? = some '+' ∨ s.head? = some '-') → (parse_number s).sign = '+') ∧
      decimal_value ((parse_number s).sign :: ((parse_number s).integer ++
        (if (parse_number s).fractional = [] then []
         else '.' :: (parse_number s).fractional))) = decimal_value s := by
  obtain ⟨sg, ip, fp, hs, hne, hi, hf, rfl⟩ := valid_layout h
  have l : lit_ok sg ip fp := ⟨hs, hne, hi, hf⟩
  rw [parse_number_layout l, literal_body_layout fp hs hne hi]
  obtain ⟨hm, hp⟩ := head_layout fp hs hne hi
  simp only []
  refine ⟨trivial, ?_, ?_, ?_⟩
  · rintro (h1 | h1)
    · have e := hp.1 h1
      subst e
      rw [h1, if_neg (by decide)]
    · have e := hm.1 h1
      subst e
      rw [h1, if_pos rfl]
  · intro hno
    have : sg ≠ ['-'] := fun e => hno (Or.inr (hm.2 e))
    rw [if_neg this]
  · have hre : ((if sg = ['-'] then '-' else '+') :: (ip ++ if fp = [] then [] else '.' :: fp))
        = layout [if sg = ['-'] then '-' else '+'] ip fp := by
      simp [layout]
    have hs2 : [if sg = ['-'] then '-' else '+'] = [] ∨
        [if sg = ['-'] then '-' else '+'] = ['+'] ∨
        [if sg = ['-'] then '-' else '+'] = ['-'] := by
      by_cases e : sg = ['-']
      · rw [if_pos e]; exact Or.inr (Or.inr rfl)
      · rw [if_neg e]; exact Or.inr (Or.inl rfl)
    rw [hre, decimal_value_layout fp hs2 hne hi, decimal_value_layout fp hs hne hi]
    by_cases e : sg = ['-']
    · simp [e]
    · simp [e]

/-- Witness for C9 at the literal "+123.456". -/
theorem parse_number_reassemble_witness :
    is_valid_double "+123.456".toList = true ∧
      ((parse_number "+123.456".toList).integer ++
          (if (parse_number "+123.456".toList).fractional = [] then []
           else '.' :: (parse_number "+123.456".toList).fractional)
          = literal_body "+123.456".toList ∧
        ("+123.456".toList.head? = some '+' ∨ "+123.456".toList.head? = some '-' →
          "+123.456".toList.head? = some (parse_number "+123.456".toList).sign) ∧
        (¬ ("+123.456".toList.head? = some '+' ∨ "+123.456".toList.head? = some '-') →
          (parse_number "+123.456".toList).sign = '+') ∧
        decimal_value ((parse_number "+123.456".toList).sign ::
          ((parse_number "+123.456".toList).integer ++
            (if (parse_number "+123.456".toList).fractional = [] then []
             else '.' :: (parse_number "+123.456".toList).fractional)))
          = decimal_value "+123.456".toList) :=
  ⟨by decide, parse_number_reassemble _ (by decide)⟩

/-- C10, the failing instance: for `s` = "0." followed by 2^31 ones, which is accepted, the
scale stored in the `int` field is -2^31 and not the length 2^31 of the fractional part. -/
theorem parse_number_scale_counterexample :
    is_valid_double ('0' :: '.' :: List.replicate 2147483648 '1') = true ∧
      (parse_number ('0' :: '.' :: List.replicate 2147483648 '1')).fractional.length
        = 2147483648 ∧
      (parse_number ('0' :: '.' :: List.replicate 2147483648 '1')).scale = -2147483648 ∧
      (parse_number ('0' :: '.' :: List.replicate 2147483648 '1')).scale
        ≠ ((parse_number ('0' :: '.' :: List.replicate 2147483648 '1')).fractional.length
            : Int) := by
  have hfp : List.replicate 2147483648 '1' ≠ [] :=
    canonical_ne_nil (canonical_replicate (by decide) (by decide) (by norm_num))
  have l : lit_ok [] ['0'] (List.replicate 2147483648 '1') :=
    ⟨Or.inl rfl, by simp, by decide, all_digits_replicate_digit (by decide) _⟩
  have e : layout [] ['0'] (List.replicate 2147483648 '1')
      = '0' :: '.' :: List.replicate 2147483648 '1' := by
    rw [layout_frac _ _ hfp]; rfl
  have hsc : int_of ((2147483648 : Nat) : Int) = -2147483648 := by decide
  rw [← e, parse_number_layout l]
  simp only [List.length_replicate]
  rw [hsc]
  refine ⟨layout_valid _ l.1 l.2.1 l.2.2.1 l.2.2.2, trivial, rfl, by norm_num⟩

/-- C10, amended: for every string `s` accepted by `is_valid_double`, the parts `p` of
`parse_number s` have a sign '+' or '-', a non-empty integer part of decimal digits and a
fractional part of decimal digits; and when the fractional part has fewer than `2^31` digits,
`p.scale` is its length. -/
theorem parse_number_invariant (s : List Char) (h : is_valid_double s = true) :
    ((parse_number s).sign = '+' ∨ (parse_number s).sign = '-') ∧
      (parse_number s).integer ≠ [] ∧ all_digits (parse_number s).integer = true ∧
      all_digits (parse_number s).fractional = true ∧
      ((parse_number s).fractional.length < 2147483648 →
        (parse_number s).scale = (parse_number s).fractional.length) := by
  obtain ⟨sg, ip, fp, hs, hne, hi, hf, rfl⟩ := valid_layout h
  rw [parse_number_layout ⟨hs, hne, hi, hf⟩]
  refine ⟨?_, hne, hi, hf, fun hl => int_of_length hl⟩
  by_cases e : sg = ['-']
  · right; simp [e]
  · left; simp [e]

/-- Witness for the amended C10 at the literal "-0.5". -/
theorem parse_number_invariant_witness :
    is_valid_double "-0.5".toList = true ∧
      (((parse_number "-0.5".toList).sign = '+' ∨ (parse_number "-0.5".toList).sign = '-') ∧
        (parse_number "-0.5".toList).integer ≠ [] ∧
        all_digits (parse_number "-0.5".toList).integer = true ∧
        all_digits (parse_number "-0.5".toList).fractional = true ∧
        ((parse_number "-0.5".toList).fractional.length < 2147483648 →
          (parse_number "-0.5".toList).scale
            = (parse_number "-0.5".toList).fractional.length)) :=
  ⟨by decide, parse_number_invariant _ (by decide)⟩

/-! ## Claims on the components -/

theorem signed_magnitude_cases {s : List Char} (h : signed_magnitude s = true) :
    ∃ (n : Bool) (m : List Char), s = signed_str n m ∧ canonical m = true ∧
      (n = true → m ≠ ['0']) ∧ magnitude s = m := by
  unfold signed_magnitude magnitude at h
  rw [Bool.and_eq_true] at h
  obtain ⟨hc, hz⟩ := h
  have hz2 : s ≠ ['-', '0'] := by simpa using hz
  by_cases hh : s.head? = some '-'
  · rw [if_pos hh] at hc
    cases s with
    | nil => simp at hh
    | cons c t =>
      have hc2 : c = '-' := by simpa using hh
      subst hc2
      refine ⟨true, t, rfl, hc, fun _ e => hz2 ?_, by simp [magnitude]⟩
      rw [e]
  · rw [if_neg hh] at hc
    exact ⟨false, s, rfl, hc, fun e => absurd e (by decide), by simp [magnitude, hh]⟩

theorem signed_value_signed_str (n : Bool) {m : List Char} (hm : canonical m = true) :
    signed_value (signed_str n m) = signed_int n (digits_value m) := by
  unfold signed_value
  cases n
  · rw [if_neg (fun h => Bool.false_ne_true ((signed_str_head hm).1 h))]
    rfl
  · rw [if_pos ((signed_str_head hm).2 rfl)]
    rfl

theorem magnitude_signed_str (n : Bool) {m : List Char} (hm : canonical m = true) :
    magnitude (signed_str n m) = m := signed_str_abs hm

theorem signed_int_neg_iff (n : Bool) {m : List Char} (hm : canonical m = true)
    (hz : n = true → m ≠ ['0']) : signed_int n (digits_value m) < 0 ↔ n = true := by
  have hv := digits_value_nonneg (canonical_digits hm)
  cases n
  · simp only [signed_int_false]
    constructor
    · intro h; omega
    · intro h; exact absurd h (by decide)
  · simp only [signed_int_true]
    have hne : digits_value m ≠ 0 := fun e => hz rfl (canonical_value_zero hm e)
    constructor
    · intro _; trivial
    · intro _; omega

theorem signed_int_sign (n : Bool) {v : Int} (hv : 0 ≤ v) :
    (n = true → signed_int n v ≤ 0) ∧ (n = false → 0 ≤ signed_int n v) := by
  cases n
  · exact ⟨fun h => absurd h (by decide), fun _ => hv⟩
  · exact ⟨fun _ => by simp only [signed_int_true]; omega, fun h => absurd h (by decide)⟩

/-- The sum of two canonical signed magnitudes of at most `2^31` digits is a canonical signed
magnitude of the sum. -/
theorem add_signed_numbers_canonical {a b : List Char} (ha : signed_magnitude a = true)
    (hb : signed_magnitude b = true) (la : (magnitude a).length ≤ 2147483648)
    (lb : (magnitude b).length ≤ 2147483648) :
    signed_magnitude (add_signed_numbers a b) = true ∧
      signed_value (add_signed_numbers a b) = signed_value a + signed_value b := by
  obtain ⟨na, ma, rfl, ca, za, ema⟩ := signed_magnitude_cases ha
  obtain ⟨nb, mb, rfl, cb, zb, emb⟩ := signed_magnitude_cases hb
  rw [ema] at la
  rw [emb] at lb
  obtain ⟨r, hr, hv, he⟩ := add_signed_numbers_spec na nb ca cb la lb
  have sa := signed_int_sign na (digits_value_nonneg (canonical_digits ca))
  have sb := signed_int_sign nb (digits_value_nonneg (canonical_digits cb))
  have hboth : (na && nb) = true →
      signed_int na (digits_value ma) + signed_int nb (digits_value mb) ≤ 0 := by
    intro h
    rw [Bool.and_eq_true] at h
    have := sa.1 h.1
    have := sb.1 h.2
    omega
  rw [he, signed_value_signed_str _ hr, signed_value_signed_str _ ca,
    signed_value_signed_str _ cb, hv, signed_int_abs_of_flag _ _ hboth]
  refine ⟨?_, rfl⟩
  unfold signed_magnitude
  rw [magnitude_signed_str _ hr, hr, Bool.true_and]
  simp only [Bool.not_eq_true', decide_eq_false_iff_not]
  intro e
  cases hf : (decide (signed_int na (digits_value ma) + signed_int nb (digits_value mb) < 0)
      || (na && nb)) with
  | false =>
    rw [hf] at e
    have e2 : r = ['-', '0'] := by simpa [signed_str] using e
    rw [e2] at hr
    exact absurd hr (by decide)
  | true =>
    rw [hf] at e
    have hr0 : r = ['0'] := by simpa [signed_str] using e
    rw [hr0] at hv
    have hz : signed_int na (digits_value ma) + signed_int nb (digits_value mb) = 0 := by
      have h0 : digits_value ['0'] = 0 := by decide
      rw [h0] at hv
      exact abs_eq_zero.1 hv.symm
    rw [hz] at hf
    have hnn : (na && nb) = true := by simpa using hf
    rw [Bool.and_eq_true] at hnn
    have h1 := (signed_int_neg_iff na ca za).2 hnn.1
    have h2 := sb.1 hnn.2
    omega

/-- Adding the signed magnitude "0" on the right changes nothing. -/
theorem add_signed_numbers_zero_right {a : List Char} (ha : signed_magnitude a = true)
    (la : (magnitude a).length ≤ 2147483648) : add_signed_numbers a ['0'] = a := by
  obtain ⟨na, ma, rfl, ca, za, ema⟩ := signed_magnitude_cases ha
  rw [ema] at la
  have c0 : canonical ['0'] = true := by decide
  obtain ⟨r, hr, hv, he⟩ := add_signed_numbers_spec na false ca c0 la (by simp)
  have h0 : digits_value ['0'] = 0 := by decide
  have e0 : signed_str false ['0'] = ['0'] := rfl
  rw [e0] at he
  rw [he]
  simp only [signed_int_false, h0, add_zero, Bool.and_false, Bool.or_false] at hv ⊢
  have hvm := digits_value_nonneg (canonical_digits ca)
  have hr2 : r = ma := by
    apply canonical_unique hr ca
    rw [hv]
    cases na
    · rw [signed_int_false, abs_of_nonneg hvm]
    · rw [signed_int_true, abs_neg, abs_of_nonneg hvm]
  rw [hr2]
  congr 1
  have := signed_int_neg_iff na ca za
  cases na
  · simpa using this
  · simpa using this

/-- Adding the signed magnitude "0" on the left changes nothing. -/
theorem add_signed_numbers_zero_left {b : List Char} (hb : signed_magnitude b = true)
    (lb : (magnitude b).length ≤ 2147483648) : add_signed_numbers ['0'] b = b := by
  obtain ⟨nb, mb, rfl, cb, zb, emb⟩ := signed_magnitude_cases hb
  rw [emb] at lb
  have c0 : canonical ['0'] = true := by decide
  obtain ⟨r, hr, hv, he⟩ := add_signed_numbers_spec false nb c0 cb (by simp) lb
  have h0 : digits_value ['0'] = 0 := by decide
  have e0 : signed_str false ['0'] = ['0'] := rfl
  rw [e0] at he
  rw [he]
  simp only [signed_int_false, h0, zero_add, Bool.false_and, Bool.or_false] at hv ⊢
  have hvm := digits_value_nonneg (canonical_digits cb)
  have hr2 : r = mb := by
    apply canonical_unique hr cb
    rw [hv]
    cases nb
    · rw [signed_int_false, abs_of_nonneg hvm]
    · rw [signed_int_true, abs_neg, abs_of_nonneg hvm]
  rw [hr2]
  congr 1
  have := signed_int_neg_iff nb cb zb
  cases nb
  · simpa using this
  · simpa using this


theorem head_replicate_one {k : Nat} (hk : 0 < k) :
    (List.replicate k '1').head? = some '1' := by
  obtain ⟨j, rfl⟩ : ∃ j, k = j + 1 := ⟨k - 1, by omega⟩
  rw [List.replicate_succ]
  rfl

theorem signed_magnitude_long_ones {k : Nat} (hk : 2 < k) :
    signed_magnitude (List.replicate k '1') = true := by
  have hc : canonical (List.replicate k '1') = true :=
    canonical_replicate (by decide) (by decide) (by omega)
  unfold signed_magnitude
  rw [magnitude_of_canonical hc, hc, Bool.true_and]
  have : List.replicate k '1' ≠ ['-', '0'] :=
    ne_of_length_ne (by rw [List.length_replicate]; simp; omega)
  simp [this]

/-- C11, the failing instance: for the canonical signed magnitude `a` = 2^31 + 1 ones the index
`int i` of `add_absolute` is negative and `add_signed_numbers a "0"` is "0", not `a`. -/
theorem add_signed_numbers_counterexample :
    signed_magnitude (List.replicate 2147483649 '1') = true ∧
      signed_magnitude "0".toList = true ∧
      add_signed_numbers (List.replicate 2147483649 '1') "0".toList = "0".toList ∧
      add_signed_numbers (List.replicate 2147483649 '1') "0".toList
        ≠ List.replicate 2147483649 '1' := by
  have hc : canonical (List.replicate 2147483649 '1') = true :=
    canonical_replicate (by decide) (by decide) (by norm_num)
  have hadd : add_signed_numbers (List.replicate 2147483649 '1') "0".toList = "0".toList := by
    have e : "0".toList = ['0'] := rfl
    rw [e, add_signed_numbers_table, if_neg (canonical_head_ne_minus hc), if_neg (by decide),
      magnitude_of_canonical hc, magnitude_of_canonical (by decide),
      add_absolute_long_zero (by rw [List.length_replicate]; norm_num)
        (by rw [List.length_replicate]; norm_num)]
  refine ⟨signed_magnitude_long_ones (by norm_num), by decide, hadd, ?_⟩
  rw [hadd]
  exact ne_of_length_ne (by rw [List.length_replicate]; simp)

/-- C11, amended: for all canonical signed magnitudes `a`, `b` ("-0" excluded) of at most `2^31`
digits, `add_signed_numbers a b` is the canonical signed magnitude of the integer `a + b`; it
follows the decision table (+,+) `add_absolute`, (+,-) `subtract_absolute |a| |b|`,
(-,+) `subtract_absolute |b| |a|`, (-,-) "-" followed by `add_absolute`; and adding "0" on
either side changes nothing. -/
theorem add_signed_numbers_correct (a b : List Char) (ha : signed_magnitude a = true)
    (hb : signed_magnitude b = true) (la : (magnitude a).length ≤ 2147483648)
    (lb : (magnitude b).length ≤ 2147483648) :
    signed_magnitude (add_signed_numbers a b) = true ∧
      signed_value (add_signed_numbers a b) = signed_value a + signed_value b ∧
      (add_signed_numbers a b =
        if a.head? = some '-' then
          if b.head? = some '-' then '-' :: add_absolute (magnitude a) (magnitude b)
          else subtract_absolute (magnitude b) (magnitude a)
        else
          if b.head? = some '-' then subtract_absolute (magnitude a) (magnitude b)
          else add_absolute (magnitude a) (magnitude b)) ∧
      add_signed_numbers a "0".toList = a ∧ add_signed_numbers "0".toList b = b :=
  ⟨(add_signed_numbers_canonical ha hb la lb).1, (add_signed_numbers_canonical ha hb la lb).2,
    add_signed_numbers_table a b, add_signed_numbers_zero_right ha la,
    add_signed_numbers_zero_left hb lb⟩

/-- Witness for the amended C11 at the signed magnitudes "-123456" and "5000". -/
theorem add_signed_numbers_correct_witness :
    signed_magnitude "-123456".toList = true ∧ signed_magnitude "5000".toList = true ∧
      (magnitude "-123456".toList).length ≤ 2147483648 ∧
      (magnitude "5000".toList).length ≤ 2147483648 ∧
      signed_magnitude (add_signed_numbers "-123456".toList "5000".toList) = true ∧
      signed_value (add_signed_numbers "-123456".toList "5000".toList)
        = signed_value "-123456".toList + signed_value "5000".toList :=
  ⟨by decide, by decide, by decide, by decide,
    (add_signed_numbers_correct _ _ (by decide) (by decide) (by decide) (by decide)).1,
    (add_signed_numbers_correct _ _ (by decide) (by decide) (by decide) (by decide)).2.1⟩

/-- C12, the failing instance: for `a` = 2^31 + 1 ones and `b` = "0" the index
`int i = a.length() - 1` is negative, the loop reads only `b`, and `add_absolute a b` is "0",
whose value is not the sum. -/
theorem add_absolute_counterexample :
    all_digits (List.replicate 2147483649 '1') = true ∧ all_digits "0".toList = true ∧
      add_absolute (List.replicate 2147483649 '1') "0".toList = "0".toList ∧
      digits_value (add_absolute (List.replicate 2147483649 '1') "0".toList)
        ≠ digits_value (List.replicate 2147483649 '1') + digits_value "0".toList := by
  have hc : canonical (List.replicate 2147483649 '1') = true :=
    canonical_replicate (by decide) (by decide) (by norm_num)
  have hne : List.replicate 2147483649 '1' ≠ ['0'] :=
    ne_of_length_ne (by rw [List.length_replicate]; simp)
  have hadd : add_absolute (List.replicate 2147483649 '1') "0".toList = "0".toList :=
    add_absolute_long_zero (by rw [List.length_replicate]; norm_num)
      (by rw [List.length_replicate]; norm_num)
  refine ⟨canonical_digits hc, by decide, hadd, ?_⟩
  rw [hadd]
  have hpos := canonical_value_pos hc hne
  have h0 : digits_value "0".toList = 0 := by decide
  rw [h0]
  omega

/-- C12, amended: for all strings `a`, `b` of decimal digits with at most `2^31` characters
(leading zeros and the empty string allowed), `add_absolute a b` is the canonical decimal
representation of the sum of their values: it is never empty, consists of digits, has no
leading zero unless it is exactly "0", and its value is the exact sum. -/
theorem add_absolute_correct (a b : List Char) (ha : all_digits a = true)
    (hb : all_digits b = true) (la : a.length ≤ 2147483648) (lb : b.length ≤ 2147483648) :
    add_absolute a b ≠ [] ∧ all_digits (add_absolute a b) = true ∧
      ((add_absolute a b).head? = some '0' → add_absolute a b = "0".toList) ∧
      digits_value (add_absolute a b) = digits_value a + digits_value b := by
  obtain ⟨h1, h2⟩ := add_absolute_spec ha hb la lb
  obtain ⟨k1, k2, k3⟩ := (canonical_iff _).1 h1
  refine ⟨k2, k1, fun hh => ?_, h2⟩
  rcases k3 with k3 | k3
  · exact absurd hh k3
  · exact k3

/-- Witness for the amended C12 at the digit strings "0999" and "" (the empty string). -/
theorem add_absolute_correct_witness :
    all_digits "0999".toList = true ∧ all_digits "".toList = true ∧
      "0999".toList.length ≤ 2147483648 ∧ "".toList.length ≤ 2147483648 ∧
      (add_absolute "0999".toList "".toList ≠ [] ∧
        all_digits (add_absolute "0999".toList "".toList) = true ∧
        ((add_absolute "0999".toList "".toList).head? = some '0' →
          add_absolute "0999".toList "".toList = "0".toList) ∧
        digits_value (add_absolute "0999".toList "".toList)
          = digits_value "0999".toList + digits_value "".toList) :=
  ⟨by decide, by decide, by decide, by decide,
    add_absolute_correct _ _ (by decide) (by decide) (by decide) (by decide)⟩

theorem subtract_absolute_self {a : List Char} (ha : canonical a = true)
    (la : a.length ≤ 2147483648) : subtract_absolute a a = ['0'] := by
  obtain ⟨r, h1, h2, h3⟩ := subtract_absolute_spec ha ha la la
  rw [if_neg (lt_irrefl _)] at h2 h3
  rw [h2]
  apply canonical_value_zero h1
  rw [h3]; ring

/-- C13, the failing instance: for the canonical `a` = 2^31 + 1 ones and `b` = "0" the index
`int i` is negative, the loop reads only `b`, and `subtract_absolute a b` is "0", whose value
is not `value a - value b`. -/
theorem subtract_absolute_counterexample :
    canonical (List.replicate 2147483649 '1') = true ∧ canonical "0".toList = true ∧
      digits_value "0".toList ≤ digits_value (List.replicate 2147483649 '1') ∧
      subtract_absolute (List.replicate 2147483649 '1') "0".toList = "0".toList ∧
      digits_value (subtract_absolute (List.replicate 2147483649 '1') "0".toList)
        ≠ digits_value (List.replicate 2147483649 '1') - digits_value "0".toList := by
  have hc : canonical (List.replicate 2147483649 '1') = true :=
    canonical_replicate (by decide) (by decide) (by norm_num)
  have hne : List.replicate 2147483649 '1' ≠ ['0'] :=
    ne_of_length_ne (by rw [List.length_replicate]; simp)
  have hsub : subtract_absolute (List.replicate 2147483649 '1') "0".toList = "0".toList := by
    have e : "0".toList = ['0'] := rfl
    rw [e, subtract_absolute_long_digit (by rw [List.length_replicate]; norm_num)
      (by rw [List.length_replicate]; norm_num)]
    decide
  have hpos := canonical_value_pos hc hne
  have h0 : digits_value "0".toList = 0 := by decide
  refine ⟨hc, by decide, by rw [h0]; omega, hsub, ?_⟩
  rw [hsub, h0]
  omega

/-- C13, amended: for all canonical digit strings `a`, `b` of at most `2^31` characters,
`subtract_absolute a b` is the canonical decimal representation of `value a - value b` when
`value a ≥ value b`, and "-" followed by the canonical representation of `value b - value a`
when `value a < value b`; `subtract_absolute a a` is "0" without a sign. -/
theorem subtract_absolute_correct (a b : List Char) (ha : canonical a = true)
    (hb : canonical b = true) (la : a.length ≤ 2147483648) (lb : b.length ≤ 2147483648) :
    (digits_value b ≤ digits_value a →
        canonical (subtract_absolute a b) = true ∧
          digits_value (subtract_absolute a b) = digits_value a - digits_value b) ∧
      (digits_value a < digits_value b →
        ∃ r, subtract_absolute a b = '-' :: r ∧ canonical r = true ∧
          digits_value r = digits_value b - digits_value a) ∧
      subtract_absolute a a = "0".toList := by
  obtain ⟨r, h1, h2, h3⟩ := subtract_absolute_spec ha hb la lb
  refine ⟨fun hle => ?_, fun hlt => ?_, subtract_absolute_self ha la⟩
  · rw [if_neg (not_lt.2 hle)] at h2 h3
    rw [h2]
    exact ⟨h1, h3⟩
  · rw [if_pos hlt] at h2 h3
    exact ⟨r, h2, h1, h3⟩

/-- Witness for the amended C13 at the canonical digit strings "5000" and "123456". -/
theorem subtract_absolute_correct_witness :
    canonical "5000".toList = true ∧ canonical "123456".toList = true ∧
      "5000".toList.length ≤ 2147483648 ∧ "123456".toList.length ≤ 2147483648 ∧
      ((digits_value "123456".toList ≤ digits_value "5000".toList →
          canonical (subtract_absolute "5000".toList "123456".toList) = true ∧
            digits_value (subtract_absolute "5000".toList "123456".toList)
              = digits_value "5000".toList - digits_value "123456".toList) ∧
        (digits_value "5000".toList < digits_value "123456".toList →
          ∃ r, subtract_absolute "5000".toList "123456".toList = '-' :: r ∧
            canonical r = true ∧
            digits_value r = digits_value "123456".toList - digits_value "5000".toList) ∧
        subtract_absolute "5000".toList "5000".toList = "0".toList) :=
  ⟨by decide, by decide, by decide, by decide,
    subtract_absolute_correct _ _ (by decide) (by decide) (by decide) (by decide)⟩

theorem compare_absolute_shorter {a b : List Char} (h : a.length < b.length) :
    compare_absolute a b = -1 := by
  unfold compare_absolute
  rw [if_neg (by omega), if_pos h]

theorem compare_absolute_longer {a b : List Char} (h : b.length < a.length) :
    compare_absolute a b = 1 := by
  unfold compare_absolute
  rw [if_pos h]

theorem compare_absolute_same_length {a b : List Char} (ha : all_digits a = true)
    (hb : all_digits b = true) (hl : a.length = b.length) :
    compare_absolute a b =
      if digits_value a < digits_value b then -1
      else if digits_value a = digits_value b then 0 else 1 := by
  unfold compare_absolute
  rw [if_neg (by omega), if_neg (by omega)]
  exact compare_loop_spec a b ha hb hl

/-- C14: for all digit strings `a`, `b` that are of equal length, or both canonical (non-empty
and free of leading zeros other than the single "0"), `compare_absolute a b` is -1, 0 or 1
according to whether the number denoted by `a` is less than, equal to or greater than the one
denoted by `b`; a strictly shorter string always gives -1 and a strictly longer one 1. -/
theorem compare_absolute_correct (a b : List Char) (ha : all_digits a = true)
    (hb : all_digits b = true)
    (h : a.length = b.length ∨ (canonical a = true ∧ canonical b = true)) :
    (compare_absolute a b =
        if digits_value a < digits_value b then -1
        else if digits_value a = digits_value b then 0 else 1) ∧
      (∀ x y : List Char, x.length < y.length → compare_absolute x y = -1) ∧
      (∀ x y : List Char, y.length < x.length → compare_absolute x y = 1) := by
  refine ⟨?_, fun x y => compare_absolute_shorter, fun x y => compare_absolute_longer⟩
  rcases h with h | ⟨h1, h2⟩
  · exact compare_absolute_same_length ha hb h
  · exact compare_absolute_spec h1 h2

/-- Witness for C14 at the equal-length digit strings "007" and "123". -/
theorem compare_absolute_correct_witness :
    all_digits "007".toList = true ∧ all_digits "123".toList = true ∧
      ("007".toList.length = "123".toList.length ∨
        (canonical "007".toList = true ∧ canonical "123".toList = true)) ∧
      compare_absolute "007".toList "123".toList =
        (if digits_value "007".toList < digits_value "123".toList then -1
         else if digits_value "007".toList = digits_value "123".toList then 0 else 1) :=
  ⟨by decide, by decide, Or.inl (by decide),
    (compare_absolute_correct _ _ (by decide) (by decide) (Or.inl (by decide))).1⟩

/-- The normalisation step at scale 0 of "0." followed by `k` ones, `k = 2^31`: the stored
scale is `-2^31` and the padding length `0 - scale` overflows. -/
theorem normalize_parts_long {k : Nat} (h1 : 2147483648 ≤ k) (h2 : k ≤ 2147483648) :
    is_valid_double ('0' :: '.' :: List.replicate k '1') = true ∧
      (parse_number ('0' :: '.' :: List.replicate k '1')).scale ≤ 0 ∧
      normalize_parts (parse_number ('0' :: '.' :: List.replicate k '1')) 0 = none := by
  have hfp : List.replicate k '1' ≠ [] :=
    canonical_ne_nil (canonical_replicate (by decide) (by decide) (by omega))
  have l : lit_ok [] ['0'] (List.replicate k '1') :=
    ⟨Or.inl rfl, by simp, by decide, all_digits_replicate_digit (by decide) _⟩
  have e : layout [] ['0'] (List.replicate k '1') = '0' :: '.' :: List.replicate k '1' := by
    rw [layout_frac _ _ hfp]; rfl
  have hsc : int_of ((k : Nat) : Int) = (k : Int) - 4294967296 := by
    unfold int_of
    omega
  rw [← e, parse_number_layout l, List.length_replicate, hsc]
  refine ⟨layout_valid _ l.1 l.2.1 l.2.2.1 l.2.2.2, ?_, ?_⟩
  · show (k : Int) - 4294967296 ≤ 0
    omega
  · exact normalize_parts_overflow _ _ _ _ _ (by omega)

/-- C15, the failing instances.  For the accepted literal "-0" at scale 0 the normalisation step
gives "-0": the magnitude is "0" and yet the string is preceded by '-'.  For the accepted
literal "0." followed by 2^31 ones, whose scale stored in an `int` is -2^31, the step at scale
0 has no result: the padding length `0 - scale` overflows. -/
theorem normalize_parts_zero_counterexample :
    (is_valid_double "-0".toList = true ∧ (parse_number "-0".toList).scale ≤ 0 ∧
      (parse_number "-0".toList).sign = '-' ∧
      normalize_parts (parse_number "-0".toList) 0 = some "-0".toList ∧
      magnitude "-0".toList = "0".toList ∧ "-0".toList.head? = some '-') ∧
    (is_valid_double ('0' :: '.' :: List.replicate 2147483648 '1') = true ∧
      (parse_number ('0' :: '.' :: List.replicate 2147483648 '1')).scale ≤ 0 ∧
      normalize_parts (parse_number ('0' :: '.' :: List.replicate 2147483648 '1')) 0 = none) :=
  ⟨by decide, @normalize_parts_long 2147483648 (Nat.le_refl _) (Nat.le_refl _)⟩

/-- C15, amended: for every string `a` accepted by `is_valid_double` with parts `p` and every
scale `m ≥ p.scale` with `m - p.scale` in the range of `int`, the normalisation step of `main`
gives a signed digit string whose magnitude is the canonical representation of the number
denoted by `p.integer ++ p.fractional` times `10 ^ (m - p.scale)`, preceded by '-' exactly when
`p.sign` is '-'. -/
theorem normalize_parts_correct (a : List Char) (m : Int) (ha : is_valid_double a = true)
    (hm : (parse_number a).scale ≤ m) (hov : m - (parse_number a).scale < 2147483648) :
    ∃ out, normalize_parts (parse_number a) m = some out ∧
      canonical (magnitude out) = true ∧
      digits_value (magnitude out)
        = digits_value ((parse_number a).integer ++ (parse_number a).fractional)
            * 10 ^ (m - (parse_number a).scale).toNat ∧
      (out.head? = some '-' ↔ (parse_number a).sign = '-') := by
  obtain ⟨sg, ip, fp, hs, hne, hi, hf, rfl⟩ := valid_layout ha
  have l : lit_ok sg ip fp := ⟨hs, hne, hi, hf⟩
  rw [parse_number_layout l] at hm hov ⊢
  obtain ⟨c, h1, h2, h3⟩ := normalize_parts_spec l _ m hm hov
  refine ⟨_, h3, ?_⟩
  rw [magnitude_signed_str _ h1, signed_str_head h1]
  refine ⟨h1, h2, ?_⟩
  simp only [decide_eq_true_eq]
  by_cases e : sg = ['-']
  · simp [e]
  · simp [e]

/-- Witness for the amended C15 at the literal "-0.5" and scale 3. -/
theorem normalize_parts_correct_witness :
    is_valid_double "-0.5".toList = true ∧ (parse_number "-0.5".toList).scale ≤ 3 ∧
      3 - (parse_number "-0.5".toList).scale < 2147483648 ∧
      ∃ out, normalize_parts (parse_number "-0.5".toList) 3 = some out ∧
        canonical (magnitude out) = true ∧
        digits_value (magnitude out)
          = digits_value ((parse_number "-0.5".toList).integer
              ++ (parse_number "-0.5".toList).fractional)
            * 10 ^ (3 - (parse_number "-0.5".toList).scale).toNat ∧
        (out.head? = some '-' ↔ (parse_number "-0.5".toList).sign = '-') :=
  ⟨by decide, by decide, by decide,
    normalize_parts_correct _ 3 (by decide) (by decide) (by decide)⟩

theorem signed_str_of_magnitude {s : List Char} (h : canonical (magnitude s) = true) :
    s = signed_str (decide (s.head? = some '-')) (magnitude s) := by
  unfold magnitude at h ⊢
  by_cases hh : s.head? = some '-'
  · cases s with
    | nil => simp at hh
    | cons c t =>
      have hc : c = '-' := by simpa using hh
      subst hc
      simp [signed_str]
  · simp [signed_str, hh]

theorem parts_of_magnitude {r : List Char} (hr : canonical r = true) {k : Nat} (hk : 0 < k) :
    integer_part_of r k ≠ [] ∧ all_digits (integer_part_of r k) = true ∧
      all_digits (fraction_part_of r k) = true ∧ (fraction_part_of r k).length = k ∧
      digits_value (integer_part_of r k ++ fraction_part_of r k) = digits_value r := by
  have hd := canonical_digits hr
  unfold integer_part_of fraction_part_of
  by_cases hl : r.length ≤ k
  · simp only [hl, if_true]
    refine ⟨by simp, by decide, ?_, ?_, ?_⟩
    · rw [all_digits_append, all_digits_replicate, hd]; rfl
    · simp; omega
    · rw [List.singleton_append, digits_value_cons, digit_of_zero, digits_value_append,
        digits_value_replicate_zero]
      simp
  · simp only [hl, if_false]
    refine ⟨?_, ?_, ?_, ?_, ?_⟩
    · intro e
      have := congrArg List.length e
      rw [List.length_take] at this
      simp at this
      omega
    · rw [all_digits_iff] at hd ⊢
      exact fun c hc => hd c (List.mem_of_mem_take hc)
    · rw [all_digits_iff] at hd ⊢
      exact fun c hc => hd c (List.mem_of_mem_drop hc)
    · rw [List.length_drop]; omega
    · rw [List.take_append_drop]

theorem format_result_nonzero (n : Bool) {r : List Char} (hr : canonical r = true)
    (h0 : r ≠ ['0']) (hl : r.length < 2147483648) {k : Nat} (hk : 0 < k)
    (hk2 : k < 2147483648) :
    format_result (signed_str n r) k =
      some ((if n = true then ['-'] else []) ++ integer_part_of r k
        ++ '.' :: fraction_part_of r k) := by
  rw [format_result_signed n hr k, if_neg h0, if_neg (by omega), int_of_length hl]
  unfold integer_part_of fraction_part_of
  by_cases hl2 : r.length ≤ k
  · have e : ((k : Int) - r.length).toNat = k - r.length := by omega
    rw [if_pos (by omega), if_pos ((fits_int_iff _).2 (by omega)), e]
    simp [hl2]
  · have e : ((r.length : Int) - k).toNat = r.length - k := by omega
    rw [if_neg (by omega), if_pos ⟨(fits_int_iff _).2 (by omega), by omega⟩, e]
    simp [hl2]

/-- With `int sum_len` negative, `format_result` at scale 1 takes the branch meant for a
magnitude of at most one digit: a string of `k` ones with `2^31 + 1 < k < 2^32` is printed as "0."
followed by `2^32 + 1 - k` zeros and the whole magnitude. -/
theorem format_result_long_ones {k j : Nat} (h1 : 2147483649 < k) (h2 : k < 4294967296)
    (hj : j + k = 4294967297) :
    format_result (List.replicate k '1') 1
        = some ('0' :: '.' :: (List.replicate j '0' ++ List.replicate k '1')) ∧
      format_result (List.replicate k '1') 1
        ≠ some (integer_part_of (List.replicate k '1') 1
            ++ '.' :: fraction_part_of (List.replicate k '1') 1) := by
  have hc : canonical (List.replicate k '1') = true :=
    canonical_replicate (by decide) (by decide) (by omega)
  have hne : List.replicate k '1' ≠ ['0'] :=
    ne_of_length_ne (by rw [List.length_replicate, List.length_singleton]; omega)
  have hsl : int_of ((k : Nat) : Int) = (k : Int) - 4294967296 := by
    unfold int_of
    omega
  have hfmt : format_result (List.replicate k '1') 1
      = some ('0' :: '.' :: (List.replicate j '0' ++ List.replicate k '1')) := by
    have e : List.replicate k '1' = signed_str false (List.replicate k '1') := rfl
    conv_lhs => rw [e]
    rw [format_result_signed false hc 1, if_neg hne, if_neg (by norm_num),
      List.length_replicate, hsl, if_pos (by omega),
      if_pos ((fits_int_iff ((1 : Int) - ((k : Int) - 4294967296))).2 (by omega))]
    have e2 : ((1 : Int) - ((k : Int) - 4294967296)).toNat = j := by omega
    rw [e2]
    rfl
  refine ⟨hfmt, ?_⟩
  rw [hfmt]
  intro h
  have h2 := congrArg List.head? (Option.some.inj h)
  obtain ⟨i, rfl⟩ : ∃ i, k = i + 2 := ⟨k - 2, by omega⟩
  unfold integer_part_of at h2
  rw [List.length_replicate, if_neg (by omega), List.take_replicate] at h2
  have e3 : min (i + 2 - 1) (i + 2) = i + 1 := by omega
  rw [e3, List.head?_append, head_replicate_one (Nat.succ_pos i)] at h2
  simp at h2

/-- C16, the failing instance: for the canonical magnitude `s` = 2^31 + 5 ones and scale 1,
`int sum_len` is negative, `format_result` takes the branch for a magnitude of at most `k`
digits and returns "0." followed by 2^31 - 4 zeros and `s`, not the first `length - 1` digits,
a '.', and the last digit. -/
theorem format_result_counterexample :
    canonical (magnitude (List.replicate 2147483653 '1')) = true ∧
      magnitude (List.replicate 2147483653 '1') ≠ "0".toList ∧
      format_result (List.replicate 2147483653 '1') 1
        = some ('0' :: '.' ::
            (List.replicate 2147483644 '0' ++ List.replicate 2147483653 '1')) ∧
      format_result (List.replicate 2147483653 '1') 1
        ≠ some (integer_part_of (magnitude (List.replicate 2147483653 '1')) 1
            ++ '.' :: fraction_part_of (magnitude (List.replicate 2147483653 '1')) 1) := by
  have hc : canonical (List.replicate 2147483653 '1') = true :=
    canonical_replicate (by decide) (by decide) (by norm_num)
  have hne : List.replicate 2147483653 '1' ≠ ['0'] :=
    ne_of_length_ne (by rw [List.length_replicate, List.length_singleton]; norm_num)
  have hl := @format_result_long_ones 2147483653 2147483644 (by norm_num) (by norm_num)
    (by norm_num)
  rw [magnitude_of_canonical hc]
  exact ⟨hc, hne, hl.1, hl.2⟩

/-- C16, amended: for every canonical signed magnitude `s` with a non-zero magnitude of fewer
than `2^31` digits and every scale `k` below `2^31`: `format_result s 0 = s`; and for `k > 0`,
`format_result s k` is the sign of `s`, an integer part of at least one digit, a '.', and
exactly `k` fractional digits, where the integer part is "0" when the magnitude has at most `k`
digits and otherwise its first `length - k` digits; removing the '.' and stripping leading
zeros gives back the magnitude, and the output denotes the value of `s` divided by `10 ^ k`. -/
theorem format_result_correct (s : List Char) (k : Nat) (hs : canonical (magnitude s) = true)
    (hnz : magnitude s ≠ "0".toList) (hl : (magnitude s).length < 2147483648)
    (hk2 : k < 2147483648) :
    format_result s 0 = some s ∧
      (0 < k →
        format_result s k =
            some ((if s.head? = some '-' then ['-'] else []) ++ integer_part_of (magnitude s) k
              ++ '.' :: fraction_part_of (magnitude s) k) ∧
          integer_part_of (magnitude s) k ≠ [] ∧
          all_digits (integer_part_of (magnitude s) k) = true ∧
          all_digits (fraction_part_of (magnitude s) k) = true ∧
          (fraction_part_of (magnitude s) k).length = k ∧
          strip_leading_zeros (integer_part_of (magnitude s) k ++ fraction_part_of (magnitude s) k)
            = magnitude s ∧
          decimal_value ((if s.head? = some '-' then ['-'] else [])
              ++ integer_part_of (magnitude s) k ++ '.' :: fraction_part_of (magnitude s) k)
            = (signed_value s : ℚ) / (10 : ℚ) ^ k) := by
  have hstr := signed_str_of_magnitude hs
  have hnz2 : magnitude s ≠ ['0'] := hnz
  constructor
  · conv_lhs => rw [hstr]
    rw [format_result_scale_zero _ hs, ← hstr]
  · intro hk
    obtain ⟨p1, p2, p3, p4, p5⟩ := parts_of_magnitude hs hk
    have hfmt : format_result s k =
        some ((if s.head? = some '-' then ['-'] else []) ++ integer_part_of (magnitude s) k
          ++ '.' :: fraction_part_of (magnitude s) k) := by
      conv_lhs => rw [hstr]
      rw [format_result_nonzero _ hs hnz2 hl hk hk2]
      simp only [decide_eq_true_eq]
    refine ⟨hfmt, p1, p2, p3, p4, ?_, ?_⟩
    · apply canonical_unique (canonical_strip (by rw [all_digits_append, p2, p3]; rfl)) hs
      rw [digits_value_strip, p5]
    · have hfne : fraction_part_of (magnitude s) k ≠ [] := by
        intro e; rw [e] at p4; simp at p4; omega
      have hsg : (if s.head? = some '-' then ['-'] else ([] : List Char)) = [] ∨
          (if s.head? = some '-' then ['-'] else ([] : List Char)) = ['+'] ∨
          (if s.head? = some '-' then ['-'] else ([] : List Char)) = ['-'] := by
        by_cases hh : s.head? = some '-'
        · rw [if_pos hh]; exact Or.inr (Or.inr rfl)
        · rw [if_neg hh]; exact Or.inl rfl
      rw [← layout_frac _ _ hfne, decimal_value_layout _ hsg p1 p2, p4, p5]
      unfold signed_value magnitude
      by_cases hh : s.head? = some '-'
      · simp [hh, signed_int]
      · simp [hh, signed_int]

/-- Witness for the amended C16 at the signed magnitude "-118456" and scale 3. -/
theorem format_result_correct_witness :
    canonical (magnitude "-118456".toList) = true ∧ magnitude "-118456".toList ≠ "0".toList ∧
      (magnitude "-118456".toList).length < 2147483648 ∧ 3 < 2147483648 ∧
      format_result "-118456".toList 0 = some "-118456".toList ∧
      format_result "-118456".toList 3
        = some ((if "-118456".toList.head? = some '-' then ['-'] else [])
            ++ integer_part_of (magnitude "-118456".toList) 3
            ++ '.' :: fraction_part_of (magnitude "-118456".toList) 3) :=
  ⟨by decide, by decide, by decide, by decide,
    (format_result_correct _ 3 (by decide) (by decide) (by decide) (by decide)).1,
    ((format_result_correct _ 3 (by decide) (by decide) (by decide) (by decide)).2
      (by decide)).1⟩

/-- C17, the failing instance: `format_result` of "-0" at scale 0 is "-0", which starts with
'-'. -/
theorem format_result_zero_counterexample :
    magnitude "-0".toList = "0".toList ∧ format_result "-0".toList 0 = some "-0".toList ∧
      format_result "-0".toList 2 = some "-0.00".toList := by
  decide

/-- C17, amended: for every scale `k`, `format_result` of "0" is "0" when `k = 0` and "0."
followed by `k` zeros when `k > 0`, and `format_result` of "-0" is that same text preceded by
'-' (the sign of the input is kept). -/
theorem format_result_zero (k : Nat) :
    format_result "0".toList k
        = some (if k = 0 then "0".toList else "0.".toList ++ List.replicate k '0') ∧
      format_result "-0".toList k
        = some ('-' :: (if k = 0 then "0".toList else "0.".toList ++ List.replicate k '0')) := by
  have c0 : canonical ['0'] = true := by decide
  have e1 : "0".toList = signed_str false ['0'] := rfl
  have e2 : "-0".toList = signed_str true ['0'] := rfl
  rw [e1, e2, format_result_signed false c0 k, format_result_signed true c0 k]
  by_cases hk : k = 0
  · subst hk
    decide
  · have hpos : (k : Int) > 0 := by omega
    rw [if_pos rfl, if_pos hpos, if_pos rfl, if_pos hpos, Int.toNat_ofNat]
    simp [hk]

/-- The sign of a three-operand sum does not depend on the grouping. -/
theorem sign_flag_assoc {A B C : Int} (na nb nc : Bool) {n1 n2 nL nR : Bool}
    (ha : na = true → A ≤ 0) (hc : nc = true → C ≤ 0)
    (h1 : n1 = true ↔ (A + B < 0 ∨ (na = true ∧ nb = true)))
    (h2 : n2 = true ↔ (B + C < 0 ∨ (nb = true ∧ nc = true)))
    (hL : nL = true ↔ (A + B + C < 0 ∨ (n1 = true ∧ nc = true)))
    (hR : nR = true ↔ (A + (B + C) < 0 ∨ (na = true ∧ n2 = true))) : nL = nR := by
  rw [Bool.eq_iff_iff, hL, hR, h1, h2]
  constructor
  · rintro (h | ⟨h | ⟨h, h'⟩, h3⟩)
    · left; omega
    · left; have := hc h3; omega
    · right; exact ⟨h, Or.inr ⟨h', h3⟩⟩
  · rintro (h | ⟨h3, h | ⟨h, h'⟩⟩)
    · left; omega
    · left; have := ha h3; omega
    · right; exact ⟨Or.inr ⟨h3, h⟩, h'⟩

theorem flag_sign_eq (n : Bool) :
    ((if n = true then ['-'] else ([] : List Char)) = ['-']) ↔ n = true := by
  cases n <;> simp

theorem sign_eq_decide {sg : List Char} : decide (sg = ['-']) = true ↔ sg = ['-'] := by
  simp

theorem valid_of_canonical {x : List Char} (hx : canonical x = true) :
    is_valid_double x = true := by
  have := @layout_valid [] x [] (Or.inl rfl) (canonical_ne_nil hx) (canonical_digits hx) rfl
  rwa [layout_nil_frac, List.nil_append] at this

/-- Adding "1" to a string of `k` nines, `0 < k ≤ 2^31`, gives '1' followed by `k` zeros. -/
theorem add_nines_one {k : Nat} (h0 : 0 < k) (hk : k ≤ 2147483648) :
    add (List.replicate k '9') ['1'] = some ('1' :: List.replicate k '0') := by
  have ca : canonical (List.replicate k '9') = true :=
    canonical_replicate (by decide) (by decide) h0
  have c1 : canonical ['1'] = true := by decide
  rw [add_integers ca c1]
  obtain ⟨h1, h2⟩ := add_absolute_spec (canonical_digits ca) (canonical_digits c1)
    (by rw [List.length_replicate]; exact hk) (by rw [List.length_singleton]; omega)
  have v1 : digits_value ['1'] = 1 := by decide
  rw [digits_value_replicate_nine, v1] at h2
  congr 1
  apply canonical_unique h1 (canonical_cons_replicate (by decide) (by decide) (by decide) k)
  rw [h2, digits_value_one_zeros]
  ring

/-- Adding "-1" to a canonical string of more than `2^31` digits gives "9": the loop of
`subtract_absolute` reads no digit of the long operand. -/
theorem add_long_minus_one {x : List Char} (hx : canonical x = true)
    (h1 : 2147483648 < x.length) (h2 : x.length ≤ 4294967296) :
    add x ['-', '1'] = some ['9'] := by
  have c1 : canonical ['1'] = true := by decide
  rw [add_integer_negative hx c1, subtract_absolute_long_digit h1 h2,
    index_down_eq (by rw [List.length_singleton]; omega)]
  decide

/-- Adding "0" to a string of `k` nines, `0 < k ≤ 2^31`, gives the string back. -/
theorem add_nines_zero {k : Nat} (h0 : 0 < k) (hk : k ≤ 2147483648) :
    add (List.replicate k '9') ['0'] = some (List.replicate k '9') := by
  have ca : canonical (List.replicate k '9') = true :=
    canonical_replicate (by decide) (by decide) h0
  have c0 : canonical ['0'] = true := by decide
  rw [add_integers ca c0]
  obtain ⟨h1, h2⟩ := add_absolute_spec (canonical_digits ca) (canonical_digits c0)
    (by rw [List.length_replicate]; exact hk) (by rw [List.length_singleton]; omega)
  have v0 : digits_value ['0'] = 0 := by decide
  rw [v0, add_zero] at h2
  congr 1
  exact canonical_unique h1 ca h2

/-- The two groupings of `k` nines, "1" and "-1" for `k = 2^31`: the left one passes through
'1' followed by `2^31` zeros, which is too long for the `int` index. -/
theorem add_assoc_long {k : Nat} (h1 : 2147483648 ≤ k) (h2 : k ≤ 2147483648) :
    is_valid_double (List.replicate k '9') = true ∧
      (add (List.replicate k '9') ['1']).bind (fun x => add x ['-', '1']) = some ['9'] ∧
      (add ['1'] ['-', '1']).bind (fun x => add (List.replicate k '9') x)
        = some (List.replicate k '9') ∧
      (add (List.replicate k '9') ['1']).bind (fun x => add x ['-', '1'])
        ≠ (add ['1'] ['-', '1']).bind (fun x => add (List.replicate k '9') x) := by
  have ca : canonical (List.replicate k '9') = true :=
    canonical_replicate (by decide) (by decide) (by omega)
  have eL : (add (List.replicate k '9') ['1']).bind (fun x => add x ['-', '1'])
      = some ['9'] := by
    rw [add_nines_one (by omega) h2, Option.some_bind]
    exact add_long_minus_one (canonical_cons_replicate (by decide) (by decide) (by decide) k)
      (by rw [List.length_cons, List.length_replicate]; omega)
      (by rw [List.length_cons, List.length_replicate]; omega)
  have e0 : add ['1'] ['-', '1'] = some ['0'] := by decide
  have eR : (add ['1'] ['-', '1']).bind (fun x => add (List.replicate k '9') x)
      = some (List.replicate k '9') := by
    rw [e0, Option.some_bind]
    exact add_nines_zero (by omega) h2
  refine ⟨valid_of_canonical ca, eL, eR, ?_⟩
  rw [eL, eR]
  intro h
  have := congrArg List.length (Option.some.inj h)
  rw [List.length_singleton, List.length_replicate] at this
  omega

/-- C19, the failing instance: for `a` = 2^31 nines, `b` = "1" and `c` = "-1", all accepted,
the grouping `(a + b) + c` gives "9" and the grouping `a + (b + c)` gives `a`. -/
theorem add_assoc_counterexample :
    is_valid_double (List.replicate 2147483648 '9') = true ∧
      is_valid_double "1".toList = true ∧ is_valid_double "-1".toList = true ∧
      (add (List.replicate 2147483648 '9') "1".toList).bind (fun x => add x "-1".toList)
        = some "9".toList ∧
      (add "1".toList "-1".toList).bind (fun x => add (List.replicate 2147483648 '9') x)
        = some (List.replicate 2147483648 '9') ∧
      (add (List.replicate 2147483648 '9') "1".toList).bind (fun x => add x "-1".toList)
        ≠ (add "1".toList "-1".toList).bind (fun x => add (List.replicate 2147483648 '9') x) :=
  have h := @add_assoc_long 2147483648 (Nat.le_refl _) (Nat.le_refl _)
  ⟨h.1, by decide, by decide, h.2.1, h.2.2.1, h.2.2.2⟩

/-- C19, amended: for all strings `a`, `b`, `c` accepted by `is_valid_double` whose lengths add
up to less than `2^31 - 2`, both groupings `(a + b) + c` and `a + (b + c)` return, and they
return the same string. -/
theorem add_assoc_valid (a b c : List Char) (ha : is_valid_double a = true)
    (hb : is_valid_double b = true) (hc : is_valid_double c = true)
    (hlen : a.length + b.length + c.length < 2147483646) :
    ∃ out, (add a b).bind (fun x => add x c) = some out ∧
      (add b c).bind (fun x => add a x) = some out := by
  obtain ⟨sga, ipa, fpa, hsa, hnea, hia, hfa, rfl⟩ := valid_layout ha
  obtain ⟨sgb, ipb, fpb, hsb, hneb, hib, hfb, rfl⟩ := valid_layout hb
  obtain ⟨sgc, ipc, fpc, hsc, hnec, hic, hfc, rfl⟩ := valid_layout hc
  have la : lit_ok sga ipa fpa := ⟨hsa, hnea, hia, hfa⟩
  have lb : lit_ok sgb ipb fpb := ⟨hsb, hneb, hib, hfb⟩
  have lc : lit_ok sgc ipc fpc := ⟨hsc, hnec, hic, hfc⟩
  have ba := layout_length sga ipa fpa
  have bb := layout_length sgb ipb fpb
  have bc := layout_length sgc ipc fpc
  obtain ⟨n1, ip1, fp1, l1, _, len1, ipl1, e1, s1⟩ := add_layout_scaled la lb (by omega)
  obtain ⟨n2, ip2, fp2, l2, _, len2, ipl2, e2, s2⟩ := add_layout_scaled lb lc (by omega)
  obtain ⟨nL, ipL, fpL, lL, cL, lenL, _, eL, sL⟩ := add_layout_scaled l1 lc
    (by rw [len1]; omega)
  obtain ⟨nR, ipR, fpR, lR, cR, lenR, _, eR, sR⟩ := add_layout_scaled la l2
    (by rw [len2]; omega)
  rw [e1, e2, Option.some_bind, Option.some_bind, eL, eR]
  rw [len1] at lenL sL
  rw [len2] at lenR sR
  have hM : max fpa.length (max fpb.length fpc.length)
      = max (max fpa.length fpb.length) fpc.length := (max_assoc _ _ _).symm
  rw [hM] at lenR sR
  obtain ⟨vL, fL⟩ := sL _ le_rfl
  obtain ⟨vR, fR⟩ := sR _ le_rfl
  obtain ⟨v1, f1⟩ := s1 (max (max fpa.length fpb.length) fpc.length) (le_max_left _ _)
  obtain ⟨v2, f2⟩ := s2 (max (max fpa.length fpb.length) fpc.length)
    (max_le ((le_max_right _ _).trans (le_max_left _ _)) (le_max_right _ _))
  rw [v1] at vL fL
  rw [v2] at vR fR
  rw [flag_sign_eq] at fL fR
  have hn : nL = nR :=
    sign_flag_assoc (decide (sga = ['-'])) (decide (sgb = ['-'])) (decide (sgc = ['-']))
      (fun h => scaled_int_nonpos la _ (sign_eq_decide.1 h))
      (fun h => scaled_int_nonpos lc _ (sign_eq_decide.1 h))
      (by simpa using f1) (by simpa using f2) (by simpa using fL) (by simpa using fR)
  have hv : digits_value (ipL ++ fpL) = digits_value (ipR ++ fpR) := by
    have aL := abs_scaled_int_self lL
    have aR := abs_scaled_int_self lR
    rw [lenL, vL] at aL
    rw [lenR, vR] at aR
    rw [← aL, ← aR, add_assoc]
  obtain ⟨i1, i2⟩ := layout_parts_unique cL lL.2.2.2 cR lR.2.2.2 (lenL.trans lenR.symm) hv
  rw [hn, i1, i2]
  exact ⟨_, rfl, rfl⟩

/-- Witness for the amended C19 at the literals "-0.5", "12.25" and "-11.750". -/
theorem add_assoc_valid_witness :
    is_valid_double "-0.5".toList = true ∧ is_valid_double "12.25".toList = true ∧
      is_valid_double "-11.750".toList = true ∧
      "-0.5".toList.length + "12.25".toList.length + "-11.750".toList.length < 2147483646 ∧
      ∃ out, (add "-0.5".toList "12.25".toList).bind (fun x => add x "-11.750".toList)
          = some out ∧
        (add "12.25".toList "-11.750".toList).bind (fun x => add "-0.5".toList x) = some out :=
  ⟨by decide, by decide, by decide, by decide,
    add_assoc_valid _ _ _ (by decide) (by decide) (by decide) (by decide)⟩

/-- C20: for all strings `a` and `b`, `compare_absolute a b = -compare_absolute b a`, and
`compare_absolute a b = 0` exactly when `a` and `b` are the same string. -/
theorem compare_absolute_antisymm :
    (∀ a b : List Char, compare_absolute a b = -compare_absolute b a) ∧
      (∀ a b : List Char, compare_absolute a b = 0 ↔ a = b) := by
  constructor
  · intro a b
    unfold compare_absolute
    rcases lt_trichotomy a.length b.length with h | h | h
    · rw [if_neg (by omega), if_pos h, if_pos h]
    · rw [if_neg (by omega), if_neg (by omega), if_neg (by omega), if_neg (by omega)]
      exact compare_loop_antisymm a b
    · rw [if_pos h, if_neg (by omega), if_pos h]; rfl
  · intro a b
    unfold compare_absolute
    rcases lt_trichotomy a.length b.length with h | h | h
    · rw [if_neg (by omega), if_pos h]
      have : a ≠ b := fun e => by rw [e] at h; omega
      simp [this]
    · rw [if_neg (by omega), if_neg (by omega)]
      exact compare_loop_zero_iff a b h
    · rw [if_pos h]
      have : a ≠ b := fun e => by rw [e] at h; omega
      simp [this]

end DecimalAdd
